import Mathlib

/-!
# Verification of the Elementary-MC-model KMC simulator core

Shallow embedding of the ensemble KMC simulator (`RustCode/model_1_002`):
the lattice neighbor tables (`lattice.rs`), the dual frontier index
(`frontier.rs`), the per-replica scalar log (`state.rs`), the helpers
(`utils.rs`) and the per-replica mode-2 step kernels (`item.rs`).

Embedding conventions:
* `usize` indices are `ℕ`; the `usize::MAX` "no neighbor" sentinel is
  modelled by `Option ℕ` (`none` = sentinel).
* Heap arrays (`Box<[u8]>`, `Box<[usize]>`) are modelled as total
  functions `ℕ → ℕ`; all accesses made by the program are in bounds,
  which the invariants track.  `Vec<usize>` is a `List ℕ`.
* `f64` scalars that the kernels combine by field arithmetic and compare
  by sign are modelled as `ℚ`.  The transcendental acceptance tests
  (`exp`, `powf`) are modelled separately over `ℝ`.
* A Rust panic (indexing out of bounds, `pop().unwrap()` on an empty
  vector, `random_range(0..0)`) is modelled by `Option`: `none` means
  the program aborts.
* The RNG draws consumed by one kernel step are abstracted as an
  `Oracle`: the sampled positions are arbitrary naturals (reduced by
  `%` as a uniform choice in range), and the outcome of each
  floating-point acceptance comparison is an arbitrary `Bool`.
  Universally quantified theorems therefore cover every possible run.
-/

namespace EMC

/-- Pointwise array write: the embedding of `a[i] = v` on a boxed slice. -/
def upd {α : Type} (f : ℕ → α) (i : ℕ) (v : α) : ℕ → α :=
  fun j => if j = i then v else f j

@[simp] theorem upd_same {α : Type} (f : ℕ → α) (i : ℕ) (v : α) :
    upd f i v i = v := by simp [upd]

theorem upd_ne {α : Type} (f : ℕ → α) {i j : ℕ} (v : α) (h : j ≠ i) :
    upd f i v j = f j := by simp [upd, h]

/-! ## Lattice (`lattice.rs`)

`Grid::new` precomputes, for every linear index and each of the six
directions `[-x, +x, -y, +y, -z, +z]`, the neighbor index or the
sentinel.  We embed the per-entry computation of `Grid::precomp_neibs`
as a function of the dimensions, the periodicity flags, the index and
the direction. -/

/-- `Grid::xyz_to_periodic_sub`: keep an in-range coordinate, wrap by
Euclidean remainder when the axis is periodic, otherwise the sentinel. -/
def xyz_to_periodic_sub (coord : ℤ) (dim_size : ℕ) (periodic : Bool) : Option ℕ :=
  if 0 ≤ coord ∧ coord < (dim_size : ℤ) then some coord.toNat
  else if periodic then some (coord.emod (dim_size : ℤ)).toNat
  else none

/-- The coordinate offset of each direction, in the fixed order
`[-x, +x, -y, +y, -z, +z]` of `Grid::precomp_neibs`. -/
def dir_offset (d : Fin 6) : ℤ × ℤ × ℤ :=
  match d with
  | ⟨0, _⟩ => (-1, 0, 0)
  | ⟨1, _⟩ => (1, 0, 0)
  | ⟨2, _⟩ => (0, -1, 0)
  | ⟨3, _⟩ => (0, 1, 0)
  | ⟨4, _⟩ => (0, 0, -1)
  | ⟨5, _⟩ => (0, 0, 1)
  | ⟨n + 6, h⟩ => absurd h (by omega)

/-- The direction with the opposite offset: `-axis ↔ +axis`. -/
def opposite_dir (d : Fin 6) : Fin 6 :=
  match d with
  | ⟨0, _⟩ => 1
  | ⟨1, _⟩ => 0
  | ⟨2, _⟩ => 3
  | ⟨3, _⟩ => 2
  | ⟨4, _⟩ => 5
  | ⟨5, _⟩ => 4
  | ⟨n + 6, h⟩ => absurd h (by omega)

/-- One entry of the precomputed neighbor table: decode `idx` as in
`Grid::idx_to_xyz` (`z = idx % nz`, `y = (idx / nz) % ny`,
`x = idx / (nz·ny)`), offset one axis, re-wrap each axis, and re-encode
as in `Grid::xyz_to_idx` (`z + y·nz + x·nz·ny`). -/
def grid_neib (nx ny nz : ℕ) (px py pz : Bool) (idx : ℕ) (d : Fin 6) : Option ℕ :=
  let x := idx / (nz * ny)
  let y := (idx / nz) % ny
  let z := idx % nz
  let o := dir_offset d
  match xyz_to_periodic_sub ((x : ℤ) + o.1) nx px,
        xyz_to_periodic_sub ((y : ℤ) + o.2.1) ny py,
        xyz_to_periodic_sub ((z : ℤ) + o.2.2) nz pz with
  | some xp, some yp, some zp => some (zp + yp * nz + xp * (nz * ny))
  | _, _, _ => none

/-! ## Frontier (`frontier.rs`)

Dense member vectors `tpas`/`tpbs` (`GasAdj`/`CrystalAdj`), a per-site
tag (`idxg_to_type`: 0 none, 2 `tpas`, 3 `tpbs`) and a reverse map
(`idxg_to_idxl`).  `tpa_rem`/`tpb_rem` call `pop().unwrap()`, which
panics on an empty vector, hence they return `Option`. -/

structure Frontier where
  tpas : List ℕ
  tpbs : List ℕ
  idxg_to_type : ℕ → ℕ
  idxg_to_idxl : ℕ → ℕ
  tpas_size : ℕ
  tpbs_size : ℕ

/-- `Frontier::new` (the capacity hint is irrelevant to behavior). -/
def Frontier.new (_total_grid_size : ℕ) : Frontier :=
  { tpas := [], tpbs := [],
    idxg_to_type := fun _ => 0, idxg_to_idxl := fun _ => 0,
    tpas_size := 0, tpbs_size := 0 }

def Frontier.tpa_add (f : Frontier) (idxg : ℕ) : Frontier :=
  if f.idxg_to_type idxg = 2 then f
  else
    { f with
      idxg_to_idxl := upd f.idxg_to_idxl idxg f.tpas_size,
      tpas := f.tpas ++ [idxg],
      idxg_to_type := upd f.idxg_to_type idxg 2,
      tpas_size := f.tpas_size + 1 }

def Frontier.tpa_rem (f : Frontier) (idxg : ℕ) : Option Frontier :=
  if f.idxg_to_type idxg ≠ 2 then some f
  else
    -- the Rust locals `t'`, `idxl`, `size'` are inlined below;
    -- `pop().unwrap()` on an empty vector panics (`none`)
    match f.tpas.getLast? with
    | none => none
    | some last_idxg =>
      if f.idxg_to_idxl idxg ≠ f.tpas_size - 1 then
        some { f with
               idxg_to_type := upd f.idxg_to_type idxg 0,
               tpas_size := f.tpas_size - 1,
               tpas := f.tpas.dropLast.set (f.idxg_to_idxl idxg) last_idxg,
               idxg_to_idxl :=
                 upd (upd f.idxg_to_idxl last_idxg (f.idxg_to_idxl idxg)) idxg 0 }
      else
        some { f with
               idxg_to_type := upd f.idxg_to_type idxg 0,
               tpas_size := f.tpas_size - 1,
               tpas := f.tpas.dropLast,
               idxg_to_idxl := upd f.idxg_to_idxl idxg 0 }

def Frontier.tpb_add (f : Frontier) (idxg : ℕ) : Frontier :=
  if f.idxg_to_type idxg = 3 then f
  else
    { f with
      idxg_to_idxl := upd f.idxg_to_idxl idxg f.tpbs_size,
      tpbs := f.tpbs ++ [idxg],
      idxg_to_type := upd f.idxg_to_type idxg 3,
      tpbs_size := f.tpbs_size + 1 }

def Frontier.tpb_rem (f : Frontier) (idxg : ℕ) : Option Frontier :=
  if f.idxg_to_type idxg ≠ 3 then some f
  else
    -- the Rust locals `t'`, `idxl`, `size'` are inlined below;
    -- `pop().unwrap()` on an empty vector panics (`none`)
    match f.tpbs.getLast? with
    | none => none
    | some last_idxg =>
      if f.idxg_to_idxl idxg ≠ f.tpbs_size - 1 then
        some { f with
               idxg_to_type := upd f.idxg_to_type idxg 0,
               tpbs_size := f.tpbs_size - 1,
               tpbs := f.tpbs.dropLast.set (f.idxg_to_idxl idxg) last_idxg,
               idxg_to_idxl :=
                 upd (upd f.idxg_to_idxl last_idxg (f.idxg_to_idxl idxg)) idxg 0 }
      else
        some { f with
               idxg_to_type := upd f.idxg_to_type idxg 0,
               tpbs_size := f.tpbs_size - 1,
               tpbs := f.tpbs.dropLast,
               idxg_to_idxl := upd f.idxg_to_idxl idxg 0 }

/-! ## SimLog (`state.rs`)

Only the scalar `val` fields are modelled; the gated history vectors
(`LogEntry.log`, `push_if_enabled`) and the output files record past
values and never feed back into the computation. -/

structure SimLog where
  k_t : ℚ
  p_b : ℚ
  p_pow : ℚ
  conc_eq : ℚ
  conc : ℚ
  conc_neg_count : ℕ
  n_tot : ℚ
  n_cryst : ℚ
  n_gas : ℚ
  dg : ℚ
  tot_denergy : ℚ
  mk_step : ℕ

/-- `SimLog::update_n_sizes`: `n_cryst += dn; n_gas -= dn`. -/
def SimLog.update_n_sizes (s : SimLog) (dn_cryst : ℚ) : SimLog :=
  { s with n_cryst := s.n_cryst + dn_cryst, n_gas := s.n_gas - dn_cryst }

/-- `SimLog::update_conc`: store `n_gas / (n_tot - n_cryst)` and count
(but do not reject or revert) a negative result. -/
def SimLog.update_conc (s : SimLog) : SimLog :=
  let c := s.n_gas / (s.n_tot - s.n_cryst)
  { s with conc := c,
           conc_neg_count := if c < 0 then s.conc_neg_count + 1 else s.conc_neg_count }

/-- `SimLog::add_denergy`. -/
def SimLog.add_denergy (s : SimLog) (tot_denergy : ℚ) : SimLog :=
  { s with tot_denergy := s.tot_denergy + tot_denergy }

/-! ## Helpers (`utils.rs` and the kernel's inline expressions) -/

/-- One direction's contribution to `compute_neighbor_sums`: 1 when the
neighbor exists and is crystal. -/
def neib_is_crystal (states : ℕ → ℕ) (row : Fin 6 → Option ℕ) (d : Fin 6) : ℕ :=
  match row d with
  | some idx => if states idx = 1 then 1 else 0
  | none => 0

/-- `compute_neighbor_sums`: per-axis crystal-neighbor counts
`(x: dirs 0,1; y: dirs 2,3; z: dirs 4,5)`, the loop unrolled. -/
def compute_neighbor_sums (states : ℕ → ℕ) (row : Fin 6 → Option ℕ) : ℕ × ℕ × ℕ :=
  (neib_is_crystal states row 0 + neib_is_crystal states row 1,
   neib_is_crystal states row 2 + neib_is_crystal states row 3,
   neib_is_crystal states row 4 + neib_is_crystal states row 5)

/-- The attachment surface-energy change: the three `match` blocks on
the axis counts (`0 => += e2`, `2 => -= e2`, otherwise nothing). -/
def surf_attach (ex2 ey2 ez2 : ℚ) (sm : ℕ × ℕ × ℕ) : ℚ :=
  (match sm.1 with | 0 => ex2 | 2 => -ex2 | _ => 0)
  + (match sm.2.1 with | 0 => ey2 | 2 => -ey2 | _ => 0)
  + (match sm.2.2 with | 0 => ez2 | 2 => -ez2 | _ => 0)

/-- The detachment surface-energy change: signs negated
(`0 => -= e2`, `2 => += e2`). -/
def surf_detach (ex2 ey2 ez2 : ℚ) (sm : ℕ × ℕ × ℕ) : ℚ :=
  (match sm.1 with | 0 => -ex2 | 2 => ex2 | _ => 0)
  + (match sm.2.1 with | 0 => -ey2 | 2 => ey2 | _ => 0)
  + (match sm.2.2 with | 0 => -ez2 | 2 => ez2 | _ => 0)

/-- The kernel's inline closure
`neibs[n].iter().any(|&m| m != usize::MAX && states[m] == v)`. -/
def any_neib_state (neibs : ℕ → Fin 6 → Option ℕ) (states : ℕ → ℕ)
    (n : ℕ) (v : ℕ) : Bool :=
  (List.finRange 6).any fun d =>
    match neibs n d with
    | some m => states m == v
    | none => false

/-- The inner neighbor loop of `rebuild_front` for one crystal site:
add every existing gas neighbor to `tpas`, noting whether one was seen. -/
def rebuild_front_site (states : ℕ → ℕ) (neibs : ℕ → Fin 6 → Option ℕ)
    (i : ℕ) (front : Frontier) : Frontier × Bool :=
  (List.finRange 6).foldl
    (fun acc d =>
      match neibs i d with
      | some neib_idx =>
          if states neib_idx = 0 then (acc.1.tpa_add neib_idx, true) else acc
      | none => acc)
    (front, false)

/-- `rebuild_front`: scan the `size`-long phase array once; for each
crystal site add its gas neighbors to `tpas` and, if it has one, the
site itself to `tpbs`; return the updated frontier and the crystal
count (`cluster_size`). -/
def rebuild_front (states : ℕ → ℕ) (neibs : ℕ → Fin 6 → Option ℕ)
    (size : ℕ) (front : Frontier) : Frontier × ℚ :=
  (List.range size).foldl
    (fun acc i =>
      if states i = 1 then
        let inner := rebuild_front_site states neibs i acc.1
        (if inner.2 then inner.1.tpb_add i else inner.1, acc.2 + 1)
      else acc)
    (front, 0)

/-! ## Replica and step kernels (`item.rs`)

The kernels' RNG consumption is abstracted by an `Oracle` per step:
`random_range(0..len)` is modelled as `o_idxl % len` for an arbitrary
`o_idxl : ℕ`, and each floating-point acceptance comparison
(`d_e < 0 || exp(-d_e/k_t) > u`, `p_b > u`, `prob > u`) by an arbitrary
`Bool` outcome.  The real-valued tests themselves are modelled over `ℝ`
below (`accept_metropolis`, `mode_2_3_ballistic_prob`). -/

structure Item where
  is_alive : Bool
  state : ℕ → ℕ
  front : Frontier
  simlog : SimLog

structure Oracle where
  add_idxl : ℕ
  add_acc : Bool
  rem_idxl : ℕ
  rem_acc : Bool
  bal_gate : Bool
  bal_idxl : ℕ

/-- `Item::is_front_empty`. -/
def Item.is_front_empty (it : Item) : Bool :=
  it.front.tpas_size == 0 || it.front.tpbs_size == 0

/-- `Item::handle_stalled_front`: record the step and retire the replica. -/
def Item.handle_stalled_front (it : Item) (step_id : ℕ) : Item :=
  { it with simlog := { it.simlog with mk_step := step_id }, is_alive := false }

/-- `Item::handle_stalled_boundary`: record the step and retire the replica. -/
def Item.handle_stalled_boundary (it : Item) (step_id : ℕ) : Item :=
  { it with simlog := { it.simlog with mk_step := step_id }, is_alive := false }

/-- One iteration of the attachment frontier-patch loop over the sampled
site's neighbor row: a sentinel neighbor sets the boundary flag; a gas
neighbor is added to `tpas`; a crystal neighbor with no remaining gas
neighbor is removed from `tpbs`. -/
def attach_patch_step (neibs : ℕ → Fin 6 → Option ℕ) (states : ℕ → ℕ)
    (row : Fin 6 → Option ℕ) (acc : Frontier × Bool) (d : Fin 6) :
    Option (Frontier × Bool) :=
  match row d with
  | none => some (acc.1, true)
  | some neib_idx =>
    match states neib_idx with
    | 0 => some (acc.1.tpa_add neib_idx, acc.2)
    | 1 =>
        if any_neib_state neibs states neib_idx 0 then some acc
        else (acc.1.tpb_rem neib_idx).map fun f => (f, acc.2)
    | _ => some acc

/-- The attachment patch loop (`for &neib_idx in idxg_nis.iter()`). -/
def attach_patch (neibs : ℕ → Fin 6 → Option ℕ) (states : ℕ → ℕ)
    (row : Fin 6 → Option ℕ) (front : Frontier) : Option (Frontier × Bool) :=
  (List.finRange 6).foldlM (attach_patch_step neibs states row) (front, false)

/-- One iteration of the detachment patch loop (also the ballistic
branches' loop): mirror roles of gas and crystal. -/
def detach_patch_step (neibs : ℕ → Fin 6 → Option ℕ) (states : ℕ → ℕ)
    (row : Fin 6 → Option ℕ) (acc : Frontier × Bool) (d : Fin 6) :
    Option (Frontier × Bool) :=
  match row d with
  | none => some (acc.1, true)
  | some neib_idx =>
    match states neib_idx with
    | 0 =>
        if any_neib_state neibs states neib_idx 1 then some acc
        else (acc.1.tpa_rem neib_idx).map fun f => (f, acc.2)
    | 1 => some (acc.1.tpb_add neib_idx, acc.2)
    | _ => some acc

/-- The detachment patch loop. -/
def detach_patch (neibs : ℕ → Fin 6 → Option ℕ) (states : ℕ → ℕ)
    (row : Fin 6 → Option ℕ) (front : Frontier) : Option (Frontier × Bool) :=
  (List.finRange 6).foldlM (detach_patch_step neibs states row) (front, false)

/-- The accepted-attachment body shared verbatim by the three mode-2
kernels: commit the reservoir scalars, flip the site to crystal, patch
the frontier, then check the two stall conditions.  The returned `Bool`
is `true` when the kernel returned early (replica retired). -/
def attach_commit (neibs : ℕ → Fin 6 → Option ℕ) (step_id : ℕ)
    (sm : ℕ × ℕ × ℕ) (surf_en_change : ℚ) (idxg : ℕ) (it : Item) :
    Option (Item × Bool) :=
  let sl := ((it.simlog.update_n_sizes 1).update_conc).add_denergy surf_en_change
  let states' := upd it.state idxg 1
  match it.front.tpa_rem idxg with
  | none => none
  | some f1 =>
    let f2 := if sm.1 + sm.2.1 + sm.2.2 < 6 then f1.tpb_add idxg else f1
    match attach_patch neibs states' (neibs idxg) f2 with
    | none => none
    | some (f3, has_invalid_neib) =>
      let it' : Item := { it with state := states', front := f3, simlog := sl }
      if has_invalid_neib then some (it'.handle_stalled_boundary step_id, true)
      else if it'.is_front_empty then some (it'.handle_stalled_front step_id, true)
      else some (it', false)

/-- The accepted-detachment body shared verbatim by the thermal and
ballistic removal branches of the three mode-2 kernels. -/
def detach_commit (neibs : ℕ → Fin 6 → Option ℕ) (step_id : ℕ)
    (sm : ℕ × ℕ × ℕ) (surf_en_change : ℚ) (idxg : ℕ) (it : Item) :
    Option (Item × Bool) :=
  let sl := ((it.simlog.update_n_sizes (-1)).update_conc).add_denergy surf_en_change
  let states' := upd it.state idxg 0
  match it.front.tpb_rem idxg with
  | none => none
  | some f1 =>
    let f2 := if 0 < sm.1 + sm.2.1 + sm.2.2 then f1.tpa_add idxg else f1
    match detach_patch neibs states' (neibs idxg) f2 with
    | none => none
    | some (f3, has_invalid_neib) =>
      let it' : Item := { it with state := states', front := f3, simlog := sl }
      if has_invalid_neib then some (it'.handle_stalled_boundary step_id, true)
      else if it'.is_front_empty then some (it'.handle_stalled_front step_id, true)
      else some (it', false)

/-- The `is_add_step` sub-event: sample `tpas` (`random_range(0..0)`
panics on an empty side), compute the energies, and on an accepted test
(`d_e < 0 || exp(-d_e/k_t) > U`, outcome `o_acc`) run `attach_commit`. -/
def attach_sub (neibs : ℕ → Fin 6 → Option ℕ) (e : ℚ × ℚ × ℚ) (step_id : ℕ)
    (is_add_step : Bool) (o_idxl : ℕ) (o_acc : Bool) (it : Item) :
    Option (Item × Bool) :=
  if is_add_step then
    let tpa_len := it.front.tpas_size
    if tpa_len = 0 then none
    else
      match it.front.tpas[o_idxl % tpa_len]? with
      | none => none
      | some idxg =>
        let sm := compute_neighbor_sums it.state (neibs idxg)
        let surf_en_change := surf_attach e.1 e.2.1 e.2.2 sm
        if o_acc then attach_commit neibs step_id sm surf_en_change idxg it
        else some (it, false)
  else some (it, false)

/-- The `is_rem_step` sub-event: sample `tpbs` and on an accepted test
(`d_e = surf + dg`) run `detach_commit`. -/
def detach_sub (neibs : ℕ → Fin 6 → Option ℕ) (e : ℚ × ℚ × ℚ) (step_id : ℕ)
    (is_rem_step : Bool) (o_idxl : ℕ) (o_acc : Bool) (it : Item) :
    Option (Item × Bool) :=
  if is_rem_step then
    let tpb_len := it.front.tpbs_size
    if tpb_len = 0 then none
    else
      match it.front.tpbs[o_idxl % tpb_len]? with
      | none => none
      | some idxg =>
        let sm := compute_neighbor_sums it.state (neibs idxg)
        let surf_en_change := surf_detach e.1 e.2.1 e.2.2 sm
        if o_acc then detach_commit neibs step_id sm surf_en_change idxg it
        else some (it, false)
  else some (it, false)

/-- The mode-x.2 ballistic sub-event: gate on `p_b > U` (outcome
`o_gate`) first, then sample `tpbs` and commit unconditionally. -/
def ballistic_sub_22 (neibs : ℕ → Fin 6 → Option ℕ) (e : ℚ × ℚ × ℚ)
    (step_id : ℕ) (o_gate : Bool) (o_idxl : ℕ) (it : Item) :
    Option (Item × Bool) :=
  if o_gate then
    let tpb_len := it.front.tpbs_size
    if tpb_len = 0 then none
    else
      match it.front.tpbs[o_idxl % tpb_len]? with
      | none => none
      | some idxg =>
        let sm := compute_neighbor_sums it.state (neibs idxg)
        let surf_en_change := surf_detach e.1 e.2.1 e.2.2 sm
        detach_commit neibs step_id sm surf_en_change idxg it
  else some (it, false)

/-- The mode-x.3 ballistic sub-event (`'ballistic_rem` block): sample
`tpbs` unconditionally (panics when empty even if the event will be
rejected), compute the detachment-signed energy, then gate on
`prob = p_b·(1 - surf/eisol)^p_pow > U` (outcome `o_gate`). -/
def ballistic_sub_23 (neibs : ℕ → Fin 6 → Option ℕ) (e : ℚ × ℚ × ℚ)
    (step_id : ℕ) (o_gate : Bool) (o_idxl : ℕ) (it : Item) :
    Option (Item × Bool) :=
  let tpb_len := it.front.tpbs_size
  if tpb_len = 0 then none
  else
    match it.front.tpbs[o_idxl % tpb_len]? with
    | none => none
    | some idxg =>
      let sm := compute_neighbor_sums it.state (neibs idxg)
      let surf_en_change := surf_detach e.1 e.2.1 e.2.2 sm
      if o_gate then detach_commit neibs step_id sm surf_en_change idxg it
      else some (it, false)

/-- The common epilogue: `simlog.mk_step.val = step_id` and, on a write
step, `write_action` (which only renders snapshots and pushes history
points — nothing the modelled scalars depend on). -/
def finish_step (step_id : ℕ) (_is_write_step : Bool) (it : Item) : Item :=
  { it with simlog := { it.simlog with mk_step := step_id } }

/-- `Item::mode_2_1_step`. -/
def mode_2_1_step (o : Oracle) (neibs : ℕ → Fin 6 → Option ℕ) (e : ℚ × ℚ × ℚ)
    (step_id : ℕ) (flags : Bool × Bool × Bool) (it : Item) : Option Item :=
  match attach_sub neibs e step_id flags.1 o.add_idxl o.add_acc it with
  | none => none
  | some (it1, true) => some it1
  | some (it1, false) =>
    match detach_sub neibs e step_id flags.2.1 o.rem_idxl o.rem_acc it1 with
    | none => none
    | some (it2, true) => some it2
    | some (it2, false) => some (finish_step step_id flags.2.2 it2)

/-- `Item::mode_2_2_step`. -/
def mode_2_2_step (o : Oracle) (neibs : ℕ → Fin 6 → Option ℕ) (e : ℚ × ℚ × ℚ)
    (step_id : ℕ) (flags : Bool × Bool × Bool) (it : Item) : Option Item :=
  match attach_sub neibs e step_id flags.1 o.add_idxl o.add_acc it with
  | none => none
  | some (it1, true) => some it1
  | some (it1, false) =>
    match detach_sub neibs e step_id flags.2.1 o.rem_idxl o.rem_acc it1 with
    | none => none
    | some (it2, true) => some it2
    | some (it2, false) =>
      match ballistic_sub_22 neibs e step_id o.bal_gate o.bal_idxl it2 with
      | none => none
      | some (it3, true) => some it3
      | some (it3, false) => some (finish_step step_id flags.2.2 it3)

/-- `Item::mode_2_3_step`. -/
def mode_2_3_step (o : Oracle) (neibs : ℕ → Fin 6 → Option ℕ) (e : ℚ × ℚ × ℚ)
    (step_id : ℕ) (flags : Bool × Bool × Bool) (it : Item) : Option Item :=
  match attach_sub neibs e step_id flags.1 o.add_idxl o.add_acc it with
  | none => none
  | some (it1, true) => some it1
  | some (it1, false) =>
    match detach_sub neibs e step_id flags.2.1 o.rem_idxl o.rem_acc it1 with
    | none => none
    | some (it2, true) => some it2
    | some (it2, false) =>
      match ballistic_sub_23 neibs e step_id o.bal_gate o.bal_idxl it2 with
      | none => none
      | some (it3, true) => some it3
      | some (it3, false) => some (finish_step step_id flags.2.2 it3)

/-! ## The real-valued acceptance tests (`item.rs`), over `ℝ` -/

/-- The Metropolis test `d_e < 0.0 || (-d_e / k_t).exp() > u` with
`u = rng.random::<f64>() ∈ [0,1)`. -/
def accept_metropolis (d_e k_t u : ℝ) : Prop :=
  d_e < 0 ∨ Real.exp (-d_e / k_t) > u

/-- Attachment acceptance: `d_e = surf_en_change - dg`. -/
def accept_attach (surf dg k_t u : ℝ) : Prop :=
  accept_metropolis (surf - dg) k_t u

/-- Thermal detachment acceptance: `d_e = surf_en_change + dg`. -/
def accept_detach (surf dg k_t u : ℝ) : Prop :=
  accept_metropolis (surf + dg) k_t u

/-- The mode-2.3 ballistic probability
`p_b * (1.0 - (surf_en_change / eisol)).powf(p_pow)` — no clamping of
the base before the real power. -/
noncomputable def mode_2_3_ballistic_prob (p_b p_pow surf eisol : ℝ) : ℝ :=
  p_b * (1 - surf / eisol) ^ p_pow

/-- Modelled from the spec: the clamped ballistic probability the
specification prescribes, `p_b · max(0, 1 − ΔE_surf/E_isol)^p_pow`. -/
noncomputable def spec_ballistic_prob_clamped (p_b p_pow surf eisol : ℝ) : ℝ :=
  p_b * (max 0 (1 - surf / eisol)) ^ p_pow

/-- Acceptance of the mode-2.3 ballistic event: `prob > rng.random()`. -/
def ballistic_accept_23 (p_b p_pow surf eisol u : ℝ) : Prop :=
  mode_2_3_ballistic_prob p_b p_pow surf eisol > u

/-! ## Invariants

`RepInv` is the structural representation invariant of the frontier
(the claim-C10 list); `FrontMatch` is the semantic interface invariant
(spec I2/I3) relative to a phase array and a neighbor table. -/

/-- Structural representation invariant of a frontier over a grid of
`N` sites. -/
structure Frontier.RepInv (N : ℕ) (f : Frontier) : Prop where
  size_a : f.tpas_size = f.tpas.length
  size_b : f.tpbs_size = f.tpbs.length
  nodup_a : f.tpas.Nodup
  nodup_b : f.tpbs.Nodup
  lt_a : ∀ i ∈ f.tpas, i < N
  lt_b : ∀ i ∈ f.tpbs, i < N
  mem_a : ∀ i, i < N → (i ∈ f.tpas ↔ f.idxg_to_type i = 2)
  mem_b : ∀ i, i < N → (i ∈ f.tpbs ↔ f.idxg_to_type i = 3)
  rev_a : ∀ i ∈ f.tpas, f.tpas[f.idxg_to_idxl i]? = some i
  rev_b : ∀ i ∈ f.tpbs, f.tpbs[f.idxg_to_idxl i]? = some i

instance (N : ℕ) (f : Frontier) : Decidable (f.RepInv N) :=
  decidable_of_iff
    (f.tpas_size = f.tpas.length ∧ f.tpbs_size = f.tpbs.length ∧
     f.tpas.Nodup ∧ f.tpbs.Nodup ∧
     (∀ i ∈ f.tpas, i < N) ∧ (∀ i ∈ f.tpbs, i < N) ∧
     (∀ i, i < N → (i ∈ f.tpas ↔ f.idxg_to_type i = 2)) ∧
     (∀ i, i < N → (i ∈ f.tpbs ↔ f.idxg_to_type i = 3)) ∧
     (∀ i ∈ f.tpas, f.tpas[f.idxg_to_idxl i]? = some i) ∧
     (∀ i ∈ f.tpbs, f.tpbs[f.idxg_to_idxl i]? = some i))
    ⟨fun ⟨h1, h2, h3, h4, h5, h6, h7, h8, h9, h10⟩ =>
       ⟨h1, h2, h3, h4, h5, h6, h7, h8, h9, h10⟩,
     fun h => ⟨h.size_a, h.size_b, h.nodup_a, h.nodup_b, h.lt_a, h.lt_b,
       h.mem_a, h.mem_b, h.rev_a, h.rev_b⟩⟩

/-- Spec invariant I2 for one site: a `GasAdj` member is a gas site
with a non-sentinel crystal neighbor. -/
def front_a_prop (neibs : ℕ → Fin 6 → Option ℕ) (states : ℕ → ℕ) (i : ℕ) : Prop :=
  states i = 0 ∧ any_neib_state neibs states i 1 = true

/-- Spec invariant I3 for one site: a `CrystalAdj` member is a crystal
site with a non-sentinel gas neighbor. -/
def front_b_prop (neibs : ℕ → Fin 6 → Option ℕ) (states : ℕ → ℕ) (i : ℕ) : Prop :=
  states i = 1 ∧ any_neib_state neibs states i 0 = true

instance (neibs : ℕ → Fin 6 → Option ℕ) (states : ℕ → ℕ) (i : ℕ) :
    Decidable (front_a_prop neibs states i) :=
  decidable_of_iff (states i = 0 ∧ any_neib_state neibs states i 1 = true) Iff.rfl

instance (neibs : ℕ → Fin 6 → Option ℕ) (states : ℕ → ℕ) (i : ℕ) :
    Decidable (front_b_prop neibs states i) :=
  decidable_of_iff (states i = 1 ∧ any_neib_state neibs states i 0 = true) Iff.rfl

/-- Semantic frontier invariant (spec I2 and I3) over the `N` sites. -/
structure FrontMatch (N : ℕ) (neibs : ℕ → Fin 6 → Option ℕ)
    (states : ℕ → ℕ) (f : Frontier) : Prop where
  match_a : ∀ i, i < N → (i ∈ f.tpas ↔ front_a_prop neibs states i)
  match_b : ∀ i, i < N → (i ∈ f.tpbs ↔ front_b_prop neibs states i)

instance (N : ℕ) (neibs : ℕ → Fin 6 → Option ℕ) (states : ℕ → ℕ)
    (f : Frontier) : Decidable (FrontMatch N neibs states f) :=
  decidable_of_iff
    ((∀ i, i < N → (i ∈ f.tpas ↔ front_a_prop neibs states i)) ∧
     (∀ i, i < N → (i ∈ f.tpbs ↔ front_b_prop neibs states i)))
    ⟨fun ⟨h1, h2⟩ => ⟨h1, h2⟩, fun h => ⟨h.match_a, h.match_b⟩⟩

/-- Phase values are the two legal ones (spec P1). -/
def StateOk (N : ℕ) (states : ℕ → ℕ) : Prop :=
  ∀ i, i < N → states i ≤ 1

/-- Neighbor rows of in-range sites stay in range (true of the
precomputed tables). -/
def NeibsClosed (N : ℕ) (neibs : ℕ → Fin 6 → Option ℕ) : Prop :=
  ∀ a, a < N → ∀ d n, neibs a d = some n → n < N

/-- Neighbor-table symmetry (spec P6) on the `N` sites. -/
def NeibsSym (N : ℕ) (neibs : ℕ → Fin 6 → Option ℕ) : Prop :=
  ∀ a, a < N → ∀ d b, neibs a d = some b → neibs b (opposite_dir d) = some a

instance (N : ℕ) (neibs : ℕ → Fin 6 → Option ℕ) : Decidable (NeibsClosed N neibs) :=
  decidable_of_iff
    (∀ a, a < N → ∀ d, ((neibs a d).all fun n => decide (n < N)) = true) (by
    constructor
    · intro h a ha d n hn
      have h2 := h a ha d
      rw [hn] at h2
      simpa using h2
    · intro h a ha d
      cases hd : neibs a d with
      | none => rfl
      | some n => simpa using h a ha d n hd)

instance (N : ℕ) (neibs : ℕ → Fin 6 → Option ℕ) : Decidable (NeibsSym N neibs) :=
  decidable_of_iff
    (∀ a, a < N → ∀ d,
      ((neibs a d).all fun b => neibs b (opposite_dir d) == some a) = true) (by
    constructor
    · intro h a ha d b hb
      have h2 := h a ha d
      rw [hb] at h2
      simpa using h2
    · intro h a ha d
      cases hd : neibs a d with
      | none => rfl
      | some b => simpa using h a ha d b hd)

/-- The invariant bundle carried across kernel steps. -/
structure KernelInv (N : ℕ) (neibs : ℕ → Fin 6 → Option ℕ) (it : Item) : Prop where
  rep : it.front.RepInv N
  fm : FrontMatch N neibs it.state it.front
  sok : StateOk N it.state

instance (N : ℕ) (neibs : ℕ → Fin 6 → Option ℕ) (it : Item) :
    Decidable (KernelInv N neibs it) :=
  decidable_of_iff
    (it.front.RepInv N ∧ FrontMatch N neibs it.state it.front ∧
     (∀ i, i < N → it.state i ≤ 1))
    ⟨fun ⟨h1, h2, h3⟩ => ⟨h1, h2, h3⟩, fun h => ⟨h.rep, h.fm, h.sok⟩⟩

/-- The two frontier kinds are disjoint (spec I1). -/
def front_disjoint (f : Frontier) : Prop :=
  ∀ i, i ∈ f.tpas → i ∉ f.tpbs

/-! ## Frontier operation lemmas -/

theorem getElem?_some_lt {α : Type} {l : List α} {i : ℕ} {a : α}
    (h : l[i]? = some a) : i < l.length := by
  by_contra hc
  rw [List.getElem?_eq_none (by omega)] at h
  exact Option.noConfusion h

theorem nodup_getElem?_inj {α : Type} {l : List α} (h : l.Nodup) {i j : ℕ} {a : α}
    (h1 : l[i]? = some a) (h2 : l[j]? = some a) : i = j :=
  List.getElem?_inj (getElem?_some_lt h1) h (h1.trans h2.symm)

theorem dropLast_getElem? {α : Type} {l : List α} {i : ℕ} (h : i < l.length - 1) :
    l.dropLast[i]? = l[i]? := by
  rw [List.dropLast_eq_take]
  exact List.getElem?_take_of_lt h

/-- `tpa_add` on a site that is not a `tpbs` member: representation
invariant preserved, `tpas` members gain exactly `x`, `tpbs` untouched. -/
theorem tpa_add_spec (N : ℕ) (f : Frontier) (x : ℕ) (hInv : f.RepInv N)
    (hxN : x < N) (hxB : x ∉ f.tpbs) :
    (f.tpa_add x).RepInv N ∧
    (∀ i, i ∈ (f.tpa_add x).tpas ↔ (i ∈ f.tpas ∨ i = x)) ∧
    (f.tpa_add x).tpbs = f.tpbs ∧ (f.tpa_add x).tpbs_size = f.tpbs_size := by
  by_cases htag : f.idxg_to_type x = 2
  · have hxA : x ∈ f.tpas := (hInv.mem_a x hxN).mpr htag
    rw [Frontier.tpa_add, if_pos htag]
    refine ⟨hInv, ?_, rfl, rfl⟩
    intro i
    constructor
    · exact fun h => Or.inl h
    · rintro (h | rfl)
      exacts [h, hxA]
  · have hxA : x ∉ f.tpas := fun h => htag ((hInv.mem_a x hxN).mp h)
    rw [Frontier.tpa_add, if_neg htag]
    have hmem : ∀ i, i ∈ f.tpas ++ [x] ↔ (i ∈ f.tpas ∨ i = x) := by
      intro i; simp
    refine ⟨⟨?_, hInv.size_b, ?_, hInv.nodup_b, ?_, hInv.lt_b, ?_, ?_, ?_, ?_⟩,
      hmem, rfl, rfl⟩
    · simp [hInv.size_a]
    · simp [List.nodup_append, hInv.nodup_a, hxA]
    · intro i hi
      rcases (hmem i).mp hi with h | rfl
      exacts [hInv.lt_a i h, hxN]
    · intro i hiN
      rw [hmem i]
      dsimp only
      by_cases hix : i = x
      · subst hix
        simp [upd_same]
      · rw [upd_ne _ _ hix]
        constructor
        · rintro (h | h)
          exacts [(hInv.mem_a i hiN).mp h, absurd h hix]
        · exact fun h => Or.inl ((hInv.mem_a i hiN).mpr h)
    · intro i hiN
      dsimp only
      by_cases hix : i = x
      · subst hix
        rw [upd_same]
        exact iff_of_false hxB (by norm_num)
      · rw [upd_ne _ _ hix]
        exact hInv.mem_b i hiN
    · intro i hi
      dsimp only
      rcases (hmem i).mp hi with h | rfl
      · have hix : i ≠ x := fun he => hxA (he ▸ h)
        rw [upd_ne _ _ hix]
        have hr := hInv.rev_a i h
        rw [List.getElem?_append_left (getElem?_some_lt hr)]
        exact hr
      · rw [upd_same, hInv.size_a]
        exact List.getElem?_concat_length _ _
    · intro i hi
      dsimp only
      have hix : i ≠ x := fun he => hxB (he ▸ hi)
      rw [upd_ne _ _ hix]
      exact hInv.rev_b i hi

/-- Swap-removal on a duplicate-free list: removing the element at
position `p` by overwriting it with the popped last element (or just
popping when `p` is the last position) removes exactly that element and
keeps every other element at its position. -/
theorem swap_remove_spec {l : List ℕ} (hnd : l.Nodup) {p x last : ℕ}
    (hp : l[p]? = some x) (hlast : l.getLast? = some last)
    (l' : List ℕ)
    (hl' : l' = if p ≠ l.length - 1 then l.dropLast.set p last else l.dropLast) :
    l'.Nodup ∧
    (∀ i, i ∈ l' ↔ (i ∈ l ∧ i ≠ x)) ∧
    l'.length = l.length - 1 ∧
    (∀ i q, q ≠ p → q ≠ l.length - 1 → l[q]? = some i → l'[q]? = some i) ∧
    (p ≠ l.length - 1 → l'[p]? = some last) := by
  have hne : l ≠ [] := by
    intro he
    rw [he] at hp
    simp at hp
  have hLget : l[l.length - 1]? = some last := by
    rw [← List.getLast?_eq_getElem?]
    exact hlast
  have hpn : p < l.length := getElem?_some_lt hp
  have hdl : l.dropLast ++ [last] = l := by
    have h1 := List.dropLast_concat_getLast hne
    have h2 : l.getLast hne = last := by
      have := (List.getLast?_eq_getLast _ hne).symm.trans hlast
      injection this
    rw [h2] at h1
    exact h1
  have hlastnotdl : last ∉ l.dropLast := by
    intro hmem
    have h2 : ¬ (l.dropLast ++ [last]).Nodup := by
      simp [List.nodup_append, hmem]
    rw [hdl] at h2
    exact h2 hnd
  have hdln : l.dropLast.length = l.length - 1 := List.length_dropLast l
  have hnddl : l.dropLast.Nodup := (List.dropLast_sublist l).nodup hnd
  by_cases hsw : p = l.length - 1
  · -- `p` is the last position: the popped element is `x` itself
    have hxlast : x = last := by
      have := hp.symm.trans (hsw ▸ hLget)
      injection this
    rw [if_neg (not_not_intro hsw)] at hl'
    subst hl'
    have hxdl : x ∉ l.dropLast := hxlast ▸ hlastnotdl
    have hmem : ∀ i, i ∈ l.dropLast ↔ (i ∈ l ∧ i ≠ x) := by
      intro i
      constructor
      · intro hi
        refine ⟨by rw [← hdl]; exact List.mem_append_left _ hi, ?_⟩
        intro he
        exact hxdl (he ▸ hi)
      · rintro ⟨hil, hix⟩
        rw [← hdl] at hil
        rcases List.mem_append.mp hil with h | h
        · exact h
        · exact absurd (List.mem_singleton.mp h) (hxlast ▸ hix)
    refine ⟨hnddl, hmem, hdln, ?_, fun h => absurd hsw h⟩
    intro i q hqp hqn hq
    have hqlt : q < l.length := getElem?_some_lt hq
    rw [dropLast_getElem? (by omega)]
    exact hq
  · -- swap: `x` sat below the last position
    have hpn1 : p < l.length - 1 := by omega
    have hxlast : x ≠ last := by
      intro he
      exact hsw (nodup_getElem?_inj hnd hp (he ▸ hLget))
    rw [if_pos hsw] at hl'
    subst hl'
    have hget : ∀ q : ℕ, (l.dropLast.set p last)[q]? =
        if q = p then some last else l.dropLast[q]? := by
      intro q
      by_cases hq : q = p
      · subst hq
        rw [if_pos rfl, List.getElem?_set_self (by omega)]
      · rw [if_neg hq, List.getElem?_set_ne (fun he => hq he.symm)]
    have hmem : ∀ i, i ∈ l.dropLast.set p last ↔ (i ∈ l ∧ i ≠ x) := by
      intro i
      rw [List.mem_iff_getElem?]
      constructor
      · rintro ⟨q, hq⟩
        rw [hget q] at hq
        by_cases hqp : q = p
        · rw [if_pos hqp] at hq
          have hi : i = last := by injection hq; omega
          subst hi
          exact ⟨List.getElem?_mem hLget, fun he => hxlast he.symm⟩
        · rw [if_neg hqp] at hq
          have hqlt : q < l.length - 1 := by
            have := getElem?_some_lt hq
            omega
          have hql : l.dropLast[q]? = l[q]? := dropLast_getElem? hqlt
          refine ⟨List.getElem?_mem (hql ▸ hq), ?_⟩
          intro he
          subst he
          exact hqp (nodup_getElem?_inj hnd (hql ▸ hq) hp)
      · rintro ⟨hil, hix⟩
        by_cases hilast : i = last
        · subst hilast
          exact ⟨p, by rw [hget p, if_pos rfl]⟩
        · rcases List.mem_iff_getElem?.mp hil with ⟨q, hq⟩
          have hqlt : q < l.length := getElem?_some_lt hq
          have hqn : q ≠ l.length - 1 := by
            intro he
            exact hilast (by
              have := hq.symm.trans (he ▸ hLget)
              injection this)
          have hqp : q ≠ p := by
            intro he
            exact hix (by
              have := hq.symm.trans (he ▸ hp)
              injection this)
          refine ⟨q, ?_⟩
          rw [hget q, if_neg hqp, dropLast_getElem? (by omega)]
          exact hq
    refine ⟨hnddl.set hlastnotdl, hmem, by simp [hdln], ?_, ?_⟩
    · intro i q hqp hqn hq
      have hqlt : q < l.length := getElem?_some_lt hq
      rw [hget q, if_neg hqp, dropLast_getElem? (by omega)]
      exact hq
    · intro _
      rw [hget p, if_pos rfl]

/-- `tpa_rem` under the representation invariant: the pop never fails,
the invariant is preserved, `tpas` members lose exactly `x`, `tpbs` is
untouched. -/
theorem tpa_rem_spec (N : ℕ) (f : Frontier) (x : ℕ) (hInv : f.RepInv N)
    (hxN : x < N) :
    ∃ f', f.tpa_rem x = some f' ∧ f'.RepInv N ∧
      (∀ i, i ∈ f'.tpas ↔ (i ∈ f.tpas ∧ i ≠ x)) ∧
      f'.tpbs = f.tpbs ∧ f'.tpbs_size = f.tpbs_size := by
  by_cases htag : f.idxg_to_type x = 2
  case neg =>
    have hxA : x ∉ f.tpas := fun h => htag ((hInv.mem_a x hxN).mp h)
    refine ⟨f, by rw [Frontier.tpa_rem, if_pos htag], hInv, ?_, rfl, rfl⟩
    intro i
    constructor
    · exact fun h => ⟨h, fun he => hxA (he ▸ h)⟩
    · exact fun h => h.1
  case pos =>
    have hxA : x ∈ f.tpas := (hInv.mem_a x hxN).mpr htag
    have hne : f.tpas ≠ [] := List.ne_nil_of_mem hxA
    have hlast : f.tpas.getLast? = some (f.tpas.getLast hne) :=
      List.getLast?_eq_getLast _ hne
    have hrevx : f.tpas[f.idxg_to_idxl x]? = some x := hInv.rev_a x hxA
    have hLget : f.tpas[f.tpas.length - 1]? = some (f.tpas.getLast hne) := by
      rw [← List.getLast?_eq_getElem?]
      exact hlast
    have hLmem : f.tpas.getLast hne ∈ f.tpas := List.getElem?_mem hLget
    have hLtag : f.idxg_to_type (f.tpas.getLast hne) = 2 :=
      (hInv.mem_a _ (hInv.lt_a _ hLmem)).mp hLmem
    have hxB : x ∉ f.tpbs := by
      intro hmem
      have h2 := (hInv.mem_b x hxN).mp hmem
      rw [htag] at h2
      exact absurd h2 (by norm_num)
    have hqne : ∀ i, i ∈ f.tpas → i ≠ x →
        f.idxg_to_idxl i ≠ f.idxg_to_idxl x := by
      intro i hi hix he
      exact hix (by
        have := (hInv.rev_a i hi).symm.trans (he ▸ hrevx)
        injection this)
    have hqnL : ∀ i, i ∈ f.tpas → i ≠ f.tpas.getLast hne →
        f.idxg_to_idxl i ≠ f.tpas.length - 1 := by
      intro i hi hiL he
      exact hiL (by
        have := (hInv.rev_a i hi).symm.trans (he ▸ hLget)
        injection this)
    by_cases hsw : f.idxg_to_idxl x = f.tpas_size - 1
    · -- no-swap branch: `x` is the popped last element
      have hswl : f.idxg_to_idxl x = f.tpas.length - 1 := by
        rw [← hInv.size_a]
        exact hsw
      obtain ⟨hnd', hmem', hlen', htrans', -⟩ :=
        swap_remove_spec hInv.nodup_a hrevx hlast f.tpas.dropLast
          (by rw [if_neg (not_not_intro hswl)])
      refine ⟨⟨f.tpas.dropLast, f.tpbs, upd f.idxg_to_type x 0,
        upd f.idxg_to_idxl x 0, f.tpas_size - 1, f.tpbs_size⟩, ?_,
        ⟨?_, hInv.size_b, hnd', hInv.nodup_b, ?_, hInv.lt_b, ?_, ?_, ?_, ?_⟩,
        hmem', rfl, rfl⟩
      · rw [Frontier.tpa_rem, if_neg (not_not_intro htag), hlast]
        dsimp only
        rw [if_neg (not_not_intro hsw)]
      · dsimp only
        rw [hlen', hInv.size_a]
      · intro i hi
        exact hInv.lt_a i ((hmem' i).mp hi).1
      · intro i hiN
        dsimp only
        rw [hmem' i]
        by_cases hix : i = x
        · subst hix
          rw [upd_same]
          exact iff_of_false (fun h => h.2 rfl) (by norm_num)
        · rw [upd_ne _ _ hix]
          constructor
          · exact fun h => (hInv.mem_a i hiN).mp h.1
          · exact fun h => ⟨(hInv.mem_a i hiN).mpr h, hix⟩
      · intro i hiN
        dsimp only
        by_cases hix : i = x
        · subst hix
          rw [upd_same]
          exact iff_of_false hxB (by norm_num)
        · rw [upd_ne _ _ hix]
          exact hInv.mem_b i hiN
      · intro i hi
        dsimp only
        obtain ⟨hil, hix⟩ := (hmem' i).mp hi
        rw [upd_ne _ _ hix]
        exact htrans' i _ (hqne i hil hix) (hswl ▸ hqne i hil hix)
          (hInv.rev_a i hil)
      · intro i hi
        dsimp only
        have hix : i ≠ x := fun he => hxB (he ▸ hi)
        rw [upd_ne _ _ hix]
        exact hInv.rev_b i hi
    · -- swap branch
      have hswl : f.idxg_to_idxl x ≠ f.tpas.length - 1 := by
        rw [← hInv.size_a]
        exact hsw
      obtain ⟨hnd', hmem', hlen', htrans', hlastpos⟩ :=
        swap_remove_spec hInv.nodup_a hrevx hlast
          (f.tpas.dropLast.set (f.idxg_to_idxl x) (f.tpas.getLast hne))
          (by rw [if_pos hswl])
      have hxLne : x ≠ f.tpas.getLast hne := by
        intro he
        exact hswl (nodup_getElem?_inj hInv.nodup_a hrevx (he ▸ hLget))
      refine ⟨⟨f.tpas.dropLast.set (f.idxg_to_idxl x) (f.tpas.getLast hne),
        f.tpbs, upd f.idxg_to_type x 0,
        upd (upd f.idxg_to_idxl (f.tpas.getLast hne) (f.idxg_to_idxl x)) x 0,
        f.tpas_size - 1, f.tpbs_size⟩, ?_,
        ⟨?_, hInv.size_b, hnd', hInv.nodup_b, ?_, hInv.lt_b, ?_, ?_, ?_, ?_⟩,
        hmem', rfl, rfl⟩
      · rw [Frontier.tpa_rem, if_neg (not_not_intro htag), hlast]
        dsimp only
        rw [if_pos hsw]
      · dsimp only
        rw [hlen', hInv.size_a]
      · intro i hi
        exact hInv.lt_a i ((hmem' i).mp hi).1
      · intro i hiN
        dsimp only
        rw [hmem' i]
        by_cases hix : i = x
        · subst hix
          rw [upd_same]
          exact iff_of_false (fun h => h.2 rfl) (by norm_num)
        · rw [upd_ne _ _ hix]
          constructor
          · exact fun h => (hInv.mem_a i hiN).mp h.1
          · exact fun h => ⟨(hInv.mem_a i hiN).mpr h, hix⟩
      · intro i hiN
        dsimp only
        by_cases hix : i = x
        · subst hix
          rw [upd_same]
          exact iff_of_false hxB (by norm_num)
        · rw [upd_ne _ _ hix]
          exact hInv.mem_b i hiN
      · intro i hi
        dsimp only
        obtain ⟨hil, hix⟩ := (hmem' i).mp hi
        rw [upd_ne _ _ hix]
        by_cases hiL : i = f.tpas.getLast hne
        · subst hiL
          rw [upd_same]
          exact hlastpos hswl
        · rw [upd_ne _ _ hiL]
          exact htrans' i _ (hqne i hil hix) (hqnL i hil hiL) (hInv.rev_a i hil)
      · intro i hi
        dsimp only
        have hix : i ≠ x := fun he => hxB (he ▸ hi)
        have hiL : i ≠ f.tpas.getLast hne := by
          intro he
          have h3 := (hInv.mem_b i (hInv.lt_b i hi)).mp hi
          rw [he, hLtag] at h3
          exact absurd h3 (by norm_num)
        rw [upd_ne _ _ hix, upd_ne _ _ hiL]
        exact hInv.rev_b i hi

/-! The `tpb` operations are the exact mirrors of the `tpa` operations
(lists, sizes and the tag values 2/3 exchanged), so their specs follow
from the `tpa` specs through the tag-swapping isomorphism below. -/

/-- Exchange the two membership tags, fixing every other value. -/
def swap_tag (v : ℕ) : ℕ :=
  if v = 2 then 3 else if v = 3 then 2 else v

theorem swap_tag_invol (v : ℕ) : swap_tag (swap_tag v) = v := by
  unfold swap_tag
  split_ifs <;> omega

theorem swap_tag_eq_two (v : ℕ) : swap_tag v = 2 ↔ v = 3 := by
  unfold swap_tag
  split_ifs <;> omega

theorem swap_tag_eq_three (v : ℕ) : swap_tag v = 3 ↔ v = 2 := by
  unfold swap_tag
  split_ifs <;> omega

/-- The involution exchanging the roles of the two frontier kinds. -/
def Frontier.swap (f : Frontier) : Frontier :=
  { tpas := f.tpbs, tpbs := f.tpas,
    idxg_to_type := fun i => swap_tag (f.idxg_to_type i),
    idxg_to_idxl := f.idxg_to_idxl,
    tpas_size := f.tpbs_size, tpbs_size := f.tpas_size }

theorem swap_swap (f : Frontier) : f.swap.swap = f := by
  cases f
  unfold Frontier.swap
  simp [swap_tag_invol]

theorem repinv_swap {N : ℕ} {f : Frontier} (h : f.RepInv N) : f.swap.RepInv N := by
  refine ⟨h.size_b, h.size_a, h.nodup_b, h.nodup_a, h.lt_b, h.lt_a, ?_, ?_,
    h.rev_b, h.rev_a⟩
  · intro i hiN
    rw [show (Frontier.swap f).idxg_to_type i = swap_tag (f.idxg_to_type i) from rfl,
      swap_tag_eq_two]
    exact h.mem_b i hiN
  · intro i hiN
    rw [show (Frontier.swap f).idxg_to_type i = swap_tag (f.idxg_to_type i) from rfl,
      swap_tag_eq_three]
    exact h.mem_a i hiN

theorem tpb_add_eq_swap (f : Frontier) (x : ℕ) :
    f.tpb_add x = (f.swap.tpa_add x).swap := by
  rw [Frontier.tpb_add, Frontier.tpa_add]
  by_cases htag : f.idxg_to_type x = 3
  · rw [if_pos htag,
      if_pos (by rwa [show (Frontier.swap f).idxg_to_type x
        = swap_tag (f.idxg_to_type x) from rfl, swap_tag_eq_two]),
      swap_swap]
  · rw [if_neg htag,
      if_neg (by rw [show (Frontier.swap f).idxg_to_type x
        = swap_tag (f.idxg_to_type x) from rfl, swap_tag_eq_two]; exact htag)]
    unfold Frontier.swap
    dsimp only
    congr 1
    funext i
    dsimp only
    by_cases hix : i = x
    · subst hix
      rw [upd_same, upd_same]
      rfl
    · rw [upd_ne _ _ hix, upd_ne _ _ hix, swap_tag_invol]

theorem tpb_rem_eq_swap (f : Frontier) (x : ℕ) :
    f.tpb_rem x = (f.swap.tpa_rem x).map Frontier.swap := by
  rw [Frontier.tpb_rem, Frontier.tpa_rem]
  have e1 : (Frontier.swap f).tpas = f.tpbs := rfl
  have e2 : (Frontier.swap f).tpas_size = f.tpbs_size := rfl
  have e3 : (Frontier.swap f).idxg_to_idxl = f.idxg_to_idxl := rfl
  by_cases htag : f.idxg_to_type x = 3
  · rw [if_neg (not_not_intro htag),
      if_neg (not_not_intro (by
        rw [show (Frontier.swap f).idxg_to_type x
          = swap_tag (f.idxg_to_type x) from rfl, swap_tag_eq_two]
        exact htag)), e1, e2, e3]
    cases hl : f.tpbs.getLast? with
    | none => rfl
    | some last_idxg =>
      dsimp only
      by_cases hsw : f.idxg_to_idxl x ≠ f.tpbs_size - 1
      · rw [if_pos hsw, if_pos hsw]
        unfold Frontier.swap
        dsimp only [Option.map_some']
        refine congrArg some ?_
        congr 1
        funext i
        dsimp only
        by_cases hix : i = x
        · subst hix
          rw [upd_same, upd_same]
          rfl
        · rw [upd_ne _ _ hix, upd_ne _ _ hix, swap_tag_invol]
      · rw [if_neg hsw, if_neg hsw]
        unfold Frontier.swap
        dsimp only [Option.map_some']
        refine congrArg some ?_
        congr 1
        funext i
        dsimp only
        by_cases hix : i = x
        · subst hix
          rw [upd_same, upd_same]
          rfl
        · rw [upd_ne _ _ hix, upd_ne _ _ hix, swap_tag_invol]
  · rw [if_pos htag,
      if_pos (show f.swap.idxg_to_type x ≠ 2 from
        fun h2 => htag ((swap_tag_eq_two _).mp h2)),
      Option.map_some', swap_swap]

/-- Mirror of `tpa_add_spec` for the `tpbs` kind. -/
theorem tpb_add_spec (N : ℕ) (f : Frontier) (x : ℕ) (hInv : f.RepInv N)
    (hxN : x < N) (hxA : x ∉ f.tpas) :
    (f.tpb_add x).RepInv N ∧
    (∀ i, i ∈ (f.tpb_add x).tpbs ↔ (i ∈ f.tpbs ∨ i = x)) ∧
    (f.tpb_add x).tpas = f.tpas ∧ (f.tpb_add x).tpas_size = f.tpas_size := by
  obtain ⟨h1, h2, h3, h4⟩ := tpa_add_spec N f.swap x (repinv_swap hInv) hxN hxA
  rw [tpb_add_eq_swap]
  exact ⟨repinv_swap h1, h2, h3, h4⟩

/-- Mirror of `tpa_rem_spec` for the `tpbs` kind. -/
theorem tpb_rem_spec (N : ℕ) (f : Frontier) (x : ℕ) (hInv : f.RepInv N)
    (hxN : x < N) :
    ∃ f', f.tpb_rem x = some f' ∧ f'.RepInv N ∧
      (∀ i, i ∈ f'.tpbs ↔ (i ∈ f.tpbs ∧ i ≠ x)) ∧
      f'.tpas = f.tpas ∧ f'.tpas_size = f.tpas_size := by
  obtain ⟨g, hg, h1, h2, h3, h4⟩ := tpa_rem_spec N f.swap x (repinv_swap hInv) hxN
  refine ⟨g.swap, ?_, repinv_swap h1, h2, h3, h4⟩
  rw [tpb_rem_eq_swap, hg, Option.map_some']

/-! ## Neighbor-count and neighbor-scan characterizations -/

theorem exists_fin6 (Q : Fin 6 → Prop) :
    (∃ d, Q d) ↔ Q 0 ∨ Q 1 ∨ Q 2 ∨ Q 3 ∨ Q 4 ∨ Q 5 := by
  constructor
  · rintro ⟨⟨dv, hdv⟩, hq⟩
    interval_cases dv
    · exact Or.inl hq
    · exact Or.inr (Or.inl hq)
    · exact Or.inr (Or.inr (Or.inl hq))
    · exact Or.inr (Or.inr (Or.inr (Or.inl hq)))
    · exact Or.inr (Or.inr (Or.inr (Or.inr (Or.inl hq))))
    · exact Or.inr (Or.inr (Or.inr (Or.inr (Or.inr hq))))
  · rintro (h | h | h | h | h | h) <;> exact ⟨_, h⟩

theorem neib_is_crystal_le_one (states : ℕ → ℕ) (row : Fin 6 → Option ℕ)
    (d : Fin 6) : neib_is_crystal states row d ≤ 1 := by
  unfold neib_is_crystal
  cases row d with
  | none => exact Nat.zero_le 1
  | some n =>
    dsimp only
    split_ifs <;> omega

theorem neib_is_crystal_eq_one (states : ℕ → ℕ) (row : Fin 6 → Option ℕ)
    (d : Fin 6) :
    neib_is_crystal states row d = 1 ↔ ∃ n, row d = some n ∧ states n = 1 := by
  unfold neib_is_crystal
  cases hrow : row d with
  | none => simp
  | some n =>
    dsimp only
    split_ifs with hs <;> simp [hs]

theorem neib_is_crystal_eq_zero (states : ℕ → ℕ) (row : Fin 6 → Option ℕ)
    (d : Fin 6) (hfull : row d ≠ none) :
    neib_is_crystal states row d = 0 ↔ ∃ n, row d = some n ∧ states n ≠ 1 := by
  unfold neib_is_crystal
  cases hrow : row d with
  | none => exact absurd hrow hfull
  | some n =>
    dsimp only
    split_ifs with hs <;> simp [hs]

/-- `compute_neighbor_sums` totals fewer than 6 iff some direction has
an existing non-crystal neighbor (when no direction is the sentinel). -/
theorem sums_lt_six_iff (states : ℕ → ℕ) (row : Fin 6 → Option ℕ)
    (hfull : ∀ d : Fin 6, row d ≠ none) :
    ((compute_neighbor_sums states row).1 + (compute_neighbor_sums states row).2.1 +
      (compute_neighbor_sums states row).2.2 < 6) ↔
      ∃ d n, row d = some n ∧ states n ≠ 1 := by
  rw [exists_fin6 fun d => ∃ n, row d = some n ∧ states n ≠ 1]
  unfold compute_neighbor_sums
  dsimp only
  rw [← neib_is_crystal_eq_zero states row 0 (hfull 0),
    ← neib_is_crystal_eq_zero states row 1 (hfull 1),
    ← neib_is_crystal_eq_zero states row 2 (hfull 2),
    ← neib_is_crystal_eq_zero states row 3 (hfull 3),
    ← neib_is_crystal_eq_zero states row 4 (hfull 4),
    ← neib_is_crystal_eq_zero states row 5 (hfull 5)]
  have b0 := neib_is_crystal_le_one states row 0
  have b1 := neib_is_crystal_le_one states row 1
  have b2 := neib_is_crystal_le_one states row 2
  have b3 := neib_is_crystal_le_one states row 3
  have b4 := neib_is_crystal_le_one states row 4
  have b5 := neib_is_crystal_le_one states row 5
  omega

/-- `compute_neighbor_sums` totals positive iff some direction has an
existing crystal neighbor. -/
theorem sums_pos_iff (states : ℕ → ℕ) (row : Fin 6 → Option ℕ) :
    (0 < (compute_neighbor_sums states row).1 + (compute_neighbor_sums states row).2.1 +
      (compute_neighbor_sums states row).2.2) ↔
      ∃ d n, row d = some n ∧ states n = 1 := by
  rw [exists_fin6 fun d => ∃ n, row d = some n ∧ states n = 1]
  unfold compute_neighbor_sums
  dsimp only
  rw [← neib_is_crystal_eq_one states row 0,
    ← neib_is_crystal_eq_one states row 1,
    ← neib_is_crystal_eq_one states row 2,
    ← neib_is_crystal_eq_one states row 3,
    ← neib_is_crystal_eq_one states row 4,
    ← neib_is_crystal_eq_one states row 5]
  have b0 := neib_is_crystal_le_one states row 0
  have b1 := neib_is_crystal_le_one states row 1
  have b2 := neib_is_crystal_le_one states row 2
  have b3 := neib_is_crystal_le_one states row 3
  have b4 := neib_is_crystal_le_one states row 4
  have b5 := neib_is_crystal_le_one states row 5
  omega

/-- The neighbor scan `any(|&m| m != MAX && states[m] == v)`. -/
theorem any_neib_state_iff (neibs : ℕ → Fin 6 → Option ℕ) (states : ℕ → ℕ)
    (n v : ℕ) :
    any_neib_state neibs states n v = true ↔
      ∃ d m, neibs n d = some m ∧ states m = v := by
  unfold any_neib_state
  rw [List.any_eq_true]
  constructor
  · rintro ⟨d, -, hd⟩
    cases hrow : neibs n d with
    | none => rw [hrow] at hd; exact absurd hd (by simp)
    | some m =>
      rw [hrow] at hd
      exact ⟨d, m, hrow, by simpa using hd⟩
  · rintro ⟨d, m, hrow, hv⟩
    exact ⟨d, List.mem_finRange d, by rw [hrow]; simpa using hv⟩

/-- The scan is insensitive to phase values outside the scanned row. -/
theorem any_neib_state_congr (neibs : ℕ → Fin 6 → Option ℕ)
    (states states' : ℕ → ℕ) (n v : ℕ)
    (hagree : ∀ d m, neibs n d = some m → states m = states' m) :
    any_neib_state neibs states n v = any_neib_state neibs states' n v := by
  rw [Bool.eq_iff_iff, any_neib_state_iff, any_neib_state_iff]
  constructor
  · rintro ⟨d, m, hrow, hv⟩
    exact ⟨d, m, hrow, by rw [← hagree d m hrow]; exact hv⟩
  · rintro ⟨d, m, hrow, hv⟩
    exact ⟨d, m, hrow, by rw [hagree d m hrow]; exact hv⟩

/-! ## The frontier-patch loops -/

/-- Exact effect of the attachment patch loop over any direction list:
it never fails, keeps the representation invariant and the
`tpbs ⊆ crystal` discipline, adds to `tpas` exactly the scanned gas
neighbors, removes from `tpbs` exactly the scanned crystal neighbors
with no remaining gas neighbor, and ors the boundary flag with "some
scanned direction is the sentinel". -/
theorem attach_patch_fold_spec (N : ℕ) (neibs : ℕ → Fin 6 → Option ℕ)
    (states' : ℕ → ℕ) (row : Fin 6 → Option ℕ)
    (hrowN : ∀ d n, row d = some n → n < N)
    (hstates : ∀ i, i < N → states' i ≤ 1) :
    ∀ (ds : List (Fin 6)) (f : Frontier) (flag : Bool),
      f.RepInv N → (∀ i ∈ f.tpbs, states' i = 1) →
      ∃ f' flag',
        ds.foldlM (attach_patch_step neibs states' row) (f, flag) = some (f', flag') ∧
        f'.RepInv N ∧ (∀ i ∈ f'.tpbs, states' i = 1) ∧
        (∀ i, i ∈ f'.tpas ↔ (i ∈ f.tpas ∨ ∃ d ∈ ds, row d = some i ∧ states' i = 0)) ∧
        (∀ i, i ∈ f'.tpbs ↔ (i ∈ f.tpbs ∧
          ¬∃ d ∈ ds, row d = some i ∧ states' i = 1 ∧
            any_neib_state neibs states' i 0 = false)) ∧
        flag' = (flag || ds.any fun d => (row d).isNone) := by
  intro ds
  induction ds with
  | nil =>
    intro f flag hInv hsub
    refine ⟨f, flag, rfl, hInv, hsub, ?_, ?_, by simp⟩
    · intro i; simp
    · intro i; simp
  | cons d ds ih =>
    intro f flag hInv hsub
    cases hrow : row d with
    | none =>
      have hstep : attach_patch_step neibs states' row (f, flag) d = some (f, true) := by
        unfold attach_patch_step
        rw [hrow]
      obtain ⟨f', flag', hfold, hInv', hsub', hA, hB, hflag⟩ := ih f true hInv hsub
      refine ⟨f', flag', ?_, hInv', hsub', ?_, ?_, ?_⟩
      · rw [List.foldlM_cons, hstep]
        simpa using hfold
      · intro i
        rw [hA i]
        simp only [List.exists_mem_cons_iff, hrow]
        simp
      · intro i
        rw [hB i]
        simp only [List.exists_mem_cons_iff, hrow]
        simp
      · rw [hflag]
        simp [List.any_cons, hrow]
    | some n =>
      have hnN : n < N := hrowN d n hrow
      rcases Nat.le_one_iff_eq_zero_or_eq_one.mp (hstates n hnN) with hs | hs
      · -- a gas neighbor: `tpa_add`
        have hnB : n ∉ f.tpbs := by
          intro hmem
          have := hsub n hmem
          omega
        obtain ⟨hInv2, hmem2, htpbs2, hsize2⟩ := tpa_add_spec N f n hInv hnN hnB
        have hsub2 : ∀ i ∈ (f.tpa_add n).tpbs, states' i = 1 := by
          rw [htpbs2]; exact hsub
        obtain ⟨f', flag', hfold, hInv', hsub', hA, hB, hflag⟩ :=
          ih (f.tpa_add n) flag hInv2 hsub2
        have hstep : attach_patch_step neibs states' row (f, flag) d
            = some (f.tpa_add n, flag) := by
          unfold attach_patch_step
          rw [hrow]
          dsimp only
          rw [hs]
        refine ⟨f', flag', ?_, hInv', hsub', ?_, ?_, ?_⟩
        · rw [List.foldlM_cons, hstep]
          simpa using hfold
        · intro i
          rw [hA i, hmem2 i]
          simp only [List.exists_mem_cons_iff, hrow, Option.some.injEq]
          constructor
          · rintro ((hA' | rfl) | hS)
            · exact Or.inl hA'
            · exact Or.inr (Or.inl ⟨rfl, hs⟩)
            · exact Or.inr (Or.inr hS)
          · rintro (hA' | (⟨rfl, -⟩ | hS))
            · exact Or.inl (Or.inl hA')
            · exact Or.inl (Or.inr rfl)
            · exact Or.inr hS
        · intro i
          rw [hB i, htpbs2]
          simp only [List.exists_mem_cons_iff, hrow, Option.some.injEq]
          constructor
          · rintro ⟨hm, hn'⟩
            refine ⟨hm, ?_⟩
            rintro (⟨rfl, hs1, -⟩ | hS)
            · omega
            · exact hn' hS
          · rintro ⟨hm, hn'⟩
            exact ⟨hm, fun hS => hn' (Or.inr hS)⟩
        · rw [hflag]
          simp [List.any_cons, hrow]
      · -- a crystal neighbor
        by_cases hany : any_neib_state neibs states' n 0 = true
        · -- it still has a gas neighbor: skip
          have hstep : attach_patch_step neibs states' row (f, flag) d
              = some (f, flag) := by
            unfold attach_patch_step
            rw [hrow]
            dsimp only
            rw [hs]
            dsimp only
            rw [if_pos hany]
          obtain ⟨f', flag', hfold, hInv', hsub', hA, hB, hflag⟩ := ih f flag hInv hsub
          refine ⟨f', flag', ?_, hInv', hsub', ?_, ?_, ?_⟩
          · rw [List.foldlM_cons, hstep]
            simpa using hfold
          · intro i
            rw [hA i]
            simp only [List.exists_mem_cons_iff, hrow, Option.some.injEq]
            constructor
            · rintro (h | hS)
              exacts [Or.inl h, Or.inr (Or.inr hS)]
            · rintro (h | (⟨rfl, hs0⟩ | hS))
              · exact Or.inl h
              · omega
              · exact Or.inr hS
          · intro i
            rw [hB i]
            simp only [List.exists_mem_cons_iff, hrow, Option.some.injEq]
            constructor
            · rintro ⟨hm, hn'⟩
              refine ⟨hm, ?_⟩
              rintro (⟨rfl, -, hanyf⟩ | hS)
              · simp [hany] at hanyf
              · exact hn' hS
            · rintro ⟨hm, hn'⟩
              exact ⟨hm, fun hS => hn' (Or.inr hS)⟩
          · rw [hflag]
            simp [List.any_cons, hrow]
        · -- no gas neighbor left: `tpb_rem`
          have hanyf : any_neib_state neibs states' n 0 = false := by
            revert hany
            cases any_neib_state neibs states' n 0 <;> simp
          obtain ⟨f₂, hrem, hInv2, hmem2, htpas2, hsize2⟩ := tpb_rem_spec N f n hInv hnN
          have hsub2 : ∀ i ∈ f₂.tpbs, states' i = 1 :=
            fun i hi => hsub i ((hmem2 i).mp hi).1
          obtain ⟨f', flag', hfold, hInv', hsub', hA, hB, hflag⟩ :=
            ih f₂ flag hInv2 hsub2
          have hstep : attach_patch_step neibs states' row (f, flag) d
              = some (f₂, flag) := by
            unfold attach_patch_step
            rw [hrow]
            dsimp only
            rw [hs]
            dsimp only
            rw [if_neg hany, hrem]
            rfl
          refine ⟨f', flag', ?_, hInv', hsub', ?_, ?_, ?_⟩
          · rw [List.foldlM_cons, hstep]
            simpa using hfold
          · intro i
            rw [hA i, htpas2]
            simp only [List.exists_mem_cons_iff, hrow, Option.some.injEq]
            constructor
            · rintro (h | hS)
              exacts [Or.inl h, Or.inr (Or.inr hS)]
            · rintro (h | (⟨rfl, hs0⟩ | hS))
              · exact Or.inl h
              · omega
              · exact Or.inr hS
          · intro i
            rw [hB i, hmem2 i]
            simp only [List.exists_mem_cons_iff, hrow, Option.some.injEq]
            constructor
            · rintro ⟨⟨hm, hne⟩, hn'⟩
              refine ⟨hm, ?_⟩
              rintro (⟨rfl, -, -⟩ | hS)
              · exact hne rfl
              · exact hn' hS
            · rintro ⟨hm, hn'⟩
              refine ⟨⟨hm, ?_⟩, fun hS => hn' (Or.inr hS)⟩
              intro he
              subst he
              exact hn' (Or.inl ⟨rfl, hs, hanyf⟩)
          · rw [hflag]
            simp [List.any_cons, hrow]

/-- Exact effect of the detachment patch loop (also used by the
ballistic branches): mirror of `attach_patch_fold_spec` with the roles
of the phases and of the two frontier kinds exchanged. -/
theorem detach_patch_fold_spec (N : ℕ) (neibs : ℕ → Fin 6 → Option ℕ)
    (states' : ℕ → ℕ) (row : Fin 6 → Option ℕ)
    (hrowN : ∀ d n, row d = some n → n < N)
    (hstates : ∀ i, i < N → states' i ≤ 1) :
    ∀ (ds : List (Fin 6)) (f : Frontier) (flag : Bool),
      f.RepInv N → (∀ i ∈ f.tpas, states' i = 0) →
      ∃ f' flag',
        ds.foldlM (detach_patch_step neibs states' row) (f, flag) = some (f', flag') ∧
        f'.RepInv N ∧ (∀ i ∈ f'.tpas, states' i = 0) ∧
        (∀ i, i ∈ f'.tpbs ↔ (i ∈ f.tpbs ∨ ∃ d ∈ ds, row d = some i ∧ states' i = 1)) ∧
        (∀ i, i ∈ f'.tpas ↔ (i ∈ f.tpas ∧
          ¬∃ d ∈ ds, row d = some i ∧ states' i = 0 ∧
            any_neib_state neibs states' i 1 = false)) ∧
        flag' = (flag || ds.any fun d => (row d).isNone) := by
  intro ds
  induction ds with
  | nil =>
    intro f flag hInv hsub
    refine ⟨f, flag, rfl, hInv, hsub, ?_, ?_, by simp⟩
    · intro i; simp
    · intro i; simp
  | cons d ds ih =>
    intro f flag hInv hsub
    cases hrow : row d with
    | none =>
      have hstep : detach_patch_step neibs states' row (f, flag) d = some (f, true) := by
        unfold detach_patch_step
        rw [hrow]
      obtain ⟨f', flag', hfold, hInv', hsub', hB, hA, hflag⟩ := ih f true hInv hsub
      refine ⟨f', flag', ?_, hInv', hsub', ?_, ?_, ?_⟩
      · rw [List.foldlM_cons, hstep]
        simpa using hfold
      · intro i
        rw [hB i]
        simp only [List.exists_mem_cons_iff, hrow]
        simp
      · intro i
        rw [hA i]
        simp only [List.exists_mem_cons_iff, hrow]
        simp
      · rw [hflag]
        simp [List.any_cons, hrow]
    | some n =>
      have hnN : n < N := hrowN d n hrow
      rcases Nat.le_one_iff_eq_zero_or_eq_one.mp (hstates n hnN) with hs | hs
      · -- a gas neighbor
        by_cases hany : any_neib_state neibs states' n 1 = true
        · -- it still has a crystal neighbor: skip
          have hstep : detach_patch_step neibs states' row (f, flag) d
              = some (f, flag) := by
            unfold detach_patch_step
            rw [hrow]
            dsimp only
            rw [hs]
            dsimp only
            rw [if_pos hany]
          obtain ⟨f', flag', hfold, hInv', hsub', hB, hA, hflag⟩ := ih f flag hInv hsub
          refine ⟨f', flag', ?_, hInv', hsub', ?_, ?_, ?_⟩
          · rw [List.foldlM_cons, hstep]
            simpa using hfold
          · intro i
            rw [hB i]
            simp only [List.exists_mem_cons_iff, hrow, Option.some.injEq]
            constructor
            · rintro (h | hS)
              exacts [Or.inl h, Or.inr (Or.inr hS)]
            · rintro (h | (⟨rfl, hs1⟩ | hS))
              · exact Or.inl h
              · omega
              · exact Or.inr hS
          · intro i
            rw [hA i]
            simp only [List.exists_mem_cons_iff, hrow, Option.some.injEq]
            constructor
            · rintro ⟨hm, hn'⟩
              refine ⟨hm, ?_⟩
              rintro (⟨rfl, -, hanyf⟩ | hS)
              · simp [hany] at hanyf
              · exact hn' hS
            · rintro ⟨hm, hn'⟩
              exact ⟨hm, fun hS => hn' (Or.inr hS)⟩
          · rw [hflag]
            simp [List.any_cons, hrow]
        · -- no crystal neighbor left: `tpa_rem`
          have hanyf : any_neib_state neibs states' n 1 = false := by
            revert hany
            cases any_neib_state neibs states' n 1 <;> simp
          obtain ⟨f₂, hrem, hInv2, hmem2, htpbs2, hsize2⟩ := tpa_rem_spec N f n hInv hnN
          have hsub2 : ∀ i ∈ f₂.tpas, states' i = 0 :=
            fun i hi => hsub i ((hmem2 i).mp hi).1
          obtain ⟨f', flag', hfold, hInv', hsub', hB, hA, hflag⟩ :=
            ih f₂ flag hInv2 hsub2
          have hstep : detach_patch_step neibs states' row (f, flag) d
              = some (f₂, flag) := by
            unfold detach_patch_step
            rw [hrow]
            dsimp only
            rw [hs]
            dsimp only
            rw [if_neg hany, hrem]
            rfl
          refine ⟨f', flag', ?_, hInv', hsub', ?_, ?_, ?_⟩
          · rw [List.foldlM_cons, hstep]
            simpa using hfold
          · intro i
            rw [hB i, htpbs2]
            simp only [List.exists_mem_cons_iff, hrow, Option.some.injEq]
            constructor
            · rintro (h | hS)
              exacts [Or.inl h, Or.inr (Or.inr hS)]
            · rintro (h | (⟨rfl, hs1⟩ | hS))
              · exact Or.inl h
              · omega
              · exact Or.inr hS
          · intro i
            rw [hA i, hmem2 i]
            simp only [List.exists_mem_cons_iff, hrow, Option.some.injEq]
            constructor
            · rintro ⟨⟨hm, hne⟩, hn'⟩
              refine ⟨hm, ?_⟩
              rintro (⟨rfl, -, -⟩ | hS)
              · exact hne rfl
              · exact hn' hS
            · rintro ⟨hm, hn'⟩
              refine ⟨⟨hm, ?_⟩, fun hS => hn' (Or.inr hS)⟩
              intro he
              subst he
              exact hn' (Or.inl ⟨rfl, hs, hanyf⟩)
          · rw [hflag]
            simp [List.any_cons, hrow]
      · -- a crystal neighbor: `tpb_add`
        have hnA : n ∉ f.tpas := by
          intro hmem
          have := hsub n hmem
          omega
        obtain ⟨hInv2, hmem2, htpas2, hsize2⟩ := tpb_add_spec N f n hInv hnN hnA
        have hsub2 : ∀ i ∈ (f.tpb_add n).tpas, states' i = 0 := by
          rw [htpas2]; exact hsub
        obtain ⟨f', flag', hfold, hInv', hsub', hB, hA, hflag⟩ :=
          ih (f.tpb_add n) flag hInv2 hsub2
        have hstep : detach_patch_step neibs states' row (f, flag) d
            = some (f.tpb_add n, flag) := by
          unfold detach_patch_step
          rw [hrow]
          dsimp only
          rw [hs]
        refine ⟨f', flag', ?_, hInv', hsub', ?_, ?_, ?_⟩
        · rw [List.foldlM_cons, hstep]
          simpa using hfold
        · intro i
          rw [hB i, hmem2 i]
          simp only [List.exists_mem_cons_iff, hrow, Option.some.injEq]
          constructor
          · rintro ((hB' | rfl) | hS)
            · exact Or.inl hB'
            · exact Or.inr (Or.inl ⟨rfl, hs⟩)
            · exact Or.inr (Or.inr hS)
          · rintro (hB' | (⟨rfl, -⟩ | hS))
            · exact Or.inl (Or.inl hB')
            · exact Or.inl (Or.inr rfl)
            · exact Or.inr hS
        · intro i
          rw [hA i, htpas2]
          simp only [List.exists_mem_cons_iff, hrow, Option.some.injEq]
          constructor
          · rintro ⟨hm, hn'⟩
            refine ⟨hm, ?_⟩
            rintro (⟨rfl, hs0, -⟩ | hS)
            · omega
            · exact hn' hS
          · rintro ⟨hm, hn'⟩
            exact ⟨hm, fun hS => hn' (Or.inr hS)⟩
        · rw [hflag]
          simp [List.any_cons, hrow]

/-! ## Commit lemmas: one accepted event end-to-end -/

/-- What one accepted event does to the reservoir scalars, regardless
of the stall checks (the stall handlers only touch `mk_step` and
`is_alive`). -/
def simlog_commit (s s' : SimLog) (dn surf : ℚ) : Prop :=
  s'.n_cryst = s.n_cryst + dn ∧ s'.n_gas = s.n_gas - dn ∧
  s'.conc = (s.n_gas - dn) / (s.n_tot - (s.n_cryst + dn)) ∧
  s'.conc_neg_count =
    (if s'.conc < 0 then s.conc_neg_count + 1 else s.conc_neg_count) ∧
  s'.tot_denergy = s.tot_denergy + surf ∧
  s'.dg = s.dg ∧ s'.k_t = s.k_t ∧ s'.n_tot = s.n_tot ∧ s'.conc_eq = s.conc_eq ∧
  s'.p_b = s.p_b ∧ s'.p_pow = s.p_pow

theorem simlog_commit_updates (s : SimLog) (dn surf : ℚ) :
    simlog_commit s (((s.update_n_sizes dn).update_conc).add_denergy surf) dn surf := by
  unfold simlog_commit SimLog.update_n_sizes SimLog.update_conc SimLog.add_denergy
  simp

theorem is_front_empty_false_iff (it : Item) :
    it.is_front_empty = false ↔
      (it.front.tpas_size ≠ 0 ∧ it.front.tpbs_size ≠ 0) := by
  unfold Item.is_front_empty
  simp

theorem row_full_of_any_isNone_false (row : Fin 6 → Option ℕ)
    (h : ((List.finRange 6).any fun d => (row d).isNone) = false) :
    ∀ d : Fin 6, row d ≠ none := by
  intro d hd
  rw [List.any_eq_false] at h
  have := h d (List.mem_finRange d)
  rw [hd] at this
  simp at this

/-- One accepted attachment (`attach_commit`): it never fails, flips the
site, performs the reservoir updates, and — when no sentinel neighbor
was scanned and the frontier stayed usable — preserves the kernel
invariant. -/
theorem attach_commit_spec (N : ℕ) (neibs : ℕ → Fin 6 → Option ℕ)
    (hclosed : NeibsClosed N neibs) (hsym : NeibsSym N neibs)
    (step_id : ℕ) (surf : ℚ) (it : Item) (g : ℕ)
    (hK : KernelInv N neibs it) (hgA : g ∈ it.front.tpas) :
    ∃ it' done,
      attach_commit neibs step_id (compute_neighbor_sums it.state (neibs g)) surf g it
        = some (it', done) ∧
      it'.state = upd it.state g 1 ∧
      simlog_commit it.simlog it'.simlog 1 surf ∧
      (done = true → it'.is_alive = false) ∧
      (done = false → it'.is_alive = it.is_alive ∧ KernelInv N neibs it' ∧
        it'.front.tpas_size ≠ 0 ∧ it'.front.tpbs_size ≠ 0) := by
  obtain ⟨hrep, hfm, hsok⟩ := hK
  have hgN : g < N := hrep.lt_a g hgA
  have hgfa : front_a_prop neibs it.state g := (hfm.match_a g hgN).mp hgA
  have hg0 : it.state g = 0 := hgfa.1
  have hgB : g ∉ it.front.tpbs := by
    intro hmem
    have := ((hfm.match_b g hgN).mp hmem).1
    rw [hg0] at this
    exact absurd this (by norm_num)
  -- the flipped phase array
  have hsok' : ∀ i, i < N → upd it.state g 1 i ≤ 1 := by
    intro i hiN
    by_cases hig : i = g
    · subst hig; rw [upd_same]
    · rw [upd_ne _ _ hig]; exact hsok i hiN
  have hstg : upd it.state g 1 g = 1 := upd_same _ _ _
  have hstne : ∀ i, i ≠ g → upd it.state g 1 i = it.state i :=
    fun i hig => upd_ne _ _ hig
  -- step 1: remove the site from `tpas`
  obtain ⟨f1, hrem, hInv1, hmem1, htpbs1, hbsize1⟩ := tpa_rem_spec N it.front g hrep hgN
  -- step 2: maybe add it to `tpbs`
  have hg1A : g ∉ f1.tpas := fun h => ((hmem1 g).mp h).2 rfl
  obtain ⟨hInv2, hmem2, htpas2, hasize2⟩ :=
    tpb_add_spec N f1 g hInv1 hgN hg1A
  -- the frontier entering the patch loop (`f2` in the kernel)
  have hInvF2 : (if (compute_neighbor_sums it.state (neibs g)).1 +
      (compute_neighbor_sums it.state (neibs g)).2.1 +
      (compute_neighbor_sums it.state (neibs g)).2.2 < 6 then
        f1.tpb_add g else f1).RepInv N := by
    split_ifs
    · exact hInv2
    · exact hInv1
  have hF2A : ∀ i, i ∈ (if (compute_neighbor_sums it.state (neibs g)).1 +
      (compute_neighbor_sums it.state (neibs g)).2.1 +
      (compute_neighbor_sums it.state (neibs g)).2.2 < 6 then
        f1.tpb_add g else f1).tpas ↔ (i ∈ it.front.tpas ∧ i ≠ g) := by
    intro i
    split_ifs
    · rw [htpas2]
      exact hmem1 i
    · exact hmem1 i
  have hF2B : ∀ i, i ∈ (if (compute_neighbor_sums it.state (neibs g)).1 +
      (compute_neighbor_sums it.state (neibs g)).2.1 +
      (compute_neighbor_sums it.state (neibs g)).2.2 < 6 then
        f1.tpb_add g else f1).tpbs ↔
      (i ∈ it.front.tpbs ∨ ((compute_neighbor_sums it.state (neibs g)).1 +
        (compute_neighbor_sums it.state (neibs g)).2.1 +
        (compute_neighbor_sums it.state (neibs g)).2.2 < 6 ∧ i = g)) := by
    intro i
    split_ifs with hc
    · rw [hmem2 i, htpbs1]
      constructor
      · rintro (h | rfl)
        exacts [Or.inl h, Or.inr ⟨hc, rfl⟩]
      · rintro (h | ⟨-, rfl⟩)
        exacts [Or.inl h, Or.inr rfl]
    · rw [htpbs1]
      constructor
      · exact fun h => Or.inl h
      · rintro (h | ⟨hc', -⟩)
        exacts [h, absurd hc' hc]
  have hsubF2 : ∀ i ∈ (if (compute_neighbor_sums it.state (neibs g)).1 +
      (compute_neighbor_sums it.state (neibs g)).2.1 +
      (compute_neighbor_sums it.state (neibs g)).2.2 < 6 then
        f1.tpb_add g else f1).tpbs, upd it.state g 1 i = 1 := by
    intro i hi
    rcases (hF2B i).mp hi with hold | ⟨-, rfl⟩
    · have hi1 := ((hfm.match_b i (hrep.lt_b i hold)).mp hold).1
      have hig : i ≠ g := by
        intro he
        rw [he, hg0] at hi1
        exact absurd hi1 (by norm_num)
      rw [hstne i hig]
      exact hi1
    · exact hstg
  obtain ⟨f3, flag', hfold, hInv3, hsub3, hA3, hB3, hflag'⟩ :=
    attach_patch_fold_spec N neibs (upd it.state g 1) (neibs g)
      (fun d n hdn => hclosed g hgN d n hdn) hsok' (List.finRange 6)
      (if (compute_neighbor_sums it.state (neibs g)).1 +
        (compute_neighbor_sums it.state (neibs g)).2.1 +
        (compute_neighbor_sums it.state (neibs g)).2.2 < 6 then
          f1.tpb_add g else f1) false hInvF2 hsubF2
  have hA3' : ∀ i, i ∈ f3.tpas ↔ ((i ∈ it.front.tpas ∧ i ≠ g) ∨
      ∃ d, neibs g d = some i ∧ upd it.state g 1 i = 0) := by
    intro i
    rw [hA3 i, hF2A i]
    simp only [List.mem_finRange, true_and]
  have hB3' : ∀ i, i ∈ f3.tpbs ↔ (((i ∈ it.front.tpbs ∨
      ((compute_neighbor_sums it.state (neibs g)).1 +
        (compute_neighbor_sums it.state (neibs g)).2.1 +
        (compute_neighbor_sums it.state (neibs g)).2.2 < 6 ∧ i = g))) ∧
      ¬∃ d, neibs g d = some i ∧ upd it.state g 1 i = 1 ∧
        any_neib_state neibs (upd it.state g 1) i 0 = false) := by
    intro i
    rw [hB3 i, hF2B i]
    simp only [List.mem_finRange, true_and]
  -- the kernel equation, before the stall checks
  have heq : attach_commit neibs step_id
      (compute_neighbor_sums it.state (neibs g)) surf g it =
      (if flag' = true then
        some ((Item.handle_stalled_boundary
          { it with
            state := upd it.state g 1, front := f3,
            simlog := ((it.simlog.update_n_sizes 1).update_conc).add_denergy surf }
          step_id), true)
      else if (Item.is_front_empty
          { it with
            state := upd it.state g 1, front := f3,
            simlog := ((it.simlog.update_n_sizes 1).update_conc).add_denergy surf }) then
        some ((Item.handle_stalled_front
          { it with
            state := upd it.state g 1, front := f3,
            simlog := ((it.simlog.update_n_sizes 1).update_conc).add_denergy surf }
          step_id), true)
      else
        some ({ it with
          state := upd it.state g 1, front := f3,
          simlog := ((it.simlog.update_n_sizes 1).update_conc).add_denergy surf },
          false)) := by
    unfold attach_commit attach_patch
    rw [hrem]
    dsimp only
    rw [hfold]
  by_cases hfl : flag' = true
  · -- sentinel neighbor scanned: the replica is retired
    rw [hfl, if_pos rfl] at heq
    refine ⟨_, true, heq, rfl, simlog_commit_updates _ _ _, fun _ => rfl, ?_⟩
    intro h
    exact Bool.noConfusion h
  · have hfl' : flag' = false := by
      revert hfl
      cases flag' <;> simp
    rw [hfl', if_neg (Bool.false_ne_true)] at heq
    -- every scanned direction exists
    have hfull : ∀ d : Fin 6, neibs g d ≠ none := by
      apply row_full_of_any_isNone_false
      have h2 := hflag'
      rw [hfl'] at h2
      simpa using h2.symm
    -- the invariant-relevant facts about the new frontier
    have hcong : ∀ i, i < N → (¬∃ d, neibs g d = some i) → ∀ v,
        any_neib_state neibs (upd it.state g 1) i v
          = any_neib_state neibs it.state i v := by
      intro i hiN hno v
      refine (any_neib_state_congr neibs it.state (upd it.state g 1) i v ?_).symm
      intro d m hdm
      have hmg : m ≠ g := by
        intro he
        have h2 := hsym i hiN d m hdm
        rw [he] at h2
        exact hno ⟨opposite_dir d, h2⟩
      rw [hstne m hmg]
    have hmatchA : ∀ i, i < N →
        (i ∈ f3.tpas ↔ front_a_prop neibs (upd it.state g 1) i) := by
      intro i hiN
      rw [hA3' i]
      unfold front_a_prop
      by_cases hig : i = g
      · rw [hig]
        constructor
        · rintro (⟨-, hne⟩ | ⟨d, -, hs0⟩)
          · exact absurd rfl hne
          · rw [hstg] at hs0
            exact absurd hs0 (by norm_num)
        · rintro ⟨h0, -⟩
          rw [hstg] at h0
          exact absurd h0 (by norm_num)
      · by_cases hrowi : ∃ d, neibs g d = some i
        · obtain ⟨d, hd⟩ := hrowi
          rcases Nat.le_one_iff_eq_zero_or_eq_one.mp (hsok i hiN) with hs | hs
          · constructor
            · intro _
              refine ⟨by rw [hstne i hig]; exact hs, ?_⟩
              exact (any_neib_state_iff neibs _ i 1).mpr
                ⟨opposite_dir d, g, hsym g hgN d i hd, hstg⟩
            · intro _
              exact Or.inr ⟨d, hd, by rw [hstne i hig]; exact hs⟩
          · constructor
            · rintro (⟨hmem, -⟩ | ⟨d', -, hs0⟩)
              · have h2 := ((hfm.match_a i hiN).mp hmem).1
                omega
              · rw [hstne i hig] at hs0
                omega
            · rintro ⟨h0, -⟩
              rw [hstne i hig] at h0
              omega
        · rw [hstne i hig, hcong i hiN hrowi 1]
          constructor
          · rintro (⟨hmem, -⟩ | ⟨d, hd, -⟩)
            · exact (hfm.match_a i hiN).mp hmem
            · exact absurd ⟨d, hd⟩ hrowi
          · intro h
            exact Or.inl ⟨(hfm.match_a i hiN).mpr h, hig⟩
    have hmatchB : ∀ i, i < N →
        (i ∈ f3.tpbs ↔ front_b_prop neibs (upd it.state g 1) i) := by
      intro i hiN
      rw [hB3' i]
      unfold front_b_prop
      by_cases hig : i = g
      · rw [hig]
        have hcondchar := sums_lt_six_iff it.state (neibs g) hfull
        constructor
        · rintro ⟨hm, hnr⟩
          refine ⟨hstg, ?_⟩
          rcases hm with hm | ⟨hc, -⟩
          · exact absurd hm hgB
          by_contra hfalse
          have hfb : any_neib_state neibs (upd it.state g 1) g 0 = false := by
            revert hfalse
            cases any_neib_state neibs (upd it.state g 1) g 0 <;> simp
          obtain ⟨d, n, hdn, hn1⟩ := hcondchar.mp hc
          by_cases hng : n = g
          · subst hng
            exact hnr ⟨d, hdn, hstg, hfb⟩
          · have hn0 : it.state n = 0 := by
              have := hsok n (hclosed g hgN d n hdn)
              omega
            have htrue : any_neib_state neibs (upd it.state g 1) g 0 = true :=
              (any_neib_state_iff neibs _ g 0).mpr
                ⟨d, n, hdn, by rw [hstne n hng]; exact hn0⟩
            rw [htrue] at hfb
            exact Bool.noConfusion hfb
        · rintro ⟨-, htrue⟩
          obtain ⟨d, m, hdm, hm0⟩ := (any_neib_state_iff neibs _ g 0).mp htrue
          have hmg : m ≠ g := by
            intro he
            rw [he, hstg] at hm0
            exact absurd hm0 (by norm_num)
          have hm0' : it.state m = 0 := by
            rw [← hstne m hmg]
            exact hm0
          refine ⟨Or.inr ⟨hcondchar.mpr ⟨d, m, hdm, by omega⟩, rfl⟩, ?_⟩
          rintro ⟨d', -, -, hfb⟩
          rw [htrue] at hfb
          exact Bool.noConfusion hfb
      · by_cases hrowi : ∃ d, neibs g d = some i
        · obtain ⟨d, hd⟩ := hrowi
          rcases Nat.le_one_iff_eq_zero_or_eq_one.mp (hsok i hiN) with hs | hs
          · constructor
            · rintro ⟨(hmem | ⟨-, he⟩), -⟩
              · have h2 := ((hfm.match_b i hiN).mp hmem).1
                omega
              · exact absurd he hig
            · rintro ⟨h1, -⟩
              rw [hstne i hig] at h1
              omega
          · have hmemold : i ∈ it.front.tpbs := by
              refine (hfm.match_b i hiN).mpr ⟨hs, ?_⟩
              exact (any_neib_state_iff neibs _ i 0).mpr
                ⟨opposite_dir d, g, hsym g hgN d i hd, hg0⟩
            constructor
            · rintro ⟨-, hnr⟩
              refine ⟨by rw [hstne i hig]; exact hs, ?_⟩
              by_contra hfalse
              have hfb : any_neib_state neibs (upd it.state g 1) i 0 = false := by
                revert hfalse
                cases any_neib_state neibs (upd it.state g 1) i 0 <;> simp
              exact hnr ⟨d, hd, by rw [hstne i hig]; exact hs, hfb⟩
            · rintro ⟨-, htrue⟩
              refine ⟨Or.inl hmemold, ?_⟩
              rintro ⟨d', -, -, hfb⟩
              rw [htrue] at hfb
              exact Bool.noConfusion hfb
        · rw [hstne i hig, hcong i hiN hrowi 0]
          constructor
          · rintro ⟨(hmem | ⟨-, he⟩), -⟩
            · exact (hfm.match_b i hiN).mp hmem
            · exact absurd he hig
          · intro h
            refine ⟨Or.inl ((hfm.match_b i hiN).mpr h), ?_⟩
            rintro ⟨d, hd, -⟩
            exact hrowi ⟨d, hd⟩
    -- assemble
    by_cases hemp : Item.is_front_empty
        { it with
          state := upd it.state g 1, front := f3,
          simlog := ((it.simlog.update_n_sizes 1).update_conc).add_denergy surf }
        = true
    · rw [if_pos hemp] at heq
      refine ⟨_, true, heq, rfl, simlog_commit_updates _ _ _, fun _ => rfl, ?_⟩
      intro h
      exact Bool.noConfusion h
    · have hemp' : Item.is_front_empty
          { it with
            state := upd it.state g 1, front := f3,
            simlog := ((it.simlog.update_n_sizes 1).update_conc).add_denergy surf }
          = false := Bool.eq_false_iff.mpr hemp
      rw [if_neg hemp] at heq
      obtain ⟨hsa, hsb⟩ := (is_front_empty_false_iff _).mp hemp'
      refine ⟨_, false, heq, rfl, simlog_commit_updates _ _ _,
        fun h => Bool.noConfusion h, ?_⟩
      intro _
      exact ⟨rfl, ⟨hInv3, ⟨hmatchA, hmatchB⟩, hsok'⟩, hsa, hsb⟩

/-- One accepted detachment (`detach_commit`, also the ballistic
commit): mirror of `attach_commit_spec`. -/
theorem detach_commit_spec (N : ℕ) (neibs : ℕ → Fin 6 → Option ℕ)
    (hclosed : NeibsClosed N neibs) (hsym : NeibsSym N neibs)
    (step_id : ℕ) (surf : ℚ) (it : Item) (g : ℕ)
    (hK : KernelInv N neibs it) (hgB : g ∈ it.front.tpbs) :
    ∃ it' done,
      detach_commit neibs step_id (compute_neighbor_sums it.state (neibs g)) surf g it
        = some (it', done) ∧
      it'.state = upd it.state g 0 ∧
      simlog_commit it.simlog it'.simlog (-1) surf ∧
      (done = true → it'.is_alive = false) ∧
      (done = false → it'.is_alive = it.is_alive ∧ KernelInv N neibs it' ∧
        it'.front.tpas_size ≠ 0 ∧ it'.front.tpbs_size ≠ 0) := by
  obtain ⟨hrep, hfm, hsok⟩ := hK
  have hgN : g < N := hrep.lt_b g hgB
  have hgfb : front_b_prop neibs it.state g := (hfm.match_b g hgN).mp hgB
  have hg1 : it.state g = 1 := hgfb.1
  have hgA : g ∉ it.front.tpas := by
    intro hmem
    have := ((hfm.match_a g hgN).mp hmem).1
    rw [hg1] at this
    exact absurd this (by norm_num)
  have hsok' : ∀ i, i < N → upd it.state g 0 i ≤ 1 := by
    intro i hiN
    by_cases hig : i = g
    · subst hig; rw [upd_same]; omega
    · rw [upd_ne _ _ hig]; exact hsok i hiN
  have hstg : upd it.state g 0 g = 0 := upd_same _ _ _
  have hstne : ∀ i, i ≠ g → upd it.state g 0 i = it.state i :=
    fun i hig => upd_ne _ _ hig
  -- step 1: remove the site from `tpbs`
  obtain ⟨f1, hrem, hInv1, hmem1, htpas1, hasize1⟩ := tpb_rem_spec N it.front g hrep hgN
  -- step 2: maybe add it to `tpas`
  have hg1B : g ∉ f1.tpbs := fun h => ((hmem1 g).mp h).2 rfl
  obtain ⟨hInv2, hmem2, htpbs2, hbsize2⟩ :=
    tpa_add_spec N f1 g hInv1 hgN hg1B
  have hInvF2 : (if 0 < (compute_neighbor_sums it.state (neibs g)).1 +
      (compute_neighbor_sums it.state (neibs g)).2.1 +
      (compute_neighbor_sums it.state (neibs g)).2.2 then
        f1.tpa_add g else f1).RepInv N := by
    split_ifs
    · exact hInv2
    · exact hInv1
  have hF2B : ∀ i, i ∈ (if 0 < (compute_neighbor_sums it.state (neibs g)).1 +
      (compute_neighbor_sums it.state (neibs g)).2.1 +
      (compute_neighbor_sums it.state (neibs g)).2.2 then
        f1.tpa_add g else f1).tpbs ↔ (i ∈ it.front.tpbs ∧ i ≠ g) := by
    intro i
    split_ifs
    · rw [htpbs2]
      exact hmem1 i
    · exact hmem1 i
  have hF2A : ∀ i, i ∈ (if 0 < (compute_neighbor_sums it.state (neibs g)).1 +
      (compute_neighbor_sums it.state (neibs g)).2.1 +
      (compute_neighbor_sums it.state (neibs g)).2.2 then
        f1.tpa_add g else f1).tpas ↔
      (i ∈ it.front.tpas ∨ (0 < (compute_neighbor_sums it.state (neibs g)).1 +
        (compute_neighbor_sums it.state (neibs g)).2.1 +
        (compute_neighbor_sums it.state (neibs g)).2.2 ∧ i = g)) := by
    intro i
    split_ifs with hc
    · rw [hmem2 i, htpas1]
      constructor
      · rintro (h | rfl)
        exacts [Or.inl h, Or.inr ⟨hc, rfl⟩]
      · rintro (h | ⟨-, rfl⟩)
        exacts [Or.inl h, Or.inr rfl]
    · rw [htpas1]
      constructor
      · exact fun h => Or.inl h
      · rintro (h | ⟨hc', -⟩)
        exacts [h, absurd hc' hc]
  have hsubF2 : ∀ i ∈ (if 0 < (compute_neighbor_sums it.state (neibs g)).1 +
      (compute_neighbor_sums it.state (neibs g)).2.1 +
      (compute_neighbor_sums it.state (neibs g)).2.2 then
        f1.tpa_add g else f1).tpas, upd it.state g 0 i = 0 := by
    intro i hi
    rcases (hF2A i).mp hi with hold | ⟨-, rfl⟩
    · have hi0 := ((hfm.match_a i (hrep.lt_a i hold)).mp hold).1
      have hig : i ≠ g := by
        intro he
        rw [he, hg1] at hi0
        exact absurd hi0 (by norm_num)
      rw [hstne i hig]
      exact hi0
    · exact hstg
  obtain ⟨f3, flag', hfold, hInv3, hsub3, hB3, hA3, hflag'⟩ :=
    detach_patch_fold_spec N neibs (upd it.state g 0) (neibs g)
      (fun d n hdn => hclosed g hgN d n hdn) hsok' (List.finRange 6)
      (if 0 < (compute_neighbor_sums it.state (neibs g)).1 +
        (compute_neighbor_sums it.state (neibs g)).2.1 +
        (compute_neighbor_sums it.state (neibs g)).2.2 then
          f1.tpa_add g else f1) false hInvF2 hsubF2
  have hB3' : ∀ i, i ∈ f3.tpbs ↔ ((i ∈ it.front.tpbs ∧ i ≠ g) ∨
      ∃ d, neibs g d = some i ∧ upd it.state g 0 i = 1) := by
    intro i
    rw [hB3 i, hF2B i]
    simp only [List.mem_finRange, true_and]
  have hA3' : ∀ i, i ∈ f3.tpas ↔ (((i ∈ it.front.tpas ∨
      (0 < (compute_neighbor_sums it.state (neibs g)).1 +
        (compute_neighbor_sums it.state (neibs g)).2.1 +
        (compute_neighbor_sums it.state (neibs g)).2.2 ∧ i = g))) ∧
      ¬∃ d, neibs g d = some i ∧ upd it.state g 0 i = 0 ∧
        any_neib_state neibs (upd it.state g 0) i 1 = false) := by
    intro i
    rw [hA3 i, hF2A i]
    simp only [List.mem_finRange, true_and]
  have heq : detach_commit neibs step_id
      (compute_neighbor_sums it.state (neibs g)) surf g it =
      (if flag' = true then
        some ((Item.handle_stalled_boundary
          { it with
            state := upd it.state g 0, front := f3,
            simlog := ((it.simlog.update_n_sizes (-1)).update_conc).add_denergy surf }
          step_id), true)
      else if (Item.is_front_empty
          { it with
            state := upd it.state g 0, front := f3,
            simlog := ((it.simlog.update_n_sizes (-1)).update_conc).add_denergy surf }) then
        some ((Item.handle_stalled_front
          { it with
            state := upd it.state g 0, front := f3,
            simlog := ((it.simlog.update_n_sizes (-1)).update_conc).add_denergy surf }
          step_id), true)
      else
        some ({ it with
          state := upd it.state g 0, front := f3,
          simlog := ((it.simlog.update_n_sizes (-1)).update_conc).add_denergy surf },
          false)) := by
    unfold detach_commit detach_patch
    rw [hrem]
    dsimp only
    rw [hfold]
  by_cases hfl : flag' = true
  · rw [hfl, if_pos rfl] at heq
    refine ⟨_, true, heq, rfl, simlog_commit_updates _ _ _, fun _ => rfl, ?_⟩
    intro h
    exact Bool.noConfusion h
  · have hfl' : flag' = false := by
      revert hfl
      cases flag' <;> simp
    rw [hfl', if_neg (Bool.false_ne_true)] at heq
    have hcong : ∀ i, i < N → (¬∃ d, neibs g d = some i) → ∀ v,
        any_neib_state neibs (upd it.state g 0) i v
          = any_neib_state neibs it.state i v := by
      intro i hiN hno v
      refine (any_neib_state_congr neibs it.state (upd it.state g 0) i v ?_).symm
      intro d m hdm
      have hmg : m ≠ g := by
        intro he
        have h2 := hsym i hiN d m hdm
        rw [he] at h2
        exact hno ⟨opposite_dir d, h2⟩
      rw [hstne m hmg]
    have hmatchB : ∀ i, i < N →
        (i ∈ f3.tpbs ↔ front_b_prop neibs (upd it.state g 0) i) := by
      intro i hiN
      rw [hB3' i]
      unfold front_b_prop
      by_cases hig : i = g
      · rw [hig]
        constructor
        · rintro (⟨-, hne⟩ | ⟨d, -, hs1⟩)
          · exact absurd rfl hne
          · rw [hstg] at hs1
            exact absurd hs1 (by norm_num)
        · rintro ⟨h1, -⟩
          rw [hstg] at h1
          exact absurd h1 (by norm_num)
      · by_cases hrowi : ∃ d, neibs g d = some i
        · obtain ⟨d, hd⟩ := hrowi
          rcases Nat.le_one_iff_eq_zero_or_eq_one.mp (hsok i hiN) with hs | hs
          · constructor
            · rintro (⟨hmem, -⟩ | ⟨d', -, hs1⟩)
              · have h2 := ((hfm.match_b i hiN).mp hmem).1
                omega
              · rw [hstne i hig] at hs1
                omega
            · rintro ⟨h1, -⟩
              rw [hstne i hig] at h1
              omega
          · constructor
            · intro _
              refine ⟨by rw [hstne i hig]; exact hs, ?_⟩
              exact (any_neib_state_iff neibs _ i 0).mpr
                ⟨opposite_dir d, g, hsym g hgN d i hd, hstg⟩
            · intro _
              exact Or.inr ⟨d, hd, by rw [hstne i hig]; exact hs⟩
        · rw [hstne i hig, hcong i hiN hrowi 0]
          constructor
          · rintro (⟨hmem, -⟩ | ⟨d, hd, -⟩)
            · exact (hfm.match_b i hiN).mp hmem
            · exact absurd ⟨d, hd⟩ hrowi
          · intro h
            exact Or.inl ⟨(hfm.match_b i hiN).mpr h, hig⟩
    have hmatchA : ∀ i, i < N →
        (i ∈ f3.tpas ↔ front_a_prop neibs (upd it.state g 0) i) := by
      intro i hiN
      rw [hA3' i]
      unfold front_a_prop
      by_cases hig : i = g
      · rw [hig]
        have hcondchar := sums_pos_iff it.state (neibs g)
        constructor
        · rintro ⟨hm, hnr⟩
          refine ⟨hstg, ?_⟩
          rcases hm with hm | ⟨hc, -⟩
          · exact absurd hm hgA
          by_contra hfalse
          have hfb : any_neib_state neibs (upd it.state g 0) g 1 = false := by
            revert hfalse
            cases any_neib_state neibs (upd it.state g 0) g 1 <;> simp
          obtain ⟨d, n, hdn, hn1⟩ := hcondchar.mp hc
          by_cases hng : n = g
          · subst hng
            exact hnr ⟨d, hdn, hstg, hfb⟩
          · have htrue : any_neib_state neibs (upd it.state g 0) g 1 = true :=
              (any_neib_state_iff neibs _ g 1).mpr
                ⟨d, n, hdn, by rw [hstne n hng]; exact hn1⟩
            rw [htrue] at hfb
            exact Bool.noConfusion hfb
        · rintro ⟨-, htrue⟩
          obtain ⟨d, m, hdm, hm1⟩ := (any_neib_state_iff neibs _ g 1).mp htrue
          have hmg : m ≠ g := by
            intro he
            rw [he, hstg] at hm1
            exact absurd hm1 (by norm_num)
          have hm1' : it.state m = 1 := by
            rw [← hstne m hmg]
            exact hm1
          refine ⟨Or.inr ⟨hcondchar.mpr ⟨d, m, hdm, hm1'⟩, rfl⟩, ?_⟩
          rintro ⟨d', -, -, hfb⟩
          rw [htrue] at hfb
          exact Bool.noConfusion hfb
      · by_cases hrowi : ∃ d, neibs g d = some i
        · obtain ⟨d, hd⟩ := hrowi
          rcases Nat.le_one_iff_eq_zero_or_eq_one.mp (hsok i hiN) with hs | hs
          · have hmemold : i ∈ it.front.tpas := by
              refine (hfm.match_a i hiN).mpr ⟨hs, ?_⟩
              exact (any_neib_state_iff neibs _ i 1).mpr
                ⟨opposite_dir d, g, hsym g hgN d i hd, hg1⟩
            constructor
            · rintro ⟨-, hnr⟩
              refine ⟨by rw [hstne i hig]; exact hs, ?_⟩
              by_contra hfalse
              have hfb : any_neib_state neibs (upd it.state g 0) i 1 = false := by
                revert hfalse
                cases any_neib_state neibs (upd it.state g 0) i 1 <;> simp
              exact hnr ⟨d, hd, by rw [hstne i hig]; exact hs, hfb⟩
            · rintro ⟨-, htrue⟩
              refine ⟨Or.inl hmemold, ?_⟩
              rintro ⟨d', -, -, hfb⟩
              rw [htrue] at hfb
              exact Bool.noConfusion hfb
          · constructor
            · rintro ⟨(hmem | ⟨-, he⟩), -⟩
              · have h2 := ((hfm.match_a i hiN).mp hmem).1
                omega
              · exact absurd he hig
            · rintro ⟨h0, -⟩
              rw [hstne i hig] at h0
              omega
        · rw [hstne i hig, hcong i hiN hrowi 1]
          constructor
          · rintro ⟨(hmem | ⟨-, he⟩), -⟩
            · exact (hfm.match_a i hiN).mp hmem
            · exact absurd he hig
          · intro h
            refine ⟨Or.inl ((hfm.match_a i hiN).mpr h), ?_⟩
            rintro ⟨d, hd, -⟩
            exact hrowi ⟨d, hd⟩
    by_cases hemp : Item.is_front_empty
        { it with
          state := upd it.state g 0, front := f3,
          simlog := ((it.simlog.update_n_sizes (-1)).update_conc).add_denergy surf }
        = true
    · rw [if_pos hemp] at heq
      refine ⟨_, true, heq, rfl, simlog_commit_updates _ _ _, fun _ => rfl, ?_⟩
      intro h
      exact Bool.noConfusion h
    · have hemp' : Item.is_front_empty
          { it with
            state := upd it.state g 0, front := f3,
            simlog := ((it.simlog.update_n_sizes (-1)).update_conc).add_denergy surf }
          = false := Bool.eq_false_iff.mpr hemp
      rw [if_neg hemp] at heq
      obtain ⟨hsa, hsb⟩ := (is_front_empty_false_iff _).mp hemp'
      refine ⟨_, false, heq, rfl, simlog_commit_updates _ _ _,
        fun h => Bool.noConfusion h, ?_⟩
      intro _
      exact ⟨rfl, ⟨hInv3, ⟨hmatchA, hmatchB⟩, hsok'⟩, hsa, hsb⟩

/-! ## Sub-event and full-step lemmas -/

/-- The reservoir-scalar frame a kernel step maintains: `n_gas +
n_cryst` is conserved and every scalar the kernel does not own is
untouched. -/
def simlog_frame (s s' : SimLog) : Prop :=
  s'.n_cryst + s'.n_gas = s.n_cryst + s.n_gas ∧ s'.dg = s.dg ∧ s'.k_t = s.k_t ∧
  s'.n_tot = s.n_tot ∧ s'.conc_eq = s.conc_eq ∧ s'.p_b = s.p_b ∧ s'.p_pow = s.p_pow

theorem simlog_frame_refl (s : SimLog) : simlog_frame s s :=
  ⟨rfl, rfl, rfl, rfl, rfl, rfl, rfl⟩

theorem simlog_frame_trans {s t u : SimLog} (h1 : simlog_frame s t)
    (h2 : simlog_frame t u) : simlog_frame s u := by
  obtain ⟨a1, a2, a3, a4, a5, a6, a7⟩ := h1
  obtain ⟨b1, b2, b3, b4, b5, b6, b7⟩ := h2
  exact ⟨b1.trans a1, b2.trans a2, b3.trans a3, b4.trans a4, b5.trans a5,
    b6.trans a6, b7.trans a7⟩

theorem simlog_frame_of_commit {s s' : SimLog} {dn surf : ℚ}
    (h : simlog_commit s s' dn surf) : simlog_frame s s' := by
  obtain ⟨h1, h2, -, -, -, h6, h7, h8, h9, h10, h11⟩ := h
  exact ⟨by rw [h1, h2]; ring, h6, h7, h8, h9, h10, h11⟩

theorem simlog_frame_mk_step (s : SimLog) (x : ℕ) :
    simlog_frame s { s with mk_step := x } :=
  ⟨rfl, rfl, rfl, rfl, rfl, rfl, rfl⟩

/-- On an active add step with an empty `GasAdj`, the sampling
`random_range(0..0)` panics. -/
theorem attach_sub_none (neibs : ℕ → Fin 6 → Option ℕ) (e : ℚ × ℚ × ℚ)
    (step_id : ℕ) (oi : ℕ) (oa : Bool) (it : Item)
    (hsz : it.front.tpas_size = 0) :
    attach_sub neibs e step_id true oi oa it = none := by
  unfold attach_sub
  rw [if_pos rfl]
  dsimp only
  rw [if_pos hsz]

/-- Any successful run of the attachment sub-event preserves the frame
and (when it does not retire the replica) the kernel invariant and the
usability of the frontier. -/
theorem attach_sub_some (N : ℕ) (neibs : ℕ → Fin 6 → Option ℕ)
    (hclosed : NeibsClosed N neibs) (hsym : NeibsSym N neibs)
    (e : ℚ × ℚ × ℚ) (step_id : ℕ) (is_add : Bool) (oi : ℕ) (oa : Bool)
    (it it' : Item) (done : Bool)
    (hK : KernelInv N neibs it)
    (heq : attach_sub neibs e step_id is_add oi oa it = some (it', done)) :
    simlog_frame it.simlog it'.simlog ∧
    (done = true → it'.is_alive = false) ∧
    (done = false → it'.is_alive = it.is_alive ∧ KernelInv N neibs it' ∧
      (it.front.tpas_size ≠ 0 → it'.front.tpas_size ≠ 0) ∧
      (it.front.tpbs_size ≠ 0 → it'.front.tpbs_size ≠ 0)) := by
  unfold attach_sub at heq
  cases is_add with
  | false =>
    simp only [Bool.false_eq_true, if_false, Option.some.injEq, Prod.mk.injEq] at heq
    obtain ⟨h1, h2⟩ := heq
    subst h1
    subst h2
    exact ⟨simlog_frame_refl _, fun h => Bool.noConfusion h,
      fun _ => ⟨rfl, hK, id, id⟩⟩
  | true =>
    rw [if_pos rfl] at heq
    dsimp only at heq
    by_cases hsz : it.front.tpas_size = 0
    · rw [if_pos hsz] at heq
      exact Option.noConfusion heq
    · rw [if_neg hsz] at heq
      cases hget : it.front.tpas[oi % it.front.tpas_size]? with
      | none =>
        rw [hget] at heq
        exact Option.noConfusion heq
      | some g =>
        rw [hget] at heq
        dsimp only at heq
        have hgmem : g ∈ it.front.tpas := List.getElem?_mem hget
        cases oa with
        | false =>
          simp only [Bool.false_eq_true, if_false, Option.some.injEq,
            Prod.mk.injEq] at heq
          obtain ⟨h1, h2⟩ := heq
          subst h1
          subst h2
          exact ⟨simlog_frame_refl _, fun h => Bool.noConfusion h,
            fun _ => ⟨rfl, hK, id, id⟩⟩
        | true =>
          rw [if_pos rfl] at heq
          obtain ⟨it2, done2, heq2, hstate2, hsl2, hdead2, halive2⟩ :=
            attach_commit_spec N neibs hclosed hsym step_id
              (surf_attach e.1 e.2.1 e.2.2 (compute_neighbor_sums it.state (neibs g)))
              it g hK hgmem
          rw [heq2, Option.some.injEq, Prod.mk.injEq] at heq
          obtain ⟨h1, h2⟩ := heq
          subst h1
          subst h2
          refine ⟨simlog_frame_of_commit hsl2, hdead2, ?_⟩
          intro hd
          obtain ⟨ha, hk, hsa, hsb⟩ := halive2 hd
          exact ⟨ha, hk, fun _ => hsa, fun _ => hsb⟩

/-- On an active rem step with an empty `CrystalAdj`, the sampling
panics. -/
theorem detach_sub_none (neibs : ℕ → Fin 6 → Option ℕ) (e : ℚ × ℚ × ℚ)
    (step_id : ℕ) (oi : ℕ) (oa : Bool) (it : Item)
    (hsz : it.front.tpbs_size = 0) :
    detach_sub neibs e step_id true oi oa it = none := by
  unfold detach_sub
  rw [if_pos rfl]
  dsimp only
  rw [if_pos hsz]

/-- Mirror of `attach_sub_some` for the thermal detachment sub-event. -/
theorem detach_sub_some (N : ℕ) (neibs : ℕ → Fin 6 → Option ℕ)
    (hclosed : NeibsClosed N neibs) (hsym : NeibsSym N neibs)
    (e : ℚ × ℚ × ℚ) (step_id : ℕ) (is_rem : Bool) (oi : ℕ) (oa : Bool)
    (it it' : Item) (done : Bool)
    (hK : KernelInv N neibs it)
    (heq : detach_sub neibs e step_id is_rem oi oa it = some (it', done)) :
    simlog_frame it.simlog it'.simlog ∧
    (done = true → it'.is_alive = false) ∧
    (done = false → it'.is_alive = it.is_alive ∧ KernelInv N neibs it' ∧
      (it.front.tpas_size ≠ 0 → it'.front.tpas_size ≠ 0) ∧
      (it.front.tpbs_size ≠ 0 → it'.front.tpbs_size ≠ 0)) := by
  unfold detach_sub at heq
  cases is_rem with
  | false =>
    simp only [Bool.false_eq_true, if_false, Option.some.injEq, Prod.mk.injEq] at heq
    obtain ⟨h1, h2⟩ := heq
    subst h1
    subst h2
    exact ⟨simlog_frame_refl _, fun h => Bool.noConfusion h,
      fun _ => ⟨rfl, hK, id, id⟩⟩
  | true =>
    rw [if_pos rfl] at heq
    dsimp only at heq
    by_cases hsz : it.front.tpbs_size = 0
    · rw [if_pos hsz] at heq
      exact Option.noConfusion heq
    · rw [if_neg hsz] at heq
      cases hget : it.front.tpbs[oi % it.front.tpbs_size]? with
      | none =>
        rw [hget] at heq
        exact Option.noConfusion heq
      | some g =>
        rw [hget] at heq
        dsimp only at heq
        have hgmem : g ∈ it.front.tpbs := List.getElem?_mem hget
        cases oa with
        | false =>
          simp only [Bool.false_eq_true, if_false, Option.some.injEq,
            Prod.mk.injEq] at heq
          obtain ⟨h1, h2⟩ := heq
          subst h1
          subst h2
          exact ⟨simlog_frame_refl _, fun h => Bool.noConfusion h,
            fun _ => ⟨rfl, hK, id, id⟩⟩
        | true =>
          rw [if_pos rfl] at heq
          obtain ⟨it2, done2, heq2, hstate2, hsl2, hdead2, halive2⟩ :=
            detach_commit_spec N neibs hclosed hsym step_id
              (surf_detach e.1 e.2.1 e.2.2 (compute_neighbor_sums it.state (neibs g)))
              it g hK hgmem
          rw [heq2, Option.some.injEq, Prod.mk.injEq] at heq
          obtain ⟨h1, h2⟩ := heq
          subst h1
          subst h2
          refine ⟨simlog_frame_of_commit hsl2, hdead2, ?_⟩
          intro hd
          obtain ⟨ha, hk, hsa, hsb⟩ := halive2 hd
          exact ⟨ha, hk, fun _ => hsa, fun _ => hsb⟩

/-- Mirror of `attach_sub_some` for the mode-x.2 ballistic sub-event. -/
theorem ballistic_sub_22_some (N : ℕ) (neibs : ℕ → Fin 6 → Option ℕ)
    (hclosed : NeibsClosed N neibs) (hsym : NeibsSym N neibs)
    (e : ℚ × ℚ × ℚ) (step_id : ℕ) (og : Bool) (oi : ℕ)
    (it it' : Item) (done : Bool)
    (hK : KernelInv N neibs it)
    (heq : ballistic_sub_22 neibs e step_id og oi it = some (it', done)) :
    simlog_frame it.simlog it'.simlog ∧
    (done = true → it'.is_alive = false) ∧
    (done = false → it'.is_alive = it.is_alive ∧ KernelInv N neibs it' ∧
      (it.front.tpas_size ≠ 0 → it'.front.tpas_size ≠ 0) ∧
      (it.front.tpbs_size ≠ 0 → it'.front.tpbs_size ≠ 0)) := by
  unfold ballistic_sub_22 at heq
  cases og with
  | false =>
    simp only [Bool.false_eq_true, if_false, Option.some.injEq, Prod.mk.injEq] at heq
    obtain ⟨h1, h2⟩ := heq
    subst h1
    subst h2
    exact ⟨simlog_frame_refl _, fun h => Bool.noConfusion h,
      fun _ => ⟨rfl, hK, id, id⟩⟩
  | true =>
    rw [if_pos rfl] at heq
    dsimp only at heq
    by_cases hsz : it.front.tpbs_size = 0
    · rw [if_pos hsz] at heq
      exact Option.noConfusion heq
    · rw [if_neg hsz] at heq
      cases hget : it.front.tpbs[oi % it.front.tpbs_size]? with
      | none =>
        rw [hget] at heq
        exact Option.noConfusion heq
      | some g =>
        rw [hget] at heq
        dsimp only at heq
        have hgmem : g ∈ it.front.tpbs := List.getElem?_mem hget
        obtain ⟨it2, done2, heq2, hstate2, hsl2, hdead2, halive2⟩ :=
          detach_commit_spec N neibs hclosed hsym step_id
            (surf_detach e.1 e.2.1 e.2.2 (compute_neighbor_sums it.state (neibs g)))
            it g hK hgmem
        rw [heq2, Option.some.injEq, Prod.mk.injEq] at heq
        obtain ⟨h1, h2⟩ := heq
        subst h1
        subst h2
        refine ⟨simlog_frame_of_commit hsl2, hdead2, ?_⟩
        intro hd
        obtain ⟨ha, hk, hsa, hsb⟩ := halive2 hd
        exact ⟨ha, hk, fun _ => hsa, fun _ => hsb⟩

/-- The mode-x.3 ballistic sub-event samples before testing, so an
empty `CrystalAdj` panics even when the event would be rejected. -/
theorem ballistic_sub_23_none (neibs : ℕ → Fin 6 → Option ℕ) (e : ℚ × ℚ × ℚ)
    (step_id : ℕ) (og : Bool) (oi : ℕ) (it : Item)
    (hsz : it.front.tpbs_size = 0) :
    ballistic_sub_23 neibs e step_id og oi it = none := by
  unfold ballistic_sub_23
  rw [if_pos hsz]

/-- Mirror of `attach_sub_some` for the mode-x.3 ballistic sub-event. -/
theorem ballistic_sub_23_some (N : ℕ) (neibs : ℕ → Fin 6 → Option ℕ)
    (hclosed : NeibsClosed N neibs) (hsym : NeibsSym N neibs)
    (e : ℚ × ℚ × ℚ) (step_id : ℕ) (og : Bool) (oi : ℕ)
    (it it' : Item) (done : Bool)
    (hK : KernelInv N neibs it)
    (heq : ballistic_sub_23 neibs e step_id og oi it = some (it', done)) :
    simlog_frame it.simlog it'.simlog ∧
    (done = true → it'.is_alive = false) ∧
    (done = false → it'.is_alive = it.is_alive ∧ KernelInv N neibs it' ∧
      (it.front.tpas_size ≠ 0 → it'.front.tpas_size ≠ 0) ∧
      (it.front.tpbs_size ≠ 0 → it'.front.tpbs_size ≠ 0)) := by
  unfold ballistic_sub_23 at heq
  by_cases hsz : it.front.tpbs_size = 0
  · rw [if_pos hsz] at heq
    exact Option.noConfusion heq
  · rw [if_neg hsz] at heq
    cases hget : it.front.tpbs[oi % it.front.tpbs_size]? with
    | none =>
      rw [hget] at heq
      exact Option.noConfusion heq
    | some g =>
      rw [hget] at heq
      dsimp only at heq
      have hgmem : g ∈ it.front.tpbs := List.getElem?_mem hget
      cases og with
      | false =>
        simp only [Bool.false_eq_true, if_false, Option.some.injEq,
          Prod.mk.injEq] at heq
        obtain ⟨h1, h2⟩ := heq
        subst h1
        subst h2
        exact ⟨simlog_frame_refl _, fun h => Bool.noConfusion h,
          fun _ => ⟨rfl, hK, id, id⟩⟩
      | true =>
        rw [if_pos rfl] at heq
        obtain ⟨it2, done2, heq2, hstate2, hsl2, hdead2, halive2⟩ :=
          detach_commit_spec N neibs hclosed hsym step_id
            (surf_detach e.1 e.2.1 e.2.2 (compute_neighbor_sums it.state (neibs g)))
            it g hK hgmem
        rw [heq2, Option.some.injEq, Prod.mk.injEq] at heq
        obtain ⟨h1, h2⟩ := heq
        subst h1
        subst h2
        refine ⟨simlog_frame_of_commit hsl2, hdead2, ?_⟩
        intro hd
        obtain ⟨ha, hk, hsa, hsb⟩ := halive2 hd
        exact ⟨ha, hk, fun _ => hsa, fun _ => hsb⟩

theorem finish_step_inv (N : ℕ) (neibs : ℕ → Fin 6 → Option ℕ)
    (step_id : ℕ) (w : Bool) (it : Item) (hK : KernelInv N neibs it) :
    KernelInv N neibs (finish_step step_id w it) :=
  ⟨hK.rep, hK.fm, hK.sok⟩

theorem attach_sub_skip (neibs : ℕ → Fin 6 → Option ℕ) (e : ℚ × ℚ × ℚ)
    (step_id : ℕ) (oi : ℕ) (oa : Bool) (it : Item) :
    attach_sub neibs e step_id false oi oa it = some (it, false) := by
  unfold attach_sub
  simp

theorem detach_sub_skip (neibs : ℕ → Fin 6 → Option ℕ) (e : ℚ × ℚ × ℚ)
    (step_id : ℕ) (oi : ℕ) (oa : Bool) (it : Item) :
    detach_sub neibs e step_id false oi oa it = some (it, false) := by
  unfold detach_sub
  simp

theorem ballistic_sub_22_skip (neibs : ℕ → Fin 6 → Option ℕ) (e : ℚ × ℚ × ℚ)
    (step_id : ℕ) (oi : ℕ) (it : Item) :
    ballistic_sub_22 neibs e step_id false oi it = some (it, false) := by
  unfold ballistic_sub_22
  simp

theorem attach_sub_isSome (N : ℕ) (neibs : ℕ → Fin 6 → Option ℕ)
    (hclosed : NeibsClosed N neibs) (hsym : NeibsSym N neibs)
    (e : ℚ × ℚ × ℚ) (step_id : ℕ) (is_add : Bool) (oi : ℕ) (oa : Bool)
    (it : Item) (hK : KernelInv N neibs it)
    (hsz : it.front.tpas_size ≠ 0) :
    ∃ out, attach_sub neibs e step_id is_add oi oa it = some out := by
  cases is_add with
  | false => exact ⟨_, attach_sub_skip neibs e step_id oi oa it⟩
  | true =>
    unfold attach_sub
    rw [if_pos rfl]
    dsimp only
    rw [if_neg hsz]
    have hlt : oi % it.front.tpas_size < it.front.tpas.length := by
      rw [← hK.rep.size_a]
      exact Nat.mod_lt _ (Nat.pos_of_ne_zero hsz)
    rw [List.getElem?_eq_getElem hlt]
    dsimp only
    have hgmem : it.front.tpas[oi % it.front.tpas_size] ∈ it.front.tpas :=
      List.getElem_mem hlt
    cases oa with
    | false => exact ⟨_, by rw [if_neg (Bool.false_ne_true)]⟩
    | true =>
      rw [if_pos rfl]
      obtain ⟨it2, done2, heq2, -⟩ :=
        attach_commit_spec N neibs hclosed hsym step_id
          (surf_attach e.1 e.2.1 e.2.2
            (compute_neighbor_sums it.state (neibs it.front.tpas[oi % it.front.tpas_size])))
          it it.front.tpas[oi % it.front.tpas_size] hK hgmem
      exact ⟨_, heq2⟩

theorem detach_sub_isSome (N : ℕ) (neibs : ℕ → Fin 6 → Option ℕ)
    (hclosed : NeibsClosed N neibs) (hsym : NeibsSym N neibs)
    (e : ℚ × ℚ × ℚ) (step_id : ℕ) (is_rem : Bool) (oi : ℕ) (oa : Bool)
    (it : Item) (hK : KernelInv N neibs it)
    (hsz : it.front.tpbs_size ≠ 0) :
    ∃ out, detach_sub neibs e step_id is_rem oi oa it = some out := by
  cases is_rem with
  | false => exact ⟨_, detach_sub_skip neibs e step_id oi oa it⟩
  | true =>
    unfold detach_sub
    rw [if_pos rfl]
    dsimp only
    rw [if_neg hsz]
    have hlt : oi % it.front.tpbs_size < it.front.tpbs.length := by
      rw [← hK.rep.size_b]
      exact Nat.mod_lt _ (Nat.pos_of_ne_zero hsz)
    rw [List.getElem?_eq_getElem hlt]
    dsimp only
    have hgmem : it.front.tpbs[oi % it.front.tpbs_size] ∈ it.front.tpbs :=
      List.getElem_mem hlt
    cases oa with
    | false => exact ⟨_, by rw [if_neg (Bool.false_ne_true)]⟩
    | true =>
      rw [if_pos rfl]
      obtain ⟨it2, done2, heq2, -⟩ :=
        detach_commit_spec N neibs hclosed hsym step_id
          (surf_detach e.1 e.2.1 e.2.2
            (compute_neighbor_sums it.state (neibs it.front.tpbs[oi % it.front.tpbs_size])))
          it it.front.tpbs[oi % it.front.tpbs_size] hK hgmem
      exact ⟨_, heq2⟩

theorem ballistic_sub_22_isSome (N : ℕ) (neibs : ℕ → Fin 6 → Option ℕ)
    (hclosed : NeibsClosed N neibs) (hsym : NeibsSym N neibs)
    (e : ℚ × ℚ × ℚ) (step_id : ℕ) (og : Bool) (oi : ℕ)
    (it : Item) (hK : KernelInv N neibs it)
    (hsz : it.front.tpbs_size ≠ 0) :
    ∃ out, ballistic_sub_22 neibs e step_id og oi it = some out := by
  cases og with
  | false => exact ⟨_, ballistic_sub_22_skip neibs e step_id oi it⟩
  | true =>
    unfold ballistic_sub_22
    rw [if_pos rfl]
    dsimp only
    rw [if_neg hsz]
    have hlt : oi % it.front.tpbs_size < it.front.tpbs.length := by
      rw [← hK.rep.size_b]
      exact Nat.mod_lt _ (Nat.pos_of_ne_zero hsz)
    rw [List.getElem?_eq_getElem hlt]
    dsimp only
    have hgmem : it.front.tpbs[oi % it.front.tpbs_size] ∈ it.front.tpbs :=
      List.getElem_mem hlt
    obtain ⟨it2, done2, heq2, -⟩ :=
      detach_commit_spec N neibs hclosed hsym step_id
        (surf_detach e.1 e.2.1 e.2.2
          (compute_neighbor_sums it.state (neibs it.front.tpbs[oi % it.front.tpbs_size])))
        it it.front.tpbs[oi % it.front.tpbs_size] hK hgmem
    exact ⟨_, heq2⟩

theorem ballistic_sub_23_isSome (N : ℕ) (neibs : ℕ → Fin 6 → Option ℕ)
    (hclosed : NeibsClosed N neibs) (hsym : NeibsSym N neibs)
    (e : ℚ × ℚ × ℚ) (step_id : ℕ) (og : Bool) (oi : ℕ)
    (it : Item) (hK : KernelInv N neibs it)
    (hsz : it.front.tpbs_size ≠ 0) :
    ∃ out, ballistic_sub_23 neibs e step_id og oi it = some out := by
  unfold ballistic_sub_23
  rw [if_neg hsz]
  have hlt : oi % it.front.tpbs_size < it.front.tpbs.length := by
    rw [← hK.rep.size_b]
    exact Nat.mod_lt _ (Nat.pos_of_ne_zero hsz)
  rw [List.getElem?_eq_getElem hlt]
  dsimp only
  have hgmem : it.front.tpbs[oi % it.front.tpbs_size] ∈ it.front.tpbs :=
    List.getElem_mem hlt
  cases og with
  | false => exact ⟨_, by rw [if_neg (Bool.false_ne_true)]⟩
  | true =>
    rw [if_pos rfl]
    obtain ⟨it2, done2, heq2, -⟩ :=
      detach_commit_spec N neibs hclosed hsym step_id
        (surf_detach e.1 e.2.1 e.2.2
          (compute_neighbor_sums it.state (neibs it.front.tpbs[oi % it.front.tpbs_size])))
        it it.front.tpbs[oi % it.front.tpbs_size] hK hgmem
    exact ⟨_, heq2⟩

/-- Any successful `mode_2_1_step` keeps the reservoir frame, and when
the replica stays alive it keeps the kernel invariant and the frontier
usable. -/
theorem mode_2_1_step_some (N : ℕ) (neibs : ℕ → Fin 6 → Option ℕ)
    (hclosed : NeibsClosed N neibs) (hsym : NeibsSym N neibs)
    (o : Oracle) (e : ℚ × ℚ × ℚ) (step_id : ℕ) (flags : Bool × Bool × Bool)
    (it it' : Item) (hK : KernelInv N neibs it)
    (heq : mode_2_1_step o neibs e step_id flags it = some it') :
    simlog_frame it.simlog it'.simlog ∧
    (it'.is_alive = true → KernelInv N neibs it' ∧
      (it.front.tpas_size ≠ 0 → it'.front.tpas_size ≠ 0) ∧
      (it.front.tpbs_size ≠ 0 → it'.front.tpbs_size ≠ 0)) := by
  unfold mode_2_1_step at heq
  cases hatt : attach_sub neibs e step_id flags.1 o.add_idxl o.add_acc it with
  | none =>
    rw [hatt] at heq
    exact Option.noConfusion heq
  | some p =>
    obtain ⟨it1, done1⟩ := p
    rw [hatt] at heq
    obtain ⟨hf1, hd1, ha1⟩ :=
      attach_sub_some N neibs hclosed hsym e step_id flags.1 o.add_idxl o.add_acc
        it it1 done1 hK hatt
    cases done1 with
    | true =>
      dsimp only at heq
      rw [Option.some.injEq] at heq
      subst heq
      exact ⟨hf1, fun h => absurd (hd1 rfl) (by rw [h]; decide)⟩
    | false =>
      dsimp only at heq
      obtain ⟨halive1, hK1, hsa1, hsb1⟩ := ha1 rfl
      cases hdet : detach_sub neibs e step_id flags.2.1 o.rem_idxl o.rem_acc it1 with
      | none =>
        rw [hdet] at heq
        exact Option.noConfusion heq
      | some q =>
        obtain ⟨it2, done2⟩ := q
        rw [hdet] at heq
        obtain ⟨hf2, hd2, ha2⟩ :=
          detach_sub_some N neibs hclosed hsym e step_id flags.2.1 o.rem_idxl
            o.rem_acc it1 it2 done2 hK1 hdet
        cases done2 with
        | true =>
          dsimp only at heq
          rw [Option.some.injEq] at heq
          subst heq
          exact ⟨simlog_frame_trans hf1 hf2,
            fun h => absurd (hd2 rfl) (by rw [h]; decide)⟩
        | false =>
          dsimp only at heq
          rw [Option.some.injEq] at heq
          subst heq
          obtain ⟨halive2, hK2, hsa2, hsb2⟩ := ha2 rfl
          refine ⟨simlog_frame_trans (simlog_frame_trans hf1 hf2)
            (simlog_frame_mk_step _ _), ?_⟩
          intro _
          exact ⟨finish_step_inv N neibs step_id flags.2.2 it2 hK2,
            fun h => hsa2 (hsa1 h), fun h => hsb2 (hsb1 h)⟩

/-- With both frontier sides non-empty and the invariant holding,
`mode_2_1_step` never panics. -/
theorem mode_2_1_step_isSome (N : ℕ) (neibs : ℕ → Fin 6 → Option ℕ)
    (hclosed : NeibsClosed N neibs) (hsym : NeibsSym N neibs)
    (o : Oracle) (e : ℚ × ℚ × ℚ) (step_id : ℕ) (flags : Bool × Bool × Bool)
    (it : Item) (hK : KernelInv N neibs it)
    (hsa : it.front.tpas_size ≠ 0) (hsb : it.front.tpbs_size ≠ 0) :
    ∃ it', mode_2_1_step o neibs e step_id flags it = some it' := by
  obtain ⟨⟨it1, done1⟩, hatt⟩ :=
    attach_sub_isSome N neibs hclosed hsym e step_id flags.1 o.add_idxl o.add_acc it
      hK hsa
  obtain ⟨hf1, hd1, ha1⟩ :=
    attach_sub_some N neibs hclosed hsym e step_id flags.1 o.add_idxl o.add_acc
      it it1 done1 hK hatt
  unfold mode_2_1_step
  rw [hatt]
  cases done1 with
  | true => exact ⟨it1, rfl⟩
  | false =>
    dsimp only
    obtain ⟨halive1, hK1, hsa1, hsb1⟩ := ha1 rfl
    obtain ⟨⟨it2, done2⟩, hdet⟩ :=
      detach_sub_isSome N neibs hclosed hsym e step_id flags.2.1 o.rem_idxl
        o.rem_acc it1 hK1 (hsb1 hsb)
    rw [hdet]
    cases done2 with
    | true => exact ⟨it2, rfl⟩
    | false => exact ⟨_, rfl⟩

/-- `mode_2_2_step` analogue of `mode_2_1_step_some`. -/
theorem mode_2_2_step_some (N : ℕ) (neibs : ℕ → Fin 6 → Option ℕ)
    (hclosed : NeibsClosed N neibs) (hsym : NeibsSym N neibs)
    (o : Oracle) (e : ℚ × ℚ × ℚ) (step_id : ℕ) (flags : Bool × Bool × Bool)
    (it it' : Item) (hK : KernelInv N neibs it)
    (heq : mode_2_2_step o neibs e step_id flags it = some it') :
    simlog_frame it.simlog it'.simlog ∧
    (it'.is_alive = true → KernelInv N neibs it' ∧
      (it.front.tpas_size ≠ 0 → it'.front.tpas_size ≠ 0) ∧
      (it.front.tpbs_size ≠ 0 → it'.front.tpbs_size ≠ 0)) := by
  unfold mode_2_2_step at heq
  cases hatt : attach_sub neibs e step_id flags.1 o.add_idxl o.add_acc it with
  | none =>
    rw [hatt] at heq
    exact Option.noConfusion heq
  | some p =>
    obtain ⟨it1, done1⟩ := p
    rw [hatt] at heq
    obtain ⟨hf1, hd1, ha1⟩ :=
      attach_sub_some N neibs hclosed hsym e step_id flags.1 o.add_idxl o.add_acc
        it it1 done1 hK hatt
    cases done1 with
    | true =>
      dsimp only at heq
      rw [Option.some.injEq] at heq
      subst heq
      exact ⟨hf1, fun h => absurd (hd1 rfl) (by rw [h]; decide)⟩
    | false =>
      dsimp only at heq
      obtain ⟨halive1, hK1, hsa1, hsb1⟩ := ha1 rfl
      cases hdet : detach_sub neibs e step_id flags.2.1 o.rem_idxl o.rem_acc it1 with
      | none =>
        rw [hdet] at heq
        exact Option.noConfusion heq
      | some q =>
        obtain ⟨it2, done2⟩ := q
        rw [hdet] at heq
        obtain ⟨hf2, hd2, ha2⟩ :=
          detach_sub_some N neibs hclosed hsym e step_id flags.2.1 o.rem_idxl
            o.rem_acc it1 it2 done2 hK1 hdet
        cases done2 with
        | true =>
          dsimp only at heq
          rw [Option.some.injEq] at heq
          subst heq
          exact ⟨simlog_frame_trans hf1 hf2,
            fun h => absurd (hd2 rfl) (by rw [h]; decide)⟩
        | false =>
          dsimp only at heq
          obtain ⟨halive2, hK2, hsa2, hsb2⟩ := ha2 rfl
          cases hbal : ballistic_sub_22 neibs e step_id o.bal_gate o.bal_idxl it2 with
          | none =>
            rw [hbal] at heq
            exact Option.noConfusion heq
          | some r =>
            obtain ⟨it3, done3⟩ := r
            rw [hbal] at heq
            obtain ⟨hf3, hd3, ha3⟩ :=
              ballistic_sub_22_some N neibs hclosed hsym e step_id o.bal_gate
                o.bal_idxl it2 it3 done3 hK2 hbal
            cases done3 with
            | true =>
              dsimp only at heq
              rw [Option.some.injEq] at heq
              subst heq
              exact ⟨simlog_frame_trans (simlog_frame_trans hf1 hf2) hf3,
                fun h => absurd (hd3 rfl) (by rw [h]; decide)⟩
            | false =>
              dsimp only at heq
              rw [Option.some.injEq] at heq
              subst heq
              obtain ⟨halive3, hK3, hsa3, hsb3⟩ := ha3 rfl
              refine ⟨simlog_frame_trans (simlog_frame_trans
                (simlog_frame_trans hf1 hf2) hf3) (simlog_frame_mk_step _ _), ?_⟩
              intro _
              exact ⟨finish_step_inv N neibs step_id flags.2.2 it3 hK3,
                fun h => hsa3 (hsa2 (hsa1 h)), fun h => hsb3 (hsb2 (hsb1 h))⟩

/-- `mode_2_2_step` analogue of `mode_2_1_step_isSome`. -/
theorem mode_2_2_step_isSome (N : ℕ) (neibs : ℕ → Fin 6 → Option ℕ)
    (hclosed : NeibsClosed N neibs) (hsym : NeibsSym N neibs)
    (o : Oracle) (e : ℚ × ℚ × ℚ) (step_id : ℕ) (flags : Bool × Bool × Bool)
    (it : Item) (hK : KernelInv N neibs it)
    (hsa : it.front.tpas_size ≠ 0) (hsb : it.front.tpbs_size ≠ 0) :
    ∃ it', mode_2_2_step o neibs e step_id flags it = some it' := by
  obtain ⟨⟨it1, done1⟩, hatt⟩ :=
    attach_sub_isSome N neibs hclosed hsym e step_id flags.1 o.add_idxl o.add_acc it
      hK hsa
  obtain ⟨hf1, hd1, ha1⟩ :=
    attach_sub_some N neibs hclosed hsym e step_id flags.1 o.add_idxl o.add_acc
      it it1 done1 hK hatt
  unfold mode_2_2_step
  rw [hatt]
  cases done1 with
  | true => exact ⟨it1, rfl⟩
  | false =>
    dsimp only
    obtain ⟨halive1, hK1, hsa1, hsb1⟩ := ha1 rfl
    obtain ⟨⟨it2, done2⟩, hdet⟩ :=
      detach_sub_isSome N neibs hclosed hsym e step_id flags.2.1 o.rem_idxl
        o.rem_acc it1 hK1 (hsb1 hsb)
    obtain ⟨hf2, hd2, ha2⟩ :=
      detach_sub_some N neibs hclosed hsym e step_id flags.2.1 o.rem_idxl
        o.rem_acc it1 it2 done2 hK1 hdet
    rw [hdet]
    cases done2 with
    | true => exact ⟨it2, rfl⟩
    | false =>
      dsimp only
      obtain ⟨halive2, hK2, hsa2, hsb2⟩ := ha2 rfl
      obtain ⟨⟨it3, done3⟩, hbal⟩ :=
        ballistic_sub_22_isSome N neibs hclosed hsym e step_id o.bal_gate
          o.bal_idxl it2 hK2 (hsb2 (hsb1 hsb))
      rw [hbal]
      cases done3 with
      | true => exact ⟨it3, rfl⟩
      | false => exact ⟨_, rfl⟩

/-- `mode_2_3_step` analogue of `mode_2_1_step_some`. -/
theorem mode_2_3_step_some (N : ℕ) (neibs : ℕ → Fin 6 → Option ℕ)
    (hclosed : NeibsClosed N neibs) (hsym : NeibsSym N neibs)
    (o : Oracle) (e : ℚ × ℚ × ℚ) (step_id : ℕ) (flags : Bool × Bool × Bool)
    (it it' : Item) (hK : KernelInv N neibs it)
    (heq : mode_2_3_step o neibs e step_id flags it = some it') :
    simlog_frame it.simlog it'.simlog ∧
    (it'.is_alive = true → KernelInv N neibs it' ∧
      (it.front.tpas_size ≠ 0 → it'.front.tpas_size ≠ 0) ∧
      (it.front.tpbs_size ≠ 0 → it'.front.tpbs_size ≠ 0)) := by
  unfold mode_2_3_step at heq
  cases hatt : attach_sub neibs e step_id flags.1 o.add_idxl o.add_acc it with
  | none =>
    rw [hatt] at heq
    exact Option.noConfusion heq
  | some p =>
    obtain ⟨it1, done1⟩ := p
    rw [hatt] at heq
    obtain ⟨hf1, hd1, ha1⟩ :=
      attach_sub_some N neibs hclosed hsym e step_id flags.1 o.add_idxl o.add_acc
        it it1 done1 hK hatt
    cases done1 with
    | true =>
      dsimp only at heq
      rw [Option.some.injEq] at heq
      subst heq
      exact ⟨hf1, fun h => absurd (hd1 rfl) (by rw [h]; decide)⟩
    | false =>
      dsimp only at heq
      obtain ⟨halive1, hK1, hsa1, hsb1⟩ := ha1 rfl
      cases hdet : detach_sub neibs e step_id flags.2.1 o.rem_idxl o.rem_acc it1 with
      | none =>
        rw [hdet] at heq
        exact Option.noConfusion heq
      | some q =>
        obtain ⟨it2, done2⟩ := q
        rw [hdet] at heq
        obtain ⟨hf2, hd2, ha2⟩ :=
          detach_sub_some N neibs hclosed hsym e step_id flags.2.1 o.rem_idxl
            o.rem_acc it1 it2 done2 hK1 hdet
        cases done2 with
        | true =>
          dsimp only at heq
          rw [Option.some.injEq] at heq
          subst heq
          exact ⟨simlog_frame_trans hf1 hf2,
            fun h => absurd (hd2 rfl) (by rw [h]; decide)⟩
        | false =>
          dsimp only at heq
          obtain ⟨halive2, hK2, hsa2, hsb2⟩ := ha2 rfl
          cases hbal : ballistic_sub_23 neibs e step_id o.bal_gate o.bal_idxl it2 with
          | none =>
            rw [hbal] at heq
            exact Option.noConfusion heq
          | some r =>
            obtain ⟨it3, done3⟩ := r
            rw [hbal] at heq
            obtain ⟨hf3, hd3, ha3⟩ :=
              ballistic_sub_23_some N neibs hclosed hsym e step_id o.bal_gate
                o.bal_idxl it2 it3 done3 hK2 hbal
            cases done3 with
            | true =>
              dsimp only at heq
              rw [Option.some.injEq] at heq
              subst heq
              exact ⟨simlog_frame_trans (simlog_frame_trans hf1 hf2) hf3,
                fun h => absurd (hd3 rfl) (by rw [h]; decide)⟩
            | false =>
              dsimp only at heq
              rw [Option.some.injEq] at heq
              subst heq
              obtain ⟨halive3, hK3, hsa3, hsb3⟩ := ha3 rfl
              refine ⟨simlog_frame_trans (simlog_frame_trans
                (simlog_frame_trans hf1 hf2) hf3) (simlog_frame_mk_step _ _), ?_⟩
              intro _
              exact ⟨finish_step_inv N neibs step_id flags.2.2 it3 hK3,
                fun h => hsa3 (hsa2 (hsa1 h)), fun h => hsb3 (hsb2 (hsb1 h))⟩

/-- `mode_2_3_step` analogue of `mode_2_1_step_isSome`. -/
theorem mode_2_3_step_isSome (N : ℕ) (neibs : ℕ → Fin 6 → Option ℕ)
    (hclosed : NeibsClosed N neibs) (hsym : NeibsSym N neibs)
    (o : Oracle) (e : ℚ × ℚ × ℚ) (step_id : ℕ) (flags : Bool × Bool × Bool)
    (it : Item) (hK : KernelInv N neibs it)
    (hsa : it.front.tpas_size ≠ 0) (hsb : it.front.tpbs_size ≠ 0) :
    ∃ it', mode_2_3_step o neibs e step_id flags it = some it' := by
  obtain ⟨⟨it1, done1⟩, hatt⟩ :=
    attach_sub_isSome N neibs hclosed hsym e step_id flags.1 o.add_idxl o.add_acc it
      hK hsa
  obtain ⟨hf1, hd1, ha1⟩ :=
    attach_sub_some N neibs hclosed hsym e step_id flags.1 o.add_idxl o.add_acc
      it it1 done1 hK hatt
  unfold mode_2_3_step
  rw [hatt]
  cases done1 with
  | true => exact ⟨it1, rfl⟩
  | false =>
    dsimp only
    obtain ⟨halive1, hK1, hsa1, hsb1⟩ := ha1 rfl
    obtain ⟨⟨it2, done2⟩, hdet⟩ :=
      detach_sub_isSome N neibs hclosed hsym e step_id flags.2.1 o.rem_idxl
        o.rem_acc it1 hK1 (hsb1 hsb)
    obtain ⟨hf2, hd2, ha2⟩ :=
      detach_sub_some N neibs hclosed hsym e step_id flags.2.1 o.rem_idxl
        o.rem_acc it1 it2 done2 hK1 hdet
    rw [hdet]
    cases done2 with
    | true => exact ⟨it2, rfl⟩
    | false =>
      dsimp only
      obtain ⟨halive2, hK2, hsa2, hsb2⟩ := ha2 rfl
      obtain ⟨⟨it3, done3⟩, hbal⟩ :=
        ballistic_sub_23_isSome N neibs hclosed hsym e step_id o.bal_gate
          o.bal_idxl it2 hK2 (hsb2 (hsb1 hsb))
      rw [hbal]
      cases done3 with
      | true => exact ⟨it3, rfl⟩
      | false => exact ⟨_, rfl⟩

/-! ## `rebuild_front` characterization -/

theorem rebuild_site_fold_spec (N : ℕ) (neibs : ℕ → Fin 6 → Option ℕ)
    (states : ℕ → ℕ) (c : ℕ) (hcN : c < N) (hclosed : NeibsClosed N neibs) :
    ∀ (ds : List (Fin 6)) (f : Frontier) (hv : Bool),
    f.RepInv N → (∀ j ∈ f.tpbs, states j = 1) → (∀ j ∈ f.tpas, states j = 0) →
    ((ds.foldl (fun acc d =>
        match neibs c d with
        | some neib_idx =>
            if states neib_idx = 0 then (acc.1.tpa_add neib_idx, true) else acc
        | none => acc) (f, hv)).1.RepInv N ∧
     (ds.foldl (fun acc d =>
        match neibs c d with
        | some neib_idx =>
            if states neib_idx = 0 then (acc.1.tpa_add neib_idx, true) else acc
        | none => acc) (f, hv)).1.tpbs = f.tpbs ∧
     (∀ j ∈ (ds.foldl (fun acc d =>
        match neibs c d with
        | some neib_idx =>
            if states neib_idx = 0 then (acc.1.tpa_add neib_idx, true) else acc
        | none => acc) (f, hv)).1.tpas, states j = 0) ∧
     (∀ i, i ∈ (ds.foldl (fun acc d =>
        match neibs c d with
        | some neib_idx =>
            if states neib_idx = 0 then (acc.1.tpa_add neib_idx, true) else acc
        | none => acc) (f, hv)).1.tpas ↔
        (i ∈ f.tpas ∨ ∃ d ∈ ds, neibs c d = some i ∧ states i = 0)) ∧
     ((ds.foldl (fun acc d =>
        match neibs c d with
        | some neib_idx =>
            if states neib_idx = 0 then (acc.1.tpa_add neib_idx, true) else acc
        | none => acc) (f, hv)).2 =
        (hv || ds.any fun d =>
          match neibs c d with
          | some neib_idx => states neib_idx == 0
          | none => false))) := by
  intro ds
  induction ds with
  | nil =>
    intro f hv hInv hsubB hsubA
    exact ⟨hInv, rfl, hsubA, fun i => by simp, by simp⟩
  | cons d ds ih =>
    intro f hv hInv hsubB hsubA
    rw [List.foldl_cons]
    cases hrow : neibs c d with
    | none =>
      dsimp only
      obtain ⟨h1, h2, h3, h4, h5⟩ := ih f hv hInv hsubB hsubA
      refine ⟨h1, h2, h3, ?_, ?_⟩
      · intro i
        rw [h4 i]
        simp only [List.exists_mem_cons_iff, hrow]
        simp
      · rw [h5]
        simp [List.any_cons, hrow]
    | some n =>
      dsimp only
      have hnN : n < N := hclosed c hcN d n hrow
      by_cases hs : states n = 0
      · rw [if_pos hs]
        have hnB : n ∉ f.tpbs := by
          intro hmem
          have := hsubB n hmem
          omega
        obtain ⟨hInv2, hmem2, htpbs2, hsize2⟩ := tpa_add_spec N f n hInv hnN hnB
        have hsubB2 : ∀ j ∈ (f.tpa_add n).tpbs, states j = 1 := by
          rw [htpbs2]; exact hsubB
        have hsubA2 : ∀ j ∈ (f.tpa_add n).tpas, states j = 0 := by
          intro j hj
          rcases (hmem2 j).mp hj with h | rfl
          exacts [hsubA j h, hs]
        obtain ⟨h1, h2, h3, h4, h5⟩ := ih (f.tpa_add n) true hInv2 hsubB2 hsubA2
        refine ⟨h1, h2.trans htpbs2, h3, ?_, ?_⟩
        · intro i
          rw [h4 i, hmem2 i]
          simp only [List.exists_mem_cons_iff, hrow, Option.some.injEq]
          constructor
          · rintro ((h | rfl) | hS)
            · exact Or.inl h
            · exact Or.inr (Or.inl ⟨rfl, hs⟩)
            · exact Or.inr (Or.inr hS)
          · rintro (h | (⟨rfl, -⟩ | hS))
            · exact Or.inl (Or.inl h)
            · exact Or.inl (Or.inr rfl)
            · exact Or.inr hS
        · rw [h5]
          simp [List.any_cons, hrow, hs]
      · rw [if_neg hs]
        obtain ⟨h1, h2, h3, h4, h5⟩ := ih f hv hInv hsubB hsubA
        refine ⟨h1, h2, h3, ?_, ?_⟩
        · intro i
          rw [h4 i]
          simp only [List.exists_mem_cons_iff, hrow, Option.some.injEq]
          constructor
          · rintro (h | hS)
            exacts [Or.inl h, Or.inr (Or.inr hS)]
          · rintro (h | (⟨rfl, hs0⟩ | hS))
            · exact Or.inl h
            · exact absurd hs0 hs
            · exact Or.inr hS
        · rw [h5]
          simp only [List.any_cons, hrow]
          have : (states n == 0) = false := by
            simpa using hs
          rw [this]
          simp

/-- `rebuild_front_site` (the inner neighbor loop): adds exactly the
existing gas neighbors of `c` to `tpas`, reports whether there was
one. -/
theorem rebuild_front_site_spec (N : ℕ) (neibs : ℕ → Fin 6 → Option ℕ)
    (states : ℕ → ℕ) (c : ℕ) (hcN : c < N) (hclosed : NeibsClosed N neibs)
    (f : Frontier) (hInv : f.RepInv N)
    (hsubB : ∀ j ∈ f.tpbs, states j = 1) (hsubA : ∀ j ∈ f.tpas, states j = 0) :
    (rebuild_front_site states neibs c f).1.RepInv N ∧
    (rebuild_front_site states neibs c f).1.tpbs = f.tpbs ∧
    (∀ j ∈ (rebuild_front_site states neibs c f).1.tpas, states j = 0) ∧
    (∀ i, i ∈ (rebuild_front_site states neibs c f).1.tpas ↔
      (i ∈ f.tpas ∨ ∃ d, neibs c d = some i ∧ states i = 0)) ∧
    ((rebuild_front_site states neibs c f).2 = true ↔
      ∃ d n, neibs c d = some n ∧ states n = 0) := by
  obtain ⟨h1, h2, h3, h4, h5⟩ :=
    rebuild_site_fold_spec N neibs states c hcN hclosed (List.finRange 6) f false
      hInv hsubB hsubA
  refine ⟨h1, h2, h3, ?_, ?_⟩
  · intro i
    rw [show rebuild_front_site states neibs c f = (List.finRange 6).foldl
      (fun acc d =>
        match neibs c d with
        | some neib_idx =>
            if states neib_idx = 0 then (acc.1.tpa_add neib_idx, true) else acc
        | none => acc) (f, false) from rfl, h4 i]
    simp only [List.mem_finRange, true_and]
  · rw [show rebuild_front_site states neibs c f = (List.finRange 6).foldl
      (fun acc d =>
        match neibs c d with
        | some neib_idx =>
            if states neib_idx = 0 then (acc.1.tpa_add neib_idx, true) else acc
        | none => acc) (f, false) from rfl, h5]
    rw [Bool.false_or, List.any_eq_true]
    constructor
    · rintro ⟨d, -, hd⟩
      cases hrow : neibs c d with
      | none => rw [hrow] at hd; exact absurd hd (by simp)
      | some n =>
        rw [hrow] at hd
        exact ⟨d, n, hrow, by simpa using hd⟩
    · rintro ⟨d, n, hrow, hn⟩
      exact ⟨d, List.mem_finRange d, by rw [hrow]; simpa using hn⟩

theorem rebuild_fold_spec (N : ℕ) (neibs : ℕ → Fin 6 → Option ℕ)
    (states : ℕ → ℕ) (hclosed : NeibsClosed N neibs) :
    ∀ (l : List ℕ), (∀ c ∈ l, c < N) →
    ∀ (f : Frontier) (cs : ℚ), f.RepInv N →
    (∀ j ∈ f.tpbs, states j = 1) → (∀ j ∈ f.tpas, states j = 0) →
    ((l.foldl (fun acc i =>
        if states i = 1 then
          let inner := rebuild_front_site states neibs i acc.1
          (if inner.2 then inner.1.tpb_add i else inner.1, acc.2 + 1)
        else acc) (f, cs)).1.RepInv N ∧
     (∀ i, i ∈ (l.foldl (fun acc i =>
        if states i = 1 then
          let inner := rebuild_front_site states neibs i acc.1
          (if inner.2 then inner.1.tpb_add i else inner.1, acc.2 + 1)
        else acc) (f, cs)).1.tpas ↔
        (i ∈ f.tpas ∨ ∃ c ∈ l, states c = 1 ∧ ∃ d, neibs c d = some i ∧
          states i = 0)) ∧
     (∀ i, i ∈ (l.foldl (fun acc i =>
        if states i = 1 then
          let inner := rebuild_front_site states neibs i acc.1
          (if inner.2 then inner.1.tpb_add i else inner.1, acc.2 + 1)
        else acc) (f, cs)).1.tpbs ↔
        (i ∈ f.tpbs ∨ (i ∈ l ∧ states i = 1 ∧ ∃ d n, neibs i d = some n ∧
          states n = 0)))) := by
  intro l
  induction l with
  | nil =>
    intro hl f cs hInv hsubB hsubA
    exact ⟨hInv, fun i => by simp, fun i => by simp⟩
  | cons c l ih =>
    intro hl f cs hInv hsubB hsubA
    have hcN : c < N := hl c (List.mem_cons_self c l)
    have hl' : ∀ x ∈ l, x < N := fun x hx => hl x (List.mem_cons_of_mem c hx)
    rw [List.foldl_cons]
    by_cases hsc : states c = 1
    · rw [if_pos hsc]
      dsimp only
      obtain ⟨hInv2, htpbs2, hsubA2, hmem2, hvac2⟩ :=
        rebuild_front_site_spec N neibs states c hcN hclosed f hInv hsubB hsubA
      have hsubB2 : ∀ j ∈ (rebuild_front_site states neibs c f).1.tpbs,
          states j = 1 := by
        rw [htpbs2]; exact hsubB
      by_cases hvac : (rebuild_front_site states neibs c f).2 = true
      · rw [if_pos hvac]
        have hcA : c ∉ (rebuild_front_site states neibs c f).1.tpas := by
          intro hmem
          have := hsubA2 c hmem
          omega
        obtain ⟨hInv3, hmem3, htpas3, hsize3⟩ :=
          tpb_add_spec N (rebuild_front_site states neibs c f).1 c hInv2 hcN hcA
        have hsubB3 : ∀ j ∈ ((rebuild_front_site states neibs c f).1.tpb_add c).tpbs,
            states j = 1 := by
          intro j hj
          rcases (hmem3 j).mp hj with h | rfl
          · exact hsubB2 j h
          · exact hsc
        have hsubA3 : ∀ j ∈ ((rebuild_front_site states neibs c f).1.tpb_add c).tpas,
            states j = 0 := by
          rw [htpas3]; exact hsubA2
        obtain ⟨h1, h2, h3⟩ := ih hl' _ (cs + 1) hInv3 hsubB3 hsubA3
        refine ⟨h1, ?_, ?_⟩
        · intro i
          rw [h2 i, htpas3, hmem2 i]
          simp only [List.exists_mem_cons_iff]
          constructor
          · rintro ((h | ⟨d, hd⟩) | hS)
            · exact Or.inl h
            · exact Or.inr (Or.inl ⟨hsc, d, hd⟩)
            · exact Or.inr (Or.inr hS)
          · rintro (h | (⟨-, d, hd⟩ | hS))
            · exact Or.inl (Or.inl h)
            · exact Or.inl (Or.inr ⟨d, hd⟩)
            · exact Or.inr hS
        · intro i
          rw [h3 i, hmem3 i, htpbs2]
          simp only [List.mem_cons]
          constructor
          · rintro ((h | rfl) | hS)
            · exact Or.inl h
            · exact Or.inr ⟨Or.inl rfl, hsc, hvac2.mp hvac⟩
            · rcases hS with ⟨hmeml, hS1, hS2⟩
              exact Or.inr ⟨Or.inr hmeml, hS1, hS2⟩
          · rintro (h | ⟨(rfl | hmeml), hS1, hS2⟩)
            · exact Or.inl (Or.inl h)
            · exact Or.inl (Or.inr rfl)
            · exact Or.inr ⟨hmeml, hS1, hS2⟩
      · rw [if_neg hvac]
        have hnovac : ¬∃ d n, neibs c d = some n ∧ states n = 0 := by
          intro h
          exact hvac (hvac2.mpr h)
        obtain ⟨h1, h2, h3⟩ := ih hl' _ (cs + 1) hInv2 hsubB2 hsubA2
        refine ⟨h1, ?_, ?_⟩
        · intro i
          rw [h2 i, hmem2 i]
          simp only [List.exists_mem_cons_iff]
          constructor
          · rintro ((h | ⟨d, hd⟩) | hS)
            · exact Or.inl h
            · exact Or.inr (Or.inl ⟨hsc, d, hd⟩)
            · exact Or.inr (Or.inr hS)
          · rintro (h | (⟨-, d, hd⟩ | hS))
            · exact Or.inl (Or.inl h)
            · exact Or.inl (Or.inr ⟨d, hd⟩)
            · exact Or.inr hS
        · intro i
          rw [h3 i, htpbs2]
          simp only [List.mem_cons]
          constructor
          · rintro (h | ⟨hmeml, hS1, hS2⟩)
            · exact Or.inl h
            · exact Or.inr ⟨Or.inr hmeml, hS1, hS2⟩
          · rintro (h | ⟨(rfl | hmeml), hS1, hS2⟩)
            · exact Or.inl h
            · exact absurd ⟨hS2.choose, hS2.choose_spec.choose,
                hS2.choose_spec.choose_spec⟩ hnovac
            · exact Or.inr ⟨hmeml, hS1, hS2⟩
    · rw [if_neg hsc]
      obtain ⟨h1, h2, h3⟩ := ih hl' f cs hInv hsubB hsubA
      refine ⟨h1, ?_, ?_⟩
      · intro i
        rw [h2 i]
        simp only [List.exists_mem_cons_iff]
        constructor
        · rintro (h | hS)
          exacts [Or.inl h, Or.inr (Or.inr hS)]
        · rintro (h | (⟨hc1, -⟩ | hS))
          · exact Or.inl h
          · exact absurd hc1 hsc
          · exact Or.inr hS
      · intro i
        rw [h3 i]
        simp only [List.mem_cons]
        constructor
        · rintro (h | ⟨hmeml, hS1, hS2⟩)
          · exact Or.inl h
          · exact Or.inr ⟨Or.inr hmeml, hS1, hS2⟩
        · rintro (h | ⟨(rfl | hmeml), hS1, hS2⟩)
          · exact Or.inl h
          · exact absurd hS1 hsc
          · exact Or.inr ⟨hmeml, hS1, hS2⟩

theorem repinv_new (N : ℕ) : (Frontier.new N).RepInv N := by
  refine ⟨rfl, rfl, List.nodup_nil, List.nodup_nil, ?_, ?_, ?_, ?_, ?_, ?_⟩ <;>
    intro i <;> simp [Frontier.new]

/-- `rebuild_front` from scratch: its `tpas` is the set of gas
neighbors of in-range crystal sites, its `tpbs` the set of in-range
crystal sites with an existing gas neighbor. -/
theorem rebuild_front_members (N : ℕ) (neibs : ℕ → Fin 6 → Option ℕ)
    (states : ℕ → ℕ) (hclosed : NeibsClosed N neibs) :
    (rebuild_front states neibs N (Frontier.new N)).1.RepInv N ∧
    (∀ i, i ∈ (rebuild_front states neibs N (Frontier.new N)).1.tpas ↔
      ∃ c, c < N ∧ states c = 1 ∧ ∃ d, neibs c d = some i ∧ states i = 0) ∧
    (∀ i, i ∈ (rebuild_front states neibs N (Frontier.new N)).1.tpbs ↔
      (i < N ∧ states i = 1 ∧ ∃ d n, neibs i d = some n ∧ states n = 0)) := by
  obtain ⟨h1, h2, h3⟩ :=
    rebuild_fold_spec N neibs states hclosed (List.range N)
      (fun c hc => List.mem_range.mp hc) (Frontier.new N) 0 (repinv_new N)
      (by intro j hj; simp [Frontier.new] at hj)
      (by intro j hj; simp [Frontier.new] at hj)
  refine ⟨h1, ?_, ?_⟩
  · intro i
    rw [show (rebuild_front states neibs N (Frontier.new N)).1
      = ((List.range N).foldl (fun acc i =>
        if states i = 1 then
          let inner := rebuild_front_site states neibs i acc.1
          (if inner.2 then inner.1.tpb_add i else inner.1, acc.2 + 1)
        else acc) (Frontier.new N, (0 : ℚ))).1 from rfl, h2 i]
    simp [Frontier.new, List.mem_range]
  · intro i
    rw [show (rebuild_front states neibs N (Frontier.new N)).1
      = ((List.range N).foldl (fun acc i =>
        if states i = 1 then
          let inner := rebuild_front_site states neibs i acc.1
          (if inner.2 then inner.1.tpb_add i else inner.1, acc.2 + 1)
        else acc) (Frontier.new N, (0 : ℚ))).1 from rfl, h3 i]
    simp [Frontier.new, List.mem_range]

/-- Incremental maintenance agrees with `rebuild_front` (spec R2): a
frontier satisfying the interface invariant has exactly the member
sets that `rebuild_front` recomputes from the phase array. -/
theorem front_match_rebuild (N : ℕ) (neibs : ℕ → Fin 6 → Option ℕ)
    (states : ℕ → ℕ) (f : Frontier)
    (hclosed : NeibsClosed N neibs) (hsym : NeibsSym N neibs)
    (hrep : f.RepInv N) (hfm : FrontMatch N neibs states f) :
    (∀ i, i ∈ f.tpas ↔ i ∈ (rebuild_front states neibs N (Frontier.new N)).1.tpas) ∧
    (∀ i, i ∈ f.tpbs ↔ i ∈ (rebuild_front states neibs N (Frontier.new N)).1.tpbs) := by
  obtain ⟨-, h2, h3⟩ := rebuild_front_members N neibs states hclosed
  constructor
  · intro i
    rw [h2 i]
    constructor
    · intro hmem
      have hiN : i < N := hrep.lt_a i hmem
      obtain ⟨hi0, hany⟩ := (hfm.match_a i hiN).mp hmem
      obtain ⟨d, n, hrow, hn1⟩ := (any_neib_state_iff neibs states i 1).mp hany
      have hnN : n < N := hclosed i hiN d n hrow
      exact ⟨n, hnN, hn1, opposite_dir d, hsym i hiN d n hrow, hi0⟩
    · rintro ⟨c, hcN, hc1, d, hrow, hi0⟩
      have hiN : i < N := hclosed c hcN d i hrow
      refine (hfm.match_a i hiN).mpr ⟨hi0, ?_⟩
      exact (any_neib_state_iff neibs states i 1).mpr
        ⟨opposite_dir d, c, hsym c hcN d i hrow, hc1⟩
  · intro i
    rw [h3 i]
    constructor
    · intro hmem
      have hiN : i < N := hrep.lt_b i hmem
      obtain ⟨hi1, hany⟩ := (hfm.match_b i hiN).mp hmem
      obtain ⟨d, n, hrow, hn0⟩ := (any_neib_state_iff neibs states i 0).mp hany
      exact ⟨hiN, hi1, d, n, hrow, hn0⟩
    · rintro ⟨hiN, hi1, d, n, hrow, hn0⟩
      refine (hfm.match_b i hiN).mpr ⟨hi1, ?_⟩
      exact (any_neib_state_iff neibs states i 0).mpr ⟨d, n, hrow, hn0⟩

/-! ## Lattice symmetry (`Grid::precomp_neibs`) -/

theorem xyz_sub_in_range (n : ℕ) (p : Bool) (c : ℕ) (hc : c < n) :
    xyz_to_periodic_sub (c : ℤ) n p = some c := by
  unfold xyz_to_periodic_sub
  rw [if_pos ⟨Int.natCast_nonneg c, by exact_mod_cast hc⟩, Int.toNat_natCast]

theorem xyz_sub_step (n : ℕ) (p : Bool) (c c' : ℕ) (δ : ℤ)
    (hc : c < n) (hδ : δ = 1 ∨ δ = -1)
    (h : xyz_to_periodic_sub ((c : ℤ) + δ) n p = some c') :
    c' < n ∧ xyz_to_periodic_sub ((c' : ℤ) - δ) n p = some c := by
  unfold xyz_to_periodic_sub at h ⊢
  by_cases hin : 0 ≤ (c : ℤ) + δ ∧ (c : ℤ) + δ < (n : ℤ)
  · rw [if_pos hin] at h
    have heq : ((c : ℤ) + δ).toNat = c' := Option.some.inj h
    have hc' : c' < n := by omega
    refine ⟨hc', ?_⟩
    rw [if_pos (by omega)]
    simp only [Option.some.injEq]
    omega
  · rw [if_neg hin] at h
    cases p with
    | false => simp at h
    | true =>
      rw [if_pos rfl] at h
      have heq : (((c : ℤ) + δ).emod (n : ℤ)).toNat = c' := Option.some.inj h
      rcases hδ with rfl | rfl
      · have hcn : (c : ℤ) + 1 = (n : ℤ) := by omega
        have hval : ((c : ℤ) + 1).emod (n : ℤ) = 0 := by
          show ((c : ℤ) + 1) % (n : ℤ) = 0
          rw [hcn]
          exact Int.emod_self
        have hc0 : c' = 0 := by omega
        have hc'n : c' < n := by omega
        refine ⟨hc'n, ?_⟩
        rw [if_neg (by omega), if_pos rfl]
        simp only [Option.some.injEq]
        have hv2 : ((c' : ℤ) - 1).emod (n : ℤ) = (n : ℤ) - 1 := by
          show ((c' : ℤ) - 1) % (n : ℤ) = (n : ℤ) - 1
          have h1 : (c' : ℤ) - 1 = ((n : ℤ) - 1) + (n : ℤ) * (-1) := by
            rw [hc0]; push_cast; ring
          rw [h1, Int.add_mul_emod_self_left, Int.emod_eq_of_lt (by omega) (by omega)]
        rw [hv2]
        omega
      · have hcm : (c : ℤ) + -1 = -1 := by omega
        have hval : ((c : ℤ) + -1).emod (n : ℤ) = (n : ℤ) - 1 := by
          show ((c : ℤ) + -1) % (n : ℤ) = (n : ℤ) - 1
          rw [hcm]
          have h1 : (-1 : ℤ) = ((n : ℤ) - 1) + (n : ℤ) * (-1) := by ring
          rw [h1, Int.add_mul_emod_self_left, Int.emod_eq_of_lt (by omega) (by omega)]
        have hc'eq : c' = n - 1 := by omega
        have hc'n : c' < n := by omega
        refine ⟨hc'n, ?_⟩
        rw [if_neg (by omega), if_pos rfl]
        simp only [Option.some.injEq]
        have hv2 : ((c' : ℤ) - -1).emod (n : ℤ) = 0 := by
          show ((c' : ℤ) - -1) % (n : ℤ) = 0
          have h1 : (c' : ℤ) - -1 = (n : ℤ) := by omega
          rw [h1]
          exact Int.emod_self
        rw [hv2]
        omega

theorem decode_encode (ny nz a : ℕ) :
    a % nz + a / nz % ny * nz + a / (nz * ny) * (nz * ny) = a := by
  rw [← Nat.div_div_eq_div_mul]
  conv_rhs => rw [← Nat.div_add_mod a nz, ← Nat.div_add_mod (a / nz) ny]
  ring

theorem encode_decode (ny nz x y z : ℕ) (hy : y < ny) (hz : z < nz) :
    (z + y * nz + x * (nz * ny)) % nz = z ∧
    (z + y * nz + x * (nz * ny)) / nz % ny = y ∧
    (z + y * nz + x * (nz * ny)) / (nz * ny) = x := by
  have hnz : 0 < nz := by omega
  have hny : 0 < ny := by omega
  have harr : z + y * nz + x * (nz * ny) = z + nz * (y + ny * x) := by ring
  have hdiv : (z + y * nz + x * (nz * ny)) / nz = y + ny * x := by
    rw [harr, Nat.add_mul_div_left _ _ hnz, Nat.div_eq_of_lt hz, zero_add]
  refine ⟨?_, ?_, ?_⟩
  · rw [harr, Nat.add_mul_mod_self_left, Nat.mod_eq_of_lt hz]
  · rw [hdiv, Nat.add_mul_mod_self_left, Nat.mod_eq_of_lt hy]
  · rw [← Nat.div_div_eq_div_mul, hdiv, Nat.add_mul_div_left _ _ hny,
      Nat.div_eq_of_lt hy, zero_add]

theorem grid_neib_arg (nx ny nz : ℕ) (px py pz : Bool) (idx : ℕ) (d : Fin 6)
    (ox oy oz : ℤ) (hox : (dir_offset d).1 = ox)
    (hoy : (dir_offset d).2.1 = oy) (hoz : (dir_offset d).2.2 = oz) :
    grid_neib nx ny nz px py pz idx d =
    (match xyz_to_periodic_sub ((↑(idx / (nz * ny)) : ℤ) + ox) nx px,
          xyz_to_periodic_sub ((↑(idx / nz % ny) : ℤ) + oy) ny py,
          xyz_to_periodic_sub ((↑(idx % nz) : ℤ) + oz) nz pz with
    | some xp, some yp, some zp => some (zp + yp * nz + xp * (nz * ny))
    | _, _, _ => none) := by
  subst hox hoy hoz
  rfl

theorem dir_offset_cases (d : Fin 6) :
    (dir_offset d = (-1, 0, 0) ∧ dir_offset (opposite_dir d) = (1, 0, 0)) ∨
    (dir_offset d = (1, 0, 0) ∧ dir_offset (opposite_dir d) = (-1, 0, 0)) ∨
    (dir_offset d = (0, -1, 0) ∧ dir_offset (opposite_dir d) = (0, 1, 0)) ∨
    (dir_offset d = (0, 1, 0) ∧ dir_offset (opposite_dir d) = (0, -1, 0)) ∨
    (dir_offset d = (0, 0, -1) ∧ dir_offset (opposite_dir d) = (0, 0, 1)) ∨
    (dir_offset d = (0, 0, 1) ∧ dir_offset (opposite_dir d) = (0, 0, -1)) := by
  obtain ⟨dv, hdv⟩ := d
  interval_cases dv
  · exact Or.inl ⟨rfl, rfl⟩
  · exact Or.inr (Or.inl ⟨rfl, rfl⟩)
  · exact Or.inr (Or.inr (Or.inl ⟨rfl, rfl⟩))
  · exact Or.inr (Or.inr (Or.inr (Or.inl ⟨rfl, rfl⟩)))
  · exact Or.inr (Or.inr (Or.inr (Or.inr (Or.inl ⟨rfl, rfl⟩))))
  · exact Or.inr (Or.inr (Or.inr (Or.inr (Or.inr ⟨rfl, rfl⟩))))

theorem grid_neib_symm_aux (nx ny nz : ℕ) (px py pz : Bool) :
    NeibsSym (nx * ny * nz) (grid_neib nx ny nz px py pz) := by
  intro a ha d b hb
  have hnz : 0 < nz := by
    rcases Nat.eq_zero_or_pos nz with rfl | h
    · simp at ha
    · exact h
  have hny : 0 < ny := by
    rcases Nat.eq_zero_or_pos ny with rfl | h
    · simp at ha
    · exact h
  have hz : a % nz < nz := Nat.mod_lt a hnz
  have hy : a / nz % ny < ny := Nat.mod_lt _ hny
  have hx : a / (nz * ny) < nx := by
    refine Nat.div_lt_of_lt_mul ?_
    rw [show nz * ny * nx = nx * ny * nz from by ring]
    exact ha
  have hdec := decode_encode ny nz a
  rcases dir_offset_cases d with ⟨ho, hop⟩ | ⟨ho, hop⟩ | ⟨ho, hop⟩ |
    ⟨ho, hop⟩ | ⟨ho, hop⟩ | ⟨ho, hop⟩
  · rw [grid_neib_arg nx ny nz px py pz a d (-1) 0 0
      (by rw [ho]) (by rw [ho]) (by rw [ho])] at hb
    rw [grid_neib_arg nx ny nz px py pz b (opposite_dir d) 1 0 0
      (by rw [hop]) (by rw [hop]) (by rw [hop])]
    simp only [add_zero] at hb ⊢
    rw [xyz_sub_in_range ny py _ hy, xyz_sub_in_range nz pz _ hz] at hb
    cases hv : xyz_to_periodic_sub ((↑(a / (nz * ny)) : ℤ) + -1) nx px with
    | none => rw [hv] at hb; exact Option.noConfusion hb
    | some xp =>
      rw [hv] at hb
      have hb2 : a % nz + a / nz % ny * nz + xp * (nz * ny) = b := Option.some.inj hb
      obtain ⟨hvn, hback⟩ := xyz_sub_step nx px (a / (nz * ny)) xp (-1) hx (Or.inr rfl) hv
      obtain ⟨hbz, hby, hbx⟩ := encode_decode ny nz xp (a / nz % ny) (a % nz) hy hz
      rw [← hb2, hbx, hby, hbz,
        show ((xp : ℤ) + 1) = ((xp : ℤ) - -1) from by ring, hback,
        xyz_sub_in_range ny py _ hy, xyz_sub_in_range nz pz _ hz]
      exact congrArg some hdec
  · rw [grid_neib_arg nx ny nz px py pz a d 1 0 0
      (by rw [ho]) (by rw [ho]) (by rw [ho])] at hb
    rw [grid_neib_arg nx ny nz px py pz b (opposite_dir d) (-1) 0 0
      (by rw [hop]) (by rw [hop]) (by rw [hop])]
    simp only [add_zero] at hb ⊢
    rw [xyz_sub_in_range ny py _ hy, xyz_sub_in_range nz pz _ hz] at hb
    cases hv : xyz_to_periodic_sub ((↑(a / (nz * ny)) : ℤ) + 1) nx px with
    | none => rw [hv] at hb; exact Option.noConfusion hb
    | some xp =>
      rw [hv] at hb
      have hb2 : a % nz + a / nz % ny * nz + xp * (nz * ny) = b := Option.some.inj hb
      obtain ⟨hvn, hback⟩ := xyz_sub_step nx px (a / (nz * ny)) xp (1) hx (Or.inl rfl) hv
      obtain ⟨hbz, hby, hbx⟩ := encode_decode ny nz xp (a / nz % ny) (a % nz) hy hz
      rw [← hb2, hbx, hby, hbz,
        show ((xp : ℤ) + -1) = ((xp : ℤ) - 1) from by ring, hback,
        xyz_sub_in_range ny py _ hy, xyz_sub_in_range nz pz _ hz]
      exact congrArg some hdec
  · rw [grid_neib_arg nx ny nz px py pz a d 0 (-1) 0
      (by rw [ho]) (by rw [ho]) (by rw [ho])] at hb
    rw [grid_neib_arg nx ny nz px py pz b (opposite_dir d) 0 1 0
      (by rw [hop]) (by rw [hop]) (by rw [hop])]
    simp only [add_zero] at hb ⊢
    rw [xyz_sub_in_range nx px _ hx, xyz_sub_in_range nz pz _ hz] at hb
    cases hv : xyz_to_periodic_sub ((↑(a / nz % ny) : ℤ) + -1) ny py with
    | none => rw [hv] at hb; exact Option.noConfusion hb
    | some yp =>
      rw [hv] at hb
      have hb2 : a % nz + yp * nz + a / (nz * ny) * (nz * ny) = b := Option.some.inj hb
      obtain ⟨hvn, hback⟩ := xyz_sub_step ny py (a / nz % ny) yp (-1) hy (Or.inr rfl) hv
      obtain ⟨hbz, hby, hbx⟩ := encode_decode ny nz (a / (nz * ny)) yp (a % nz) hvn hz
      rw [← hb2, hbx, hby, hbz,
        show ((yp : ℤ) + 1) = ((yp : ℤ) - -1) from by ring, hback,
        xyz_sub_in_range nx px _ hx, xyz_sub_in_range nz pz _ hz]
      exact congrArg some hdec
  · rw [grid_neib_arg nx ny nz px py pz a d 0 1 0
      (by rw [ho]) (by rw [ho]) (by rw [ho])] at hb
    rw [grid_neib_arg nx ny nz px py pz b (opposite_dir d) 0 (-1) 0
      (by rw [hop]) (by rw [hop]) (by rw [hop])]
    simp only [add_zero] at hb ⊢
    rw [xyz_sub_in_range nx px _ hx, xyz_sub_in_range nz pz _ hz] at hb
    cases hv : xyz_to_periodic_sub ((↑(a / nz % ny) : ℤ) + 1) ny py with
    | none => rw [hv] at hb; exact Option.noConfusion hb
    | some yp =>
      rw [hv] at hb
      have hb2 : a % nz + yp * nz + a / (nz * ny) * (nz * ny) = b := Option.some.inj hb
      obtain ⟨hvn, hback⟩ := xyz_sub_step ny py (a / nz % ny) yp (1) hy (Or.inl rfl) hv
      obtain ⟨hbz, hby, hbx⟩ := encode_decode ny nz (a / (nz * ny)) yp (a % nz) hvn hz
      rw [← hb2, hbx, hby, hbz,
        show ((yp : ℤ) + -1) = ((yp : ℤ) - 1) from by ring, hback,
        xyz_sub_in_range nx px _ hx, xyz_sub_in_range nz pz _ hz]
      exact congrArg some hdec
  · rw [grid_neib_arg nx ny nz px py pz a d 0 0 (-1)
      (by rw [ho]) (by rw [ho]) (by rw [ho])] at hb
    rw [grid_neib_arg nx ny nz px py pz b (opposite_dir d) 0 0 1
      (by rw [hop]) (by rw [hop]) (by rw [hop])]
    simp only [add_zero] at hb ⊢
    rw [xyz_sub_in_range nx px _ hx, xyz_sub_in_range ny py _ hy] at hb
    cases hv : xyz_to_periodic_sub ((↑(a % nz) : ℤ) + -1) nz pz with
    | none => rw [hv] at hb; exact Option.noConfusion hb
    | some zp =>
      rw [hv] at hb
      have hb2 : zp + a / nz % ny * nz + a / (nz * ny) * (nz * ny) = b := Option.some.inj hb
      obtain ⟨hvn, hback⟩ := xyz_sub_step nz pz (a % nz) zp (-1) hz (Or.inr rfl) hv
      obtain ⟨hbz, hby, hbx⟩ := encode_decode ny nz (a / (nz * ny)) (a / nz % ny) zp hy hvn
      rw [← hb2, hbx, hby, hbz,
        show ((zp : ℤ) + 1) = ((zp : ℤ) - -1) from by ring, hback,
        xyz_sub_in_range nx px _ hx, xyz_sub_in_range ny py _ hy]
      exact congrArg some hdec
  · rw [grid_neib_arg nx ny nz px py pz a d 0 0 1
      (by rw [ho]) (by rw [ho]) (by rw [ho])] at hb
    rw [grid_neib_arg nx ny nz px py pz b (opposite_dir d) 0 0 (-1)
      (by rw [hop]) (by rw [hop]) (by rw [hop])]
    simp only [add_zero] at hb ⊢
    rw [xyz_sub_in_range nx px _ hx, xyz_sub_in_range ny py _ hy] at hb
    cases hv : xyz_to_periodic_sub ((↑(a % nz) : ℤ) + 1) nz pz with
    | none => rw [hv] at hb; exact Option.noConfusion hb
    | some zp =>
      rw [hv] at hb
      have hb2 : zp + a / nz % ny * nz + a / (nz * ny) * (nz * ny) = b := Option.some.inj hb
      obtain ⟨hvn, hback⟩ := xyz_sub_step nz pz (a % nz) zp (1) hz (Or.inl rfl) hv
      obtain ⟨hbz, hby, hbx⟩ := encode_decode ny nz (a / (nz * ny)) (a / nz % ny) zp hy hvn
      rw [← hb2, hbx, hby, hbz,
        show ((zp : ℤ) + -1) = ((zp : ℤ) - 1) from by ring, hback,
        xyz_sub_in_range nx px _ hx, xyz_sub_in_range ny py _ hy]
      exact congrArg some hdec

/-! ## Concrete instances used to exercise the kernel

A 1×1×3 fully periodic grid (`Grid::new(1, 1, 3, true, true, true)`,
linear sites `0, 1, 2` along z), the loaded phase line `1:0:0` and a
reservoir log with `n_gas = 4/5` so that one accepted attachment drives
the concentration negative. -/

/-- Modelled from `io_handler.rs` `load_states`: the only validation a
parsed line of `init_time_states.txt` receives is the length check
`values.len() != expected_len`. -/
def load_line_ok (values : List ℕ) (expected_len : ℕ) : Bool :=
  values.length == expected_len

def ex_neibs : ℕ → Fin 6 → Option ℕ :=
  grid_neib 1 1 3 true true true

def ex_state : ℕ → ℕ :=
  fun i => if i = 0 then 1 else 0

def ex_front : Frontier :=
  (rebuild_front ex_state ex_neibs 3 (Frontier.new 3)).1

def ex_simlog : SimLog :=
  { k_t := 1, p_b := 0, p_pow := 0, conc_eq := 1, conc := 2/5,
    conc_neg_count := 0, n_tot := 3, n_cryst := 1, n_gas := 4/5, dg := 0,
    tot_denergy := 0, mk_step := 0 }

def ex_item : Item :=
  { is_alive := true, state := ex_state, front := ex_front, simlog := ex_simlog }

def ex_oracle : Oracle :=
  { add_idxl := 0, add_acc := true, rem_idxl := 0, rem_acc := false,
    bal_gate := false, bal_idxl := 0 }

def ex_e : ℚ × ℚ × ℚ := (1, 1, 1)

def ex_flags : Bool × Bool × Bool := (true, false, false)

def ex_out1 : Item :=
  (mode_2_1_step ex_oracle ex_neibs ex_e 1 ex_flags ex_item).getD ex_item

def ex_out2 : Item :=
  (mode_2_2_step ex_oracle ex_neibs ex_e 1 ex_flags ex_item).getD ex_item

def ex_out3 : Item :=
  (mode_2_3_step ex_oracle ex_neibs ex_e 1 ex_flags ex_item).getD ex_item

/-- The all-gas loadable line `0:0:0`. -/
def ex_gas_line : List ℕ := [0, 0, 0]

def ex_gas_state : ℕ → ℕ := fun _ => 0

def ex_gas_item : Item :=
  { is_alive := true, state := ex_gas_state,
    front := (rebuild_front ex_gas_state ex_neibs 3 (Frontier.new 3)).1,
    simlog := ex_simlog }

/-- Modelled from the spec: one axis's contribution to the attachment
surface-energy change — `+E_axis2` for 0 crystal neighbors in the ± pair,
`−E_axis2` for 2, nothing for exactly 1. -/
def spec_axis_attach (e2 : ℚ) (k : ℕ) : ℚ :=
  if k = 0 then e2 else if k = 2 then -e2 else 0

/-! ## Remaining helper lemmas -/

theorem front_disjoint_of_inv (N : ℕ) (neibs : ℕ → Fin 6 → Option ℕ)
    (states : ℕ → ℕ) (f : Frontier) (hrep : f.RepInv N)
    (hfm : FrontMatch N neibs states f) : front_disjoint f := by
  intro i hiA hiB
  have hiN : i < N := hrep.lt_a i hiA
  have h0 : states i = 0 := ((hfm.match_a i hiN).mp hiA).1
  have h1 : states i = 1 := ((hfm.match_b i hiN).mp hiB).1
  rw [h0] at h1
  exact absurd h1 (by norm_num)

theorem surf_attach_axis (ex2 ey2 ez2 : ℚ) (a b c : ℕ) :
    surf_attach ex2 ey2 ez2 (a, b, c) =
      spec_axis_attach ex2 a + spec_axis_attach ey2 b + spec_axis_attach ez2 c ∧
    surf_detach ex2 ey2 ez2 (a, b, c) = -surf_attach ex2 ey2 ez2 (a, b, c) := by
  rcases a with _ | _ | _ | a <;> rcases b with _ | _ | _ | b <;>
    rcases c with _ | _ | _ | c <;>
    simp [surf_attach, surf_detach, spec_axis_attach] <;> ring

/-! ## The claims -/

/-- C1 (corrected): a mode-2 sub-event that drives the concentration
negative is NOT treated as a rejection.  `SimLog::update_conc` only
counts the negative value: the accepted attachment (resp. detachment)
still flips the site, keeps `n_cryst`/`n_gas` at their tentative
values, stores the negative `conc` and accumulates the surface energy;
nothing is reverted. -/
theorem C1_negative_conc_commits (N : ℕ) (neibs : ℕ → Fin 6 → Option ℕ)
    (hclosed : NeibsClosed N neibs) (hsym : NeibsSym N neibs)
    (step_id : ℕ) (surfA surfD : ℚ) (it : Item) (ga gd : ℕ)
    (hK : KernelInv N neibs it)
    (hgA : ga ∈ it.front.tpas) (hgB : gd ∈ it.front.tpbs) :
    (∃ it' done,
      attach_commit neibs step_id (compute_neighbor_sums it.state (neibs ga))
          surfA ga it = some (it', done) ∧
      it'.state ga = 1 ∧
      it'.simlog.n_cryst = it.simlog.n_cryst + 1 ∧
      it'.simlog.n_gas = it.simlog.n_gas - 1 ∧
      it'.simlog.conc =
        (it.simlog.n_gas - 1) / (it.simlog.n_tot - (it.simlog.n_cryst + 1)) ∧
      (it'.simlog.conc < 0 →
        it'.simlog.conc_neg_count = it.simlog.conc_neg_count + 1) ∧
      it'.simlog.tot_denergy = it.simlog.tot_denergy + surfA) ∧
    (∃ it' done,
      detach_commit neibs step_id (compute_neighbor_sums it.state (neibs gd))
          surfD gd it = some (it', done) ∧
      it'.state gd = 0 ∧
      it'.simlog.n_cryst = it.simlog.n_cryst - 1 ∧
      it'.simlog.n_gas = it.simlog.n_gas + 1 ∧
      it'.simlog.conc =
        (it.simlog.n_gas + 1) / (it.simlog.n_tot - (it.simlog.n_cryst - 1)) ∧
      (it'.simlog.conc < 0 →
        it'.simlog.conc_neg_count = it.simlog.conc_neg_count + 1) ∧
      it'.simlog.tot_denergy = it.simlog.tot_denergy + surfD) := by
  constructor
  · obtain ⟨it', done, hco, hstate, hsl, -, -⟩ :=
      attach_commit_spec N neibs hclosed hsym step_id surfA it ga hK hgA
    obtain ⟨h1, h2, h3, h4, h5, -, -, -, -, -, -⟩ := hsl
    refine ⟨it', done, hco, ?_, h1, h2, h3, ?_, h5⟩
    · rw [hstate]
      exact upd_same _ _ _
    · intro hneg
      rw [h4, if_pos hneg]
  · obtain ⟨it', done, hco, hstate, hsl, -, -⟩ :=
      detach_commit_spec N neibs hclosed hsym step_id surfD it gd hK hgB
    obtain ⟨h1, h2, h3, h4, h5, -, -, -, -, -, -⟩ := hsl
    refine ⟨it', done, hco, ?_, ?_, ?_, ?_, ?_, h5⟩
    · rw [hstate]
      exact upd_same _ _ _
    · rw [h1]; ring
    · rw [h2]; ring
    · rw [h3]; ring_nf
    · intro hneg
      rw [h4, if_pos hneg]

/-- C1's counterexample: on the 1×1×3 grid with phase line `1:0:0` and
`n_gas = 4/5`, one accepted attachment in `mode_2_1_step` makes
`conc = -1/5 < 0`; `conc_neg_count` is incremented, yet the flip to
crystal, `n_cryst = 2`, `n_gas = -1/5` and the stored negative `conc`
all stand and the replica continues alive — nothing was reverted. -/
theorem C1_counterexample :
    mode_2_1_step ex_oracle ex_neibs ex_e 1 ex_flags ex_item = some ex_out1 ∧
    ex_out1.simlog.conc = -(1/5) ∧ ex_out1.simlog.conc < 0 ∧
    ex_out1.simlog.conc_neg_count = 1 ∧ ex_item.simlog.conc_neg_count = 0 ∧
    ex_out1.state 2 = 1 ∧ ex_item.state 2 = 0 ∧
    ex_out1.simlog.n_cryst = 2 ∧ ex_out1.simlog.n_gas = -(1/5) ∧
    ex_out1.front.tpbs = [0, 2] ∧ ex_out1.is_alive = true :=
  ⟨rfl,
   by rw [show ex_out1.simlog.conc = ((4/5 - 1) / (3 - (1 + 1)) : ℚ) from rfl]
      norm_num,
   by rw [show ex_out1.simlog.conc = ((4/5 - 1) / (3 - (1 + 1)) : ℚ) from rfl]
      norm_num,
   by rw [show ex_out1.simlog.conc_neg_count =
        (if ((4/5 - 1) / (3 - (1 + 1)) : ℚ) < 0 then 0 + 1 else 0) from rfl,
      if_pos (show ((4/5 - 1) / (3 - (1 + 1)) : ℚ) < 0 by norm_num)],
   by decide, by decide, by decide,
   by rw [show ex_out1.simlog.n_cryst = ((1 : ℚ) + 1) from rfl]
      norm_num,
   by rw [show ex_out1.simlog.n_gas = ((4 : ℚ)/5 - 1) from rfl]
      norm_num,
   by decide, by decide⟩

/-- C1's instantiation on the concrete replica: both commits succeed and
keep their tentative updates. -/
theorem C1_negative_conc_commits_witness :
    (∃ it' done,
      attach_commit ex_neibs 1 (compute_neighbor_sums ex_item.state (ex_neibs 2))
          0 2 ex_item = some (it', done) ∧
      it'.state 2 = 1 ∧
      it'.simlog.n_cryst = ex_item.simlog.n_cryst + 1 ∧
      it'.simlog.n_gas = ex_item.simlog.n_gas - 1 ∧
      it'.simlog.conc =
        (ex_item.simlog.n_gas - 1) /
          (ex_item.simlog.n_tot - (ex_item.simlog.n_cryst + 1)) ∧
      (it'.simlog.conc < 0 →
        it'.simlog.conc_neg_count = ex_item.simlog.conc_neg_count + 1) ∧
      it'.simlog.tot_denergy = ex_item.simlog.tot_denergy + 0) ∧
    (∃ it' done,
      detach_commit ex_neibs 1 (compute_neighbor_sums ex_item.state (ex_neibs 0))
          0 0 ex_item = some (it', done) ∧
      it'.state 0 = 0 ∧
      it'.simlog.n_cryst = ex_item.simlog.n_cryst - 1 ∧
      it'.simlog.n_gas = ex_item.simlog.n_gas + 1 ∧
      it'.simlog.conc =
        (ex_item.simlog.n_gas + 1) /
          (ex_item.simlog.n_tot - (ex_item.simlog.n_cryst - 1)) ∧
      (it'.simlog.conc < 0 →
        it'.simlog.conc_neg_count = ex_item.simlog.conc_neg_count + 1) ∧
      it'.simlog.tot_denergy = ex_item.simlog.tot_denergy + 0) :=
  C1_negative_conc_commits 3 ex_neibs (by decide) (by decide) 1 0 0 ex_item 2 0
    (by decide) (by decide) (by decide)

/-- C2 (corrected): a successful mode-2 kernel step does change the
replica's own `n_gas` (`update_n_sizes` writes both fields).  What holds
is the frame `simlog_frame`: the sum `n_cryst + n_gas` is conserved and
`dg`, `k_t`, `n_tot`, `conc_eq`, `p_b`, `p_pow` are untouched, for all
three kernels. -/
theorem C2_reservoir_scalars (N : ℕ) (neibs : ℕ → Fin 6 → Option ℕ)
    (hclosed : NeibsClosed N neibs) (hsym : NeibsSym N neibs)
    (o : Oracle) (e : ℚ × ℚ × ℚ) (step_id : ℕ) (flags : Bool × Bool × Bool)
    (it1 it1' it2 it2' it3 it3' : Item)
    (hK1 : KernelInv N neibs it1) (hK2 : KernelInv N neibs it2)
    (hK3 : KernelInv N neibs it3)
    (h1 : mode_2_1_step o neibs e step_id flags it1 = some it1')
    (h2 : mode_2_2_step o neibs e step_id flags it2 = some it2')
    (h3 : mode_2_3_step o neibs e step_id flags it3 = some it3') :
    simlog_frame it1.simlog it1'.simlog ∧
    simlog_frame it2.simlog it2'.simlog ∧
    simlog_frame it3.simlog it3'.simlog :=
  ⟨(mode_2_1_step_some N neibs hclosed hsym o e step_id flags it1 it1' hK1 h1).1,
   (mode_2_2_step_some N neibs hclosed hsym o e step_id flags it2 it2' hK2 h2).1,
   (mode_2_3_step_some N neibs hclosed hsym o e step_id flags it3 it3' hK3 h3).1⟩

/-- C2's counterexample: the same accepted attachment changes the
replica's own `n_gas` from `4/5` to `-1/5` (and its `conc`), refuting
"the kernel does not modify its own `n_gas`". -/
theorem C2_counterexample :
    mode_2_1_step ex_oracle ex_neibs ex_e 1 ex_flags ex_item = some ex_out1 ∧
    ex_out1.simlog.n_gas ≠ ex_item.simlog.n_gas ∧
    ex_item.simlog.n_gas = 4/5 ∧ ex_out1.simlog.n_gas = -(1/5) ∧
    ex_out1.simlog.n_cryst + ex_out1.simlog.n_gas =
      ex_item.simlog.n_cryst + ex_item.simlog.n_gas :=
  ⟨rfl,
   by rw [show ex_out1.simlog.n_gas = ((4 : ℚ)/5 - 1) from rfl,
        show ex_item.simlog.n_gas = ((4 : ℚ)/5) from rfl]
      norm_num,
   rfl,
   by rw [show ex_out1.simlog.n_gas = ((4 : ℚ)/5 - 1) from rfl]
      norm_num,
   by rw [show ex_out1.simlog.n_gas = ((4 : ℚ)/5 - 1) from rfl,
        show ex_out1.simlog.n_cryst = ((1 : ℚ) + 1) from rfl,
        show ex_item.simlog.n_gas = ((4 : ℚ)/5) from rfl,
        show ex_item.simlog.n_cryst = ((1 : ℚ)) from rfl]
      norm_num⟩

/-- C2's instantiation: the frame holds on the three concrete runs. -/
theorem C2_reservoir_scalars_witness :
    simlog_frame ex_item.simlog ex_out1.simlog ∧
    simlog_frame ex_item.simlog ex_out2.simlog ∧
    simlog_frame ex_item.simlog ex_out3.simlog :=
  C2_reservoir_scalars 3 ex_neibs (by decide) (by decide) ex_oracle ex_e 1
    ex_flags ex_item ex_out1 ex_item ex_out2 ex_item ex_out3
    (by decide) (by decide) (by decide) rfl rfl rfl

/-- C3 (corrected): `mode_2_3_step` raises the **unclamped** base
`1 - ΔE_surf/E_isol` to the real power `p_pow`; the kernel's probability
agrees with the spec's clamped formula only when that base is
nonnegative. -/
theorem C3_clamped_agree (p_b p_pow surf eisol : ℝ)
    (h : 0 ≤ 1 - surf / eisol) :
    mode_2_3_ballistic_prob p_b p_pow surf eisol =
      spec_ballistic_prob_clamped p_b p_pow surf eisol := by
  unfold mode_2_3_ballistic_prob spec_ballistic_prob_clamped
  rw [max_eq_right h]

/-- C3's counterexample: for `p_b = 1`, `p_pow = 2`, `ΔE_surf = 2`,
`E_isol = 1` the base is `-1 ≤ 0`, so the spec's probability is `0` and
the event is never accepted — but `powf(-1, 2) = 1`, the kernel's
probability is `1`, and the draw `u = 1/2` is accepted. -/
theorem C3_counterexample :
    mode_2_3_ballistic_prob 1 2 2 1 = 1 ∧
    spec_ballistic_prob_clamped 1 2 2 1 = 0 ∧
    (1 : ℝ) - 2 / 1 ≤ 0 ∧
    ballistic_accept_23 1 2 2 1 (1/2) := by
  have h1 : ((-1 : ℝ)) ^ (2 : ℝ) = 1 := by
    rw [show (2 : ℝ) = ((2 : ℕ) : ℝ) by norm_num, Real.rpow_natCast]
    norm_num
  have hb : (1 : ℝ) - 2 / 1 = -1 := by norm_num
  refine ⟨?_, ?_, by norm_num, ?_⟩
  · unfold mode_2_3_ballistic_prob
    rw [hb, h1]
    norm_num
  · unfold spec_ballistic_prob_clamped
    rw [hb, show max (0 : ℝ) (-1) = 0 from max_eq_left (by norm_num),
      Real.zero_rpow (by norm_num), mul_zero]
  · unfold ballistic_accept_23 mode_2_3_ballistic_prob
    rw [hb, h1]
    norm_num

/-- C3's instantiation: with base `1 - 0/1 = 1 ≥ 0` the two formulas
agree. -/
theorem C3_clamped_agree_witness :
    mode_2_3_ballistic_prob 1 2 0 1 = spec_ballistic_prob_clamped 1 2 0 1 :=
  C3_clamped_agree 1 2 0 1 (by norm_num)

/-- C4 (confirmed): any of the three mode-2 kernel steps, started under
the frontier invariants and leaving the replica alive, re-establishes
them: `tpas` (GasAdj) is exactly the set of gas sites with an existing
crystal neighbor, `tpbs` (CrystalAdj) exactly the crystal sites with an
existing gas neighbor, the two are disjoint, and the member sets equal
those `rebuild_front` recomputes from the phase array alone. -/
theorem C4_front_invariant (N : ℕ) (neibs : ℕ → Fin 6 → Option ℕ)
    (hclosed : NeibsClosed N neibs) (hsym : NeibsSym N neibs)
    (o : Oracle) (e : ℚ × ℚ × ℚ) (step_id : ℕ) (flags : Bool × Bool × Bool)
    (it it' : Item) (hK : KernelInv N neibs it)
    (heq : mode_2_1_step o neibs e step_id flags it = some it' ∨
           mode_2_2_step o neibs e step_id flags it = some it' ∨
           mode_2_3_step o neibs e step_id flags it = some it')
    (halive : it'.is_alive = true) :
    FrontMatch N neibs it'.state it'.front ∧ front_disjoint it'.front ∧
    (∀ i, i ∈ it'.front.tpas ↔
      i ∈ (rebuild_front it'.state neibs N (Frontier.new N)).1.tpas) ∧
    (∀ i, i ∈ it'.front.tpbs ↔
      i ∈ (rebuild_front it'.state neibs N (Frontier.new N)).1.tpbs) := by
  have hK' : KernelInv N neibs it' := by
    rcases heq with h | h | h
    · exact ((mode_2_1_step_some N neibs hclosed hsym o e step_id flags it it'
        hK h).2 halive).1
    · exact ((mode_2_2_step_some N neibs hclosed hsym o e step_id flags it it'
        hK h).2 halive).1
    · exact ((mode_2_3_step_some N neibs hclosed hsym o e step_id flags it it'
        hK h).2 halive).1
  obtain ⟨hA, hB⟩ := front_match_rebuild N neibs it'.state it'.front hclosed
    hsym hK'.rep hK'.fm
  exact ⟨hK'.fm, front_disjoint_of_inv N neibs it'.state it'.front hK'.rep
    hK'.fm, hA, hB⟩

/-- C4's instantiation: the invariants after the concrete accepted
attachment. -/
theorem C4_front_invariant_witness :
    FrontMatch 3 ex_neibs ex_out1.state ex_out1.front ∧
    front_disjoint ex_out1.front ∧
    (∀ i, i ∈ ex_out1.front.tpas ↔
      i ∈ (rebuild_front ex_out1.state ex_neibs 3 (Frontier.new 3)).1.tpas) ∧
    (∀ i, i ∈ ex_out1.front.tpbs ↔
      i ∈ (rebuild_front ex_out1.state ex_neibs 3 (Frontier.new 3)).1.tpbs) :=
  C4_front_invariant 3 ex_neibs (by decide) (by decide) ex_oracle ex_e 1
    ex_flags ex_item ex_out1 (by decide) (Or.inl rfl) (by decide)

/-- C5 (confirmed): the Metropolis tests — an attachment proposal uses
`d_e = ΔE_surf − Δg`, a thermal detachment `d_e = ΔE_surf + Δg`, each
accepted iff `d_e < 0` or `exp(−d_e/k_T) > U`; a proposal with
`d_e = 0` is always accepted since `exp 0 = 1 > U` strictly
(`U ∈ [0, 1)`). -/
theorem C5_metropolis (surf dg k_t u : ℝ) (hu : u < 1) :
    (accept_attach surf dg k_t u ↔
      (surf - dg < 0 ∨ Real.exp (-(surf - dg) / k_t) > u)) ∧
    (accept_detach surf dg k_t u ↔
      (surf + dg < 0 ∨ Real.exp (-(surf + dg) / k_t) > u)) ∧
    (surf - dg = 0 → accept_attach surf dg k_t u) ∧
    (surf + dg = 0 → accept_detach surf dg k_t u) := by
  refine ⟨Iff.rfl, Iff.rfl, ?_, ?_⟩
  · intro h0
    right
    rw [h0, neg_zero, zero_div, Real.exp_zero]
    exact hu
  · intro h0
    right
    rw [h0, neg_zero, zero_div, Real.exp_zero]
    exact hu

/-- C5's instantiation at `ΔE_surf = 1`, `Δg = 1`, `k_T = 1`,
`U = 1/2`. -/
theorem C5_metropolis_witness :
    (accept_attach 1 1 1 (1/2) ↔
      ((1 : ℝ) - 1 < 0 ∨ Real.exp (-((1 : ℝ) - 1) / 1) > 1/2)) ∧
    (accept_detach 1 1 1 (1/2) ↔
      ((1 : ℝ) + 1 < 0 ∨ Real.exp (-((1 : ℝ) + 1) / 1) > 1/2)) ∧
    ((1 : ℝ) - 1 = 0 → accept_attach 1 1 1 (1/2)) ∧
    ((1 : ℝ) + 1 = 0 → accept_detach 1 1 1 (1/2)) :=
  C5_metropolis 1 1 1 (1/2) (by norm_num)

/-- C6 (confirmed): the kernel's surface-energy change is the per-axis
sum — each axis pair with 0 crystal neighbors contributes `+E_axis2`,
with 2 contributes `−E_axis2`, with exactly 1 contributes nothing
(sentinel neighbors counting as non-crystal), and detachment negates
every sign. -/
theorem C6_surface_energy (ex2 ey2 ez2 : ℚ) (states : ℕ → ℕ)
    (row : Fin 6 → Option ℕ) :
    surf_attach ex2 ey2 ez2 (compute_neighbor_sums states row) =
      spec_axis_attach ex2 (compute_neighbor_sums states row).1 +
      spec_axis_attach ey2 (compute_neighbor_sums states row).2.1 +
      spec_axis_attach ez2 (compute_neighbor_sums states row).2.2 ∧
    surf_detach ex2 ey2 ez2 (compute_neighbor_sums states row) =
      -surf_attach ex2 ey2 ez2 (compute_neighbor_sums states row) ∧
    (∀ d, row d = none → neib_is_crystal states row d = 0) := by
  refine ⟨?_, ?_, ?_⟩
  · rcases h : compute_neighbor_sums states row with ⟨a, b, c⟩
    exact (surf_attach_axis ex2 ey2 ez2 a b c).1
  · rcases h : compute_neighbor_sums states row with ⟨a, b, c⟩
    exact (surf_attach_axis ex2 ey2 ez2 a b c).2
  · intro d hd
    unfold neib_is_crystal
    rw [hd]

/-- C7 (corrected): the sampled side can be empty in a reachable state —
the loader accepts the all-gas line, whose frontier is empty, and the
first kernel step panics.  What holds is: under the kernel invariant
with both frontier sides non-empty, every sample is in bounds and none
of the three kernels panics. -/
theorem C7_no_panic_under_invariant (N : ℕ) (neibs : ℕ → Fin 6 → Option ℕ)
    (hclosed : NeibsClosed N neibs) (hsym : NeibsSym N neibs)
    (o : Oracle) (e : ℚ × ℚ × ℚ) (step_id : ℕ) (flags : Bool × Bool × Bool)
    (it : Item) (hK : KernelInv N neibs it)
    (hsa : it.front.tpas_size ≠ 0) (hsb : it.front.tpbs_size ≠ 0) :
    (∃ r, mode_2_1_step o neibs e step_id flags it = some r) ∧
    (∃ r, mode_2_2_step o neibs e step_id flags it = some r) ∧
    (∃ r, mode_2_3_step o neibs e step_id flags it = some r) :=
  ⟨mode_2_1_step_isSome N neibs hclosed hsym o e step_id flags it hK hsa hsb,
   mode_2_2_step_isSome N neibs hclosed hsym o e step_id flags it hK hsa hsb,
   mode_2_3_step_isSome N neibs hclosed hsym o e step_id flags it hK hsa hsb⟩

/-- C7's counterexample: the all-gas line `0:0:0` passes the loader's
only check (the length test), its rebuilt frontier is empty, and both
`mode_2_1_step` (on an add step) and `mode_2_3_step` (whose ballistic
sub-event samples unconditionally, even with every flag off) hit
`random_range(0..0)` — the kernel panics on a loadable state. -/
theorem C7_counterexample :
    load_line_ok ex_gas_line 3 = true ∧
    (∀ i, i < 3 → ex_gas_item.state i = 0) ∧
    ex_gas_item.front.tpas_size = 0 ∧ ex_gas_item.front.tpbs_size = 0 ∧
    mode_2_1_step ex_oracle ex_neibs ex_e 1 (true, false, false) ex_gas_item
      = none ∧
    mode_2_3_step ex_oracle ex_neibs ex_e 1 (false, false, false) ex_gas_item
      = none :=
  ⟨rfl, by decide, rfl, rfl, rfl, rfl⟩

/-- C7's instantiation: no panic on the concrete replica with both sides
non-empty. -/
theorem C7_no_panic_witness :
    (∃ r, mode_2_1_step ex_oracle ex_neibs ex_e 1 ex_flags ex_item = some r) ∧
    (∃ r, mode_2_2_step ex_oracle ex_neibs ex_e 1 ex_flags ex_item = some r) ∧
    (∃ r, mode_2_3_step ex_oracle ex_neibs ex_e 1 ex_flags ex_item = some r) :=
  C7_no_panic_under_invariant 3 ex_neibs (by decide) (by decide) ex_oracle ex_e
    1 ex_flags ex_item (by decide) (by decide) (by decide)

/-- C8 (confirmed): the precomputed neighbor table is symmetric — for
any dimensions and periodicity flags, if site `b` is `a`'s neighbor in
direction `d` of the fixed order `[-x, +x, -y, +y, -z, +z]`, then `a` is
`b`'s neighbor in the opposite direction (`-axis ↔ +axis`). -/
theorem C8_neib_table_symmetric (nx ny nz : ℕ) (px py pz : Bool) :
    NeibsSym (nx * ny * nz) (grid_neib nx ny nz px py pz) :=
  grid_neib_symm_aux nx ny nz px py pz

/-- C9 (corrected): add-then-remove is a round trip only for a site that
is a member of **neither** kind (tag 0): then both vectors, both size
counters, every membership tag and the reverse-map entries of all other
sites return to their prior values.  (For a site tagged by the *other*
kind the pair clobbers that tag — the counterexample.) -/
theorem C9_add_rem_roundtrip (f : Frontier) (x : ℕ)
    (hx : f.idxg_to_type x = 0) :
    (∃ f', (f.tpa_add x).tpa_rem x = some f' ∧
      f'.tpas = f.tpas ∧ f'.tpbs = f.tpbs ∧
      f'.tpas_size = f.tpas_size ∧ f'.tpbs_size = f.tpbs_size ∧
      f'.idxg_to_type = f.idxg_to_type ∧
      (∀ i, i ≠ x → f'.idxg_to_idxl i = f.idxg_to_idxl i)) ∧
    (∃ f', (f.tpb_add x).tpb_rem x = some f' ∧
      f'.tpas = f.tpas ∧ f'.tpbs = f.tpbs ∧
      f'.tpas_size = f.tpas_size ∧ f'.tpbs_size = f.tpbs_size ∧
      f'.idxg_to_type = f.idxg_to_type ∧
      (∀ i, i ≠ x → f'.idxg_to_idxl i = f.idxg_to_idxl i)) := by
  constructor
  · have h2 : ¬ f.idxg_to_type x = 2 := by rw [hx]; decide
    refine ⟨{ f with
        idxg_to_type := upd (upd f.idxg_to_type x 2) x 0,
        tpas := (f.tpas ++ [x]).dropLast,
        idxg_to_idxl := upd (upd f.idxg_to_idxl x f.tpas_size) x 0,
        tpas_size := f.tpas_size + 1 - 1 }, ?_, ?_, rfl, ?_, rfl, ?_, ?_⟩
    · rw [Frontier.tpa_add, if_neg h2, Frontier.tpa_rem]
      dsimp only
      simp only [upd_same]
      rw [if_neg (show ¬((2 : ℕ) ≠ 2) by decide), List.getLast?_concat]
      dsimp only
      rw [if_neg (show ¬(f.tpas_size ≠ f.tpas_size + 1 - 1) by omega)]
    · exact List.dropLast_concat
    · exact Nat.add_sub_cancel f.tpas_size 1
    · funext i
      dsimp only
      by_cases hix : i = x
      · rw [hix, upd_same, hx]
      · rw [upd_ne _ _ hix, upd_ne _ _ hix]
    · intro i hix
      dsimp only
      rw [upd_ne _ _ hix, upd_ne _ _ hix]
  · have h3 : ¬ f.idxg_to_type x = 3 := by rw [hx]; decide
    refine ⟨{ f with
        idxg_to_type := upd (upd f.idxg_to_type x 3) x 0,
        tpbs := (f.tpbs ++ [x]).dropLast,
        idxg_to_idxl := upd (upd f.idxg_to_idxl x f.tpbs_size) x 0,
        tpbs_size := f.tpbs_size + 1 - 1 }, ?_, rfl, ?_, rfl, ?_, ?_, ?_⟩
    · rw [Frontier.tpb_add, if_neg h3, Frontier.tpb_rem]
      dsimp only
      simp only [upd_same]
      rw [if_neg (show ¬((3 : ℕ) ≠ 3) by decide), List.getLast?_concat]
      dsimp only
      rw [if_neg (show ¬(f.tpbs_size ≠ f.tpbs_size + 1 - 1) by omega)]
    · exact List.dropLast_concat
    · exact Nat.add_sub_cancel f.tpbs_size 1
    · funext i
      dsimp only
      by_cases hix : i = x
      · rw [hix, upd_same, hx]
      · rw [upd_ne _ _ hix, upd_ne _ _ hix]
    · intro i hix
      dsimp only
      rw [upd_ne _ _ hix, upd_ne _ _ hix]

/-- C9's counterexample: site 0 is a `tpbs` member (tag 3) and not a
`tpas` member, yet `tpa_add 0; tpa_rem 0` ends with its tag cleared to
0 while it still sits in `tpbs` — the prior state is not restored. -/
theorem C9_counterexample :
    ∃ f', (((Frontier.new 2).tpb_add 0).tpa_add 0).tpa_rem 0 = some f' ∧
      f'.idxg_to_type 0 = 0 ∧
      ((Frontier.new 2).tpb_add 0).idxg_to_type 0 = 3 ∧
      f'.tpbs = ((Frontier.new 2).tpb_add 0).tpbs ∧
      0 ∉ ((Frontier.new 2).tpb_add 0).tpas :=
  ⟨_, rfl, by decide, by decide, by decide, by decide⟩

/-- C9's instantiation on a concrete tag-free site. -/
theorem C9_add_rem_roundtrip_witness :
    (∃ f', ((Frontier.new 2).tpa_add 1).tpa_rem 1 = some f' ∧
      f'.tpas = (Frontier.new 2).tpas ∧ f'.tpbs = (Frontier.new 2).tpbs ∧
      f'.tpas_size = (Frontier.new 2).tpas_size ∧
      f'.tpbs_size = (Frontier.new 2).tpbs_size ∧
      f'.idxg_to_type = (Frontier.new 2).idxg_to_type ∧
      (∀ i, i ≠ 1 → f'.idxg_to_idxl i = (Frontier.new 2).idxg_to_idxl i)) ∧
    (∃ f', ((Frontier.new 2).tpb_add 1).tpb_rem 1 = some f' ∧
      f'.tpas = (Frontier.new 2).tpas ∧ f'.tpbs = (Frontier.new 2).tpbs ∧
      f'.tpas_size = (Frontier.new 2).tpas_size ∧
      f'.tpbs_size = (Frontier.new 2).tpbs_size ∧
      f'.idxg_to_type = (Frontier.new 2).idxg_to_type ∧
      (∀ i, i ≠ 1 → f'.idxg_to_idxl i = (Frontier.new 2).idxg_to_idxl i)) :=
  C9_add_rem_roundtrip (Frontier.new 2) 1 (by decide)

/-- C10 (corrected): the structural invariant (sizes = lengths, nodup
vectors, tag ↔ membership, reverse-map correctness — `Frontier.RepInv`)
is preserved by `tpa_rem`/`tpb_rem` unconditionally (the `pop` never
fails), but by `tpa_add`/`tpb_add` only when the argument is not a
member of the other kind; an arbitrary in-range call sequence can break
it (the counterexample). -/
theorem C10_repinv_ops (N : ℕ) (f : Frontier) (x : ℕ) (hInv : f.RepInv N)
    (hxN : x < N) :
    (x ∉ f.tpbs → (f.tpa_add x).RepInv N) ∧
    (x ∉ f.tpas → (f.tpb_add x).RepInv N) ∧
    (∃ f', f.tpa_rem x = some f' ∧ f'.RepInv N) ∧
    (∃ f', f.tpb_rem x = some f' ∧ f'.RepInv N) := by
  refine ⟨fun h => (tpa_add_spec N f x hInv hxN h).1,
    fun h => (tpb_add_spec N f x hInv hxN h).1, ?_, ?_⟩
  · obtain ⟨f', h1, h2, -⟩ := tpa_rem_spec N f x hInv hxN
    exact ⟨f', h1, h2⟩
  · obtain ⟨f', h1, h2, -⟩ := tpb_rem_spec N f x hInv hxN
    exact ⟨f', h1, h2⟩

/-- C10's counterexample: from `Frontier::new(2)` the in-range sequence
`tpb_add 0; tpa_add 0` leaves the structure invariant broken (site 0 is
an entry of `tpbs` but its tag is 2), though it held one call
earlier. -/
theorem C10_counterexample :
    ¬ (((Frontier.new 2).tpb_add 0).tpa_add 0).RepInv 2 ∧
    ((Frontier.new 2).tpb_add 0).RepInv 2 := by decide

/-- C10's instantiation on the empty frontier. -/
theorem C10_repinv_ops_witness :
    (0 ∉ (Frontier.new 2).tpbs → ((Frontier.new 2).tpa_add 0).RepInv 2) ∧
    (0 ∉ (Frontier.new 2).tpas → ((Frontier.new 2).tpb_add 0).RepInv 2) ∧
    (∃ f', (Frontier.new 2).tpa_rem 0 = some f' ∧ f'.RepInv 2) ∧
    (∃ f', (Frontier.new 2).tpb_rem 0 = some f' ∧ f'.RepInv 2) :=
  C10_repinv_ops 2 (Frontier.new 2) 0 (by decide) (by decide)

end EMC
